import Mathlib

/-!
# Beaver-triple generation (`apps/tpl`): a shallow embedding

The Go sources `utils.go`, `parties.go`, `network.go`, `offline_he.go`,
`offline_mhe.go`, `genrlk.go` and `main.go` are embedded as Lean definitions.
Conventions:

* a `uint64` is a `Nat`, and every operation that can wrap is written with an
  explicit `% 2 ^ 64`;
* a slice is a `List`; an index out of range, a nil dereference and a division
  by zero are Go panics and are modelled by `none`;
* values drawn from a random source (`sampleUniformVector`, the Gaussian
  sampler) are inputs of the model;
* a Go map is iterated in an unspecified order: the order is an input of the
  model, given as the list of the keys.
-/

namespace Tpl

/-! ## Definitions -/

/-- Party identifier, `type PartyID uint64` in `parties.go`. -/
abbrev PartyID := Nat

/-- One triple, `type Triple struct { A, B, C uint64 }` in `network.go`. -/
structure Triple where
  A : Nat
  B : Nat
  C : Nat
deriving DecidableEq, Repr

/-! ### Vector algebra (`utils.go`) -/

/-- Modelled from the spec: `ring.CRed` of the lattice library, the
"conditional single-subtraction reduction": `a - q` when `a ≥ q`, else `a`. -/
def CRed (a q : Nat) : Nat := if a ≥ q then a - q else a

/-- Modelled from the spec: `ring.BRed` of the lattice library, the "Barrett
reduction after multiplication": the product of the operands reduced modulo
`q` (the precomputed `BRedParams(q)` only speed the reduction up). -/
def BRed (x y q : Nat) : Nat := (x * y) % q

/-- Coordinate of `addVec`: `ring.CRed(a[i]+b[i], q)`, the sum being a `uint64`. -/
def addCoeff (q x y : Nat) : Nat := CRed ((x + y) % 2 ^ 64) q

/-- Coordinate of `subVec`: `ring.CRed(a[i]+(q-b[i]), q)`; both the difference
and the sum are `uint64` operations. -/
def subCoeff (q x y : Nat) : Nat := CRed ((x + (q + 2 ^ 64 - y) % 2 ^ 64) % 2 ^ 64) q

/-- Coordinate of `mulVec`: `ring.BRed(a[i], b[i], q, bredParams)`. -/
def mulCoeff (q x y : Nat) : Nat := BRed x y q

/-- Embedding of `addVec`: the result has the length of `a`; the loop reads
`b[i]` for every index of `a` and panics when `b` is shorter. -/
def addVec (a b : List Nat) (q : Nat) : Option (List Nat) :=
  if a.length ≤ b.length then some (List.zipWith (addCoeff q) a b) else none

/-- Embedding of `subVec`, with the same indexing as `addVec`. -/
def subVec (a b : List Nat) (q : Nat) : Option (List Nat) :=
  if a.length ≤ b.length then some (List.zipWith (subCoeff q) a b) else none

/-- Embedding of `mulVec`, with the same indexing as `addVec`. -/
def mulVec (a b : List Nat) (q : Nat) : Option (List Nat) :=
  if a.length ≤ b.length then some (List.zipWith (mulCoeff q) a b) else none

/-- A share vector of the protocol: `n` coordinates, each reduced modulo `q`
(what `sampleUniformVector(n, q)` returns). -/
def IsVec (n q : Nat) (v : List Nat) : Prop := v.length = n ∧ ∀ x ∈ v, x < q

instance (n q : Nat) (v : List Nat) : Decidable (IsVec n q v) := by
  unfold IsVec
  infer_instance

/-! ### HE mode (`offline_he.go`) -/

/-- Modelled from the spec: the BFV operations of the lattice library that the
HE driver calls, over an abstract ciphertext type.  A plaintext is identified
with the vector it encodes. -/
structure Lattice (Ct : Type) where
  /-- Embeds `Evaluator.Mul(ct, plaintext, ct)` -/
  mulPlain : Ct → List Nat → Ct
  /-- Embeds `Evaluator.Add(ct, plaintext, ct)` -/
  addPlain : Ct → List Nat → Ct
  /-- Embeds `Evaluator.Add(ct, ct, ct)` -/
  add : Ct → Ct → Ct
  /-- adding one Gaussian sample to each of the two polynomials -/
  smudge : Ct → Ct
  /-- Embeds `bfv.NewCiphertext(params, 1)` -/
  newCiphertext : Ct
  /-- Embeds `Encryptor.EncryptNew` of the encoding of a vector -/
  encrypt : List Nat → Ct
  /-- Embeds `Encoder.DecodeUintNew (Decryptor.DecryptNew ct)` -/
  decrypt : Ct → List Nat

/-- Embedding of `TripleGenMessage`. -/
structure TripleGenMessage (Ct : Type) where
  PartyID : PartyID
  Ciphertext : Ct
  Query : Bool

/-- Embedding of `TripleGenRound`.  The map `plainM` is a partial function. -/
structure TripleGenRound (Ct : Type) where
  a : List Nat
  b : List Nat
  c : List Nat
  plainA : List Nat
  plainB : List Nat
  plainM : PartyID → Option (List Nat)
  encA : Ct
  encAggr : Ct
  hasQueried : Finset PartyID
  hasResponded : Finset PartyID

/-- Embedding of `TripleGenProtocol.genInput`.  `a`, `b` and `m peerID` are the
vectors returned by the calls of `sampleUniformVector`; `peers` is the order in
which the map `tgp.Peers` is iterated. -/
def genInput {Ct : Type} (E : Lattice Ct) (self : PartyID) (peers : List PartyID)
    (q : Nat) (a b : List Nat) (m : PartyID → List Nat) : Option (TripleGenRound Ct) := do
  let c0 ← mulVec a b q
  let c ← peers.foldlM
    (fun c peerID => if peerID ≠ self then subVec c (m peerID) q else some c) c0
  some
    { a := a, b := b, c := c, plainA := a, plainB := b,
      plainM := fun p => if p ∈ peers ∧ p ≠ self then some (m p) else none,
      encA := E.encrypt a, encAggr := E.newCiphertext,
      hasQueried := ∅, hasResponded := ∅ }

/-- Embedding of `TripleGenProtocol.processQuery`: the updated round and the
response.  A peer without an entry in `plainM` makes `tgp.Add` dereference a
nil plaintext. -/
def processQuery {Ct : Type} (E : Lattice Ct) (fromPeer : PartyID) (encA : Ct)
    (round : TripleGenRound Ct) : Option (TripleGenRound Ct × Ct) :=
  match round.plainM fromPeer with
  | none => none
  | some mask =>
    some ({ round with hasQueried := insert fromPeer round.hasQueried },
      E.smudge (E.addPlain (E.mulPlain encA round.plainB) mask))

/-- Embedding of `TripleGenProtocol.processResponse`. -/
def processResponse {Ct : Type} (E : Lattice Ct) (fromPeer : PartyID) (encResponse : Ct)
    (round : TripleGenRound Ct) : TripleGenRound Ct :=
  { round with
    hasResponded := insert fromPeer round.hasResponded,
    encAggr := E.add round.encAggr encResponse }

/-- Embedding of `TripleGenProtocol.IsComplete`; `peers` is the order in which
the map `tgp.Peers` is iterated. -/
def IsComplete {Ct : Type} (self : PartyID) (peers : List PartyID)
    (round : TripleGenRound Ct) : Bool :=
  peers.foldl
    (fun complete peer =>
      (complete && decide (peer = self)) ||
        (complete && decide (peer ∈ round.hasQueried) && decide (peer ∈ round.hasResponded)))
    true

/-- Embedding of `TripleGenProtocol.decryptTriples` for `tgp.n = n`: the
decoded aggregate is added into `round.c`, then `n` triples are read off. -/
def decryptTriples {Ct : Type} (E : Lattice Ct) (n q : Nat)
    (round : TripleGenRound Ct) : Option (List Triple) := do
  let c ← addVec round.c (E.decrypt round.encAggr) q
  if n ≤ round.a.length ∧ n ≤ round.b.length ∧ n ≤ c.length then
    some ((List.range n).map fun i => ⟨round.a.getD i 0, round.b.getD i 0, c.getD i 0⟩)
  else none

/-- State of the HE driver inside `Run`: the round record and the messages
put so far on the outbound queues `tgp.Peers[..].Chan`, with their addressee,
in order. -/
structure DriverState (Ct : Type) where
  round : TripleGenRound Ct
  sent : List (PartyID × TripleGenMessage Ct)

/-- How the message loop of `TripleGenProtocol.Run` stands once the messages
that arrived on `tgp.Chan` have been offered to it. -/
inductive LoopOutcome (Ct : Type) where
  /-- the loop was left by `break`; the messages not read stay on the channel -/
  | exited (st : DriverState Ct) (unread : List (TripleGenMessage Ct))
  /-- every message was consumed and the loop blocks on `tgp.Chan` -/
  | waiting (st : DriverState Ct)
  /-- a nil dereference: a query from an ID without mask or without peer entry -/
  | panicked

/-- First part of `TripleGenProtocol.Run`: the own query is put on the queue of
every peer other than self; `peers` is the iteration order of `tgp.Peers`. -/
def Run.sendInput {Ct : Type} (self : PartyID) (peers : List PartyID)
    (round : TripleGenRound Ct) : DriverState Ct :=
  { round := round,
    sent := (peers.filter fun p => decide (p ≠ self)).map
      fun p => (p, { PartyID := self, Ciphertext := round.encA, Query := true }) }

/-- The message loop of `TripleGenProtocol.Run`, `for m := range tgp.Chan`, on
the messages that arrive, in their order of arrival.  A query is answered and
the loop continues without testing completion; after a response the loop is
left when `IsComplete` holds. -/
def Run.loop {Ct : Type} (E : Lattice Ct) (self : PartyID) (peers : List PartyID) :
    DriverState Ct → List (TripleGenMessage Ct) → LoopOutcome Ct
  | st, [] => .waiting st
  | st, m :: inbox =>
    if m.Query then
      match processQuery E m.PartyID m.Ciphertext st.round with
      | none => .panicked
      | some (round, response) =>
        if m.PartyID ∈ peers then
          Run.loop E self peers
            { round := round,
              sent := st.sent ++
                [(m.PartyID, { PartyID := self, Ciphertext := response, Query := false })] }
            inbox
        else .panicked
    else
      if IsComplete self peers (processResponse E m.PartyID m.Ciphertext st.round) then
        .exited { st with round := processResponse E m.PartyID m.Ciphertext st.round } inbox
      else
        Run.loop E self peers
          { st with round := processResponse E m.PartyID m.Ciphertext st.round } inbox

/-- The loop was left by `break`. -/
def LoopOutcome.isExited {Ct : Type} : LoopOutcome Ct → Bool
  | .exited _ _ => true
  | _ => false

/-- The loop blocks on `tgp.Chan`, waiting for a further message. -/
def LoopOutcome.isWaiting {Ct : Type} : LoopOutcome Ct → Bool
  | .waiting _ => true
  | _ => false

/-- The driver state an outcome carries. -/
def LoopOutcome.state? {Ct : Type} : LoopOutcome Ct → Option (DriverState Ct)
  | .exited st _ => some st
  | .waiting st => some st
  | .panicked => none

/-- Senders of the queries among the messages that arrive, in order. -/
def queryIDs {Ct : Type} (inbox : List (TripleGenMessage Ct)) : List PartyID :=
  (inbox.filter fun m => m.Query).map fun m => m.PartyID

/-- Senders of the responses among the messages that arrive, in order. -/
def responseIDs {Ct : Type} (inbox : List (TripleGenMessage Ct)) : List PartyID :=
  (inbox.filter fun m => !m.Query).map fun m => m.PartyID

/-- Where the driver stands against the messages still to arrive: they come
from peers other than self, no query (response) is from a peer already in
`hasQueried` (`hasResponded`) or comes twice, every peer other than self has
queried (responded) or will, the two sets hold peers other than self only, and
every such peer has a mask. -/
def Pending {Ct : Type} (self : PartyID) (peers : List PartyID) (st : DriverState Ct)
    (inbox : List (TripleGenMessage Ct)) : Prop :=
  (∀ m ∈ inbox, m.PartyID ∈ peers ∧ m.PartyID ≠ self) ∧
  ((queryIDs inbox).Nodup ∧ (∀ p ∈ queryIDs inbox, p ∉ st.round.hasQueried) ∧
    (∀ p ∈ peers, p ≠ self → p ∈ st.round.hasQueried ∨ p ∈ queryIDs inbox)) ∧
  ((responseIDs inbox).Nodup ∧ (∀ p ∈ responseIDs inbox, p ∉ st.round.hasResponded) ∧
    (∀ p ∈ peers, p ≠ self → p ∈ st.round.hasResponded ∨ p ∈ responseIDs inbox)) ∧
  (∀ p ∈ st.round.hasQueried, p ∈ peers ∧ p ≠ self) ∧
  (∀ p ∈ st.round.hasResponded, p ∈ peers ∧ p ≠ self) ∧
  (∀ p ∈ peers, p ≠ self → ∃ mask, st.round.plainM p = some mask)

/-- The noise-free instance of `Lattice` for vectors over `Z_q`: a ciphertext
is the vector it encrypts.  It is used to run the driver on concrete data. -/
def idealLattice (n q : Nat) : Lattice (List Nat) where
  mulPlain := fun ct p => List.zipWith (mulCoeff q) ct p
  addPlain := fun ct p => List.zipWith (addCoeff q) ct p
  add := fun x y => List.zipWith (addCoeff q) x y
  smudge := fun ct => ct
  newCiphertext := List.replicate n 0
  encrypt := fun v => v
  decrypt := fun ct => ct

/-- Sample data for two parties, one coordinate, `q = 7`: the shares of `a`. -/
def sampleA (i : PartyID) : List Nat := if i = 0 then [3] else [5]

/-- Sample data: the shares of `b`. -/
def sampleB (i : PartyID) : List Nat := if i = 0 then [2] else [6]

/-- Sample data: the mask that party `i` draws for its peer. -/
def sampleM (i _j : PartyID) : List Nat := if i = 0 then [4] else [1]

/-- Sample data: the aggregate held by party `i`, that is the response of the
other party, `a_i * b_j + m_(j,i)` modulo 7. -/
def sampleAggr (i : PartyID) : List Nat := if i = 0 then [5] else [0]

/-! ### Tree builder (`offline_mhe.go`) -/

/-- The address book `map[PartyID]string`. -/
abbrev PeerMap := AList (fun _ : PartyID => String)

/-- Embedding of `type Node struct { Parent PartyID; Children []PartyID }`. -/
structure Node where
  Parent : PartyID
  Children : List PartyID
deriving DecidableEq, Repr

/-- Embedding of `type Tree map[PartyID]*Node`. -/
abbrev Tree := AList (fun _ : PartyID => Node)

/-- The address book that `ClientHETripleGen` and `ClientMHETripleGen` build in
`main.go`: `peers[PartyID(i)] = "party-<i>:50000"` for `i < nParties`. -/
def mainPeers (nParties : Nat) : PeerMap :=
  (List.range nParties).foldl
    (fun peers i => peers.insert i ("party-" ++ toString i ++ ":50000")) ∅

/-- Inner loop of `NewTree`, `for j := uint64(0); j < branching; j++`, entered
at `j` with `remaining = branching - j` iterations left: the candidate
`ID := PartyID(i*branching + 1 + j)` is a `uint64`; the loop breaks at the
first candidate that is not a key of `peers`. -/
def NewTree.children (peers : PeerMap) (i branching : Nat) : Nat → Nat → List PartyID
  | 0, _ => []
  | remaining + 1, j =>
    if (i * branching + 1 + j) % 2 ^ 64 ∈ peers then
      (i * branching + 1 + j) % 2 ^ 64 :: NewTree.children peers i branching remaining (j + 1)
    else []

/-- Body of the outer loop of `NewTree`: the node built for index `i`.  For
`i ≠ 0` the parent is `(i - 1) / branching`, an integer division that panics
when `branching` is zero. -/
def NewTree.node (peers : PeerMap) (branching i : Nat) : Option Node :=
  if i = 0 then some ⟨0, NewTree.children peers i branching branching 0⟩
  else if branching = 0 then none
  else some ⟨(i - 1) / branching, NewTree.children peers i branching branching 0⟩

/-- Embedding of `NewTree`: one node per index below `nPeers = len(peers)`.
`none` is the division-by-zero panic; the function has no error result. -/
def NewTree (peers : PeerMap) (branching : Nat) : Option Tree :=
  (List.range peers.entries.length).foldlM
    (fun tree i => (NewTree.node peers branching i).map fun node => tree.insert i node) ∅

/-- Parent of party `i` in a tree (`tree[i].Parent`), `i` itself where the tree
has no node for `i`. -/
def Tree.parentOf (tree : Tree) (i : Nat) : Nat :=
  match tree.lookup i with
  | some node => node.Parent
  | none => i

/-- Child list of party `i` in a tree (`tree[i].Children`). -/
def Tree.childrenOf (tree : Tree) (i : Nat) : List Nat :=
  match tree.lookup i with
  | some node => node.Children
  | none => []

/-! ### Framed message I/O of the tree protocols (`offline_mhe.go`, `genrlk.go`) -/

/-- Embedding of `MHETripleGenMessage`: `PartyID` is a `uint64`, `Data` a byte
slice (a byte is a `Nat`), `Round` a Go `int` (64-bit, signed). -/
structure MHETripleGenMessage where
  PartyID : PartyID
  Data : List Nat
  Round : Int
deriving DecidableEq, Repr

/-- Embedding of `RkgGenMessage`, which has the fields of `MHETripleGenMessage`. -/
abbrev RkgGenMessage := MHETripleGenMessage

/-- The eight bytes that `binary.Write(conn, binary.BigEndian, v)` writes for a
`uint64`: `byte(v >> 56), byte(v >> 48), .., byte(v)`. -/
def putUint64 (v : Nat) : List Nat :=
  [(v >>> 56) % 256, (v >>> 48) % 256, (v >>> 40) % 256, (v >>> 32) % 256,
   (v >>> 24) % 256, (v >>> 16) % 256, (v >>> 8) % 256, v % 256]

/-- Go conversion `uint64(x)` of an `int`. -/
def uint64OfInt (x : Int) : Nat := (x % 2 ^ 64).toNat

/-- Go conversion `int(x)` of a `uint64`. -/
def intOfUint64 (x : Nat) : Int := if x < 2 ^ 63 then (x : Int) else (x : Int) - 2 ^ 64

/-- One iteration of the sending loop of `BindNetwork` (the same statements in
`offline_mhe.go` and `genrlk.go`): the bytes on the connection after the
message taken from `rp.Chan` has been written.  The writes are taken to
succeed; the channels `rp.Chan` are never closed in this repository. -/
def sendMessage (conn : List Nat) (m : MHETripleGenMessage) : List Nat :=
  let conn1 := conn ++ putUint64 m.PartyID
  let conn2 := conn1 ++ putUint64 (m.Data.length % 2 ^ 64)
  let conn3 := conn2 ++ m.Data
  conn3 ++ putUint64 (uint64OfInt m.Round)

/-- The sending loop on a sequence of queued messages. -/
def sendLoop (conn : List Nat) (msgs : List MHETripleGenMessage) : List Nat :=
  msgs.foldl sendMessage conn

/-- Outcome of a read on the connection. -/
inductive ReadError where
  /-- Embeds `io.EOF`: no byte was left -/
  | eof
  /-- Embeds `io.ErrUnexpectedEOF`: the stream ended inside the value -/
  | unexpectedEOF
deriving DecidableEq, Repr

/-- Reading with `io.ReadFull(conn, buf)` for `len(buf) = n`: the bytes read and
the rest of the stream. -/
def readFull (n : Nat) (conn : List Nat) : Except ReadError (List Nat × List Nat) :=
  if n ≤ conn.length then .ok (conn.take n, conn.drop n)
  else if conn = [] then .error .eof
  else .error .unexpectedEOF

/-- The value `binary.BigEndian.Uint64` decodes from eight bytes. -/
def getUint64 (b : List Nat) : Nat :=
  b.getD 0 0 * 2 ^ 56 + b.getD 1 0 * 2 ^ 48 + b.getD 2 0 * 2 ^ 40 + b.getD 3 0 * 2 ^ 32 +
    b.getD 4 0 * 2 ^ 24 + b.getD 5 0 * 2 ^ 16 + b.getD 6 0 * 2 ^ 8 + b.getD 7 0

/-- Reading a `uint64` with `binary.Read(conn, binary.BigEndian, &v)`. -/
def readUint64 (conn : List Nat) : Except ReadError (Nat × List Nat) :=
  match readFull 8 conn with
  | .ok (b, rest) => .ok (getUint64 b, rest)
  | .error e => .error e

/-- Outcome of one iteration of the receiving loop. -/
inductive RecvResult where
  /-- a message was pushed on the inbound queue; the rest of the stream -/
  | message (msg : MHETripleGenMessage) (rest : List Nat)
  /-- Embeds `io.EOF` on the first read: the goroutine returns -/
  | closed
  /-- any other read error: `check` panics -/
  | failed
deriving DecidableEq, Repr

/-- One iteration of the receiving loop of `BindNetwork` (`offline_mhe.go`; the
loop of `genrlk.go` reads the same fields in the same order). -/
def recvMessage (conn : List Nat) : RecvResult :=
  match readUint64 conn with
  | .error .eof => .closed
  | .error .unexpectedEOF => .failed
  | .ok (id, conn1) =>
    match readUint64 conn1 with
    | .error _ => .failed
    | .ok (datalen, conn2) =>
      match readFull datalen conn2 with
      | .error _ => .failed
      | .ok (ctBuff, conn3) =>
        match readUint64 conn3 with
        | .error _ => .failed
        | .ok (round, conn4) =>
          .message { PartyID := id, Data := ctBuff, Round := intOfUint64 round } conn4

/-- How the receiving loop stands after a number of iterations. -/
inductive LoopEnd where
  /-- the goroutine has returned on `io.EOF` -/
  | closed
  /-- the goroutine has panicked on a read error -/
  | failed
  /-- the loop is still running (the iterations allowed are used up) -/
  | running
deriving DecidableEq, Repr

/-- The receiving loop, run for at most `fuel` iterations: the messages pushed
on the inbound queue, in order, and how the loop stands. -/
def recvLoop : Nat → List Nat → List MHETripleGenMessage × LoopEnd
  | 0, _ => ([], .running)
  | fuel + 1, conn =>
    match recvMessage conn with
    | .message msg rest => (msg :: (recvLoop fuel rest).1, (recvLoop fuel rest).2)
    | .closed => ([], .closed)
    | .failed => ([], .failed)

/-- A message whose fields fit their Go types: a `uint64` identifier, a slice
(its length is a non-negative `int`) and an `int` round. -/
def MHETripleGenMessage.WellTyped (m : MHETripleGenMessage) : Prop :=
  m.PartyID < 2 ^ 64 ∧ m.Data.length < 2 ^ 63 ∧ -2 ^ 63 ≤ m.Round ∧ m.Round < 2 ^ 63

instance (m : MHETripleGenMessage) : Decidable m.WellTyped := by
  unfold MHETripleGenMessage.WellTyped
  infer_instance

/-- The frame of the spec, "`u64 sender_id | u64 data_len | data_len bytes |
u64 round_tag`", with the big-endian bytes of a 64-bit value: byte `i` of
eight is the `i`-th base-256 digit from the top. -/
def specBigEndian (v : Nat) : List Nat :=
  (List.range 8).map fun i => v / 256 ^ (7 - i) % 256

/-- The tree-protocol wire frame as the spec lays it out. -/
def specFrame (senderId : Nat) (data : List Nat) (roundTag : Nat) : List Nat :=
  specBigEndian senderId ++ specBigEndian data.length ++ data ++ specBigEndian roundTag

/-- Sample arrivals at party 0 of two: the response of party 1, then its query. -/
def sampleInboxResponseFirst : List (TripleGenMessage (List Nat)) :=
  [{ PartyID := 1, Ciphertext := [5], Query := false },
   { PartyID := 1, Ciphertext := [5], Query := true }]

/-- Sample arrivals at party 0 of two: the query of party 1, then its response. -/
def sampleInboxQueryFirst : List (TripleGenMessage (List Nat)) :=
  [{ PartyID := 1, Ciphertext := [5], Query := true },
   { PartyID := 1, Ciphertext := [5], Query := false }]

/-- Sample arrivals at party 0 of three: party 1 sends its query twice and its
response twice, party 2 is silent. -/
def sampleInboxDuplicates : List (TripleGenMessage (List Nat)) :=
  [{ PartyID := 1, Ciphertext := [5], Query := true },
   { PartyID := 1, Ciphertext := [5], Query := true },
   { PartyID := 1, Ciphertext := [2], Query := false },
   { PartyID := 1, Ciphertext := [2], Query := false }]

/-! ### MHE mode (`offline_mhe.go`) -/

/-- Modelled from the spec: the operations of the lattice library that the MHE
driver calls, over a ring `R` of polynomials (the ring `rq`).  A ciphertext of
degree one is the pair of its polynomials `(Value[0], Value[1])`; a plaintext
is the polynomial `Value`; marshalled data are bytes. -/
structure MHELattice (R : Type) where
  /-- Embeds `Encoder.EncodeUint`: the plaintext polynomial of a vector -/
  encodeUint : List Nat → R
  /-- Embeds `Encoder.DecodeUintNew` of the plaintext with the given polynomial -/
  decodeUint : R → List Nat
  /-- Embeds `Encryptor.EncryptFromCRPNew (encoding of v) crp` under the secret key `sk` -/
  encryptFromCRP : R → List Nat → R → R × R
  /-- Embeds `Evaluator.Mul` into `tmp`, then `Evaluator.Relinearize` of `tmp` -/
  mulRelin : R × R → R × R → R × R
  /-- Embeds `rq.NTT` -/
  ntt : R → R
  /-- Embeds `rq.InvNTT` -/
  invNTT : R → R
  /-- Embeds `rq.MulCoeffsMontgomeryAndAdd x sk acc`, for a key held in NTT-Montgomery form -/
  mulCoeffsMontgomeryAndAdd : R → R → R → R
  /-- Embeds `Ciphertext.MarshalBinary` -/
  marshalCt : R × R → List Nat
  /-- Embeds `Ciphertext.UnmarshalBinary` -/
  unmarshalCt : List Nat → Option (R × R)
  /-- Embeds `Poly.MarshalBinary` -/
  marshalPoly : R → List Nat
  /-- Embeds `Poly.UnmarshalBinary` -/
  unmarshalPoly : List Nat → Option R

/-- Embedding of `MHETripleGenRound` (without the constant `seed` and the
scratch ciphertext `tmp` of the multiplication). -/
structure MHETripleGenRound (R : Type) where
  a : List Nat
  b : List Nat
  c : List Nat
  encA : R × R
  encB : R × R
  encC : R × R
  decryptionShare : R

/-- The fields of `MHETripleGenProtocol` that `Run` reads: the local ID, the
secret key, the parent (`nil` at the root) and the keys of the map `Children`. -/
structure MHETripleGenProtocol (R : Type) where
  ID : PartyID
  SecretKey : R
  Parent : Option PartyID
  Children : List PartyID

/-- Embedding of `NewMHETripleGenProtocol`: `Parent` is set when
`lp.ID != tree[lp.ID].Parent`, and `Children` is keyed by the IDs of
`tree[lp.ID].Children`.  A tree without a node for `lp.ID` is a nil dereference. -/
def NewMHETripleGenProtocol {R : Type} (id : PartyID) (sk : R) (tree : Tree) :
    Option (MHETripleGenProtocol R) :=
  match tree.lookup id with
  | none => none
  | some node =>
    some { ID := id, SecretKey := sk,
           Parent := if id ≠ node.Parent then some node.Parent else none,
           Children := node.Children.dedup }

/-- Embedding of `MHETripleGenProtocol.genInput`.  `a`, `b`, `c` are the sampled
vectors, `crp1` and `crp2` the first and the second polynomial read from the
keyed sampler.  As in the source, `encB` encrypts `a` and `encA` encrypts `b`. -/
def MHETripleGenProtocol.genInput {R : Type} [Zero R] (L : MHELattice R)
    (tgp : MHETripleGenProtocol R) (a b c : List Nat) (crp1 crp2 : R) : MHETripleGenRound R :=
  { a := a, b := b, c := c,
    encB := L.encryptFromCRP tgp.SecretKey a crp1,
    encA := L.encryptFromCRP tgp.SecretKey b crp2,
    encC := (0, 0),
    decryptionShare := 0 }

/-- Embedding of `aggregateEncAEncB`: the buffer is split at its midpoint, and
only the first polynomials are added.  A half that does not unmarshal leaves a
ciphertext without polynomials, and `Value[0]` panics. -/
def aggregateEncAEncB {R : Type} [Add R] (L : MHELattice R) (data : List Nat)
    (round : MHETripleGenRound R) : Option (MHETripleGenRound R) :=
  match L.unmarshalCt (data.take (data.length / 2)),
      L.unmarshalCt (data.drop (data.length / 2)) with
  | some encA, some encB =>
    some { round with
      encA := (round.encA.1 + encA.1, round.encA.2),
      encB := (round.encB.1 + encB.1, round.encB.2) }
  | _, _ => none

/-- Embedding of `aggregateDecryptionShare`. -/
def aggregateDecryptionShare {R : Type} [Add R] (L : MHELattice R) (data : List Nat)
    (round : MHETripleGenRound R) : Option (MHETripleGenRound R) :=
  match L.unmarshalPoly data with
  | some share => some { round with decryptionShare := round.decryptionShare + share }
  | none => none

/-- Embedding of `genDecryptionShare`; `noise` is the polynomial read from the
Gaussian sampler (read only when the party has a parent). -/
def genDecryptionShare {R : Type} [Ring R] (L : MHELattice R) (tgp : MHETripleGenProtocol R)
    (noise : R) (data : List Nat) (round : MHETripleGenRound R) :
    Option (MHETripleGenRound R) :=
  match L.unmarshalPoly data with
  | none => none
  | some a =>
    some { round with
      decryptionShare :=
        if tgp.Parent.isSome then
          L.invNTT (L.mulCoeffsMontgomeryAndAdd a tgp.SecretKey 0) + noise - L.encodeUint round.c
        else L.invNTT (L.mulCoeffsMontgomeryAndAdd a tgp.SecretKey 0) }

/-- Embedding of `rootFinalize`. -/
def rootFinalize {R : Type} [Add R] (L : MHELattice R) (round : MHETripleGenRound R) :
    MHETripleGenRound R :=
  { round with
    encC := (round.encC.1 + round.decryptionShare, round.encC.2),
    c := L.decodeUint (round.encC.1 + round.decryptionShare) }

/-- State of the MHE driver inside `Run`: the round record, the counter `state`
and the messages put so far on the outbound queues, with their addressee. -/
structure MHEState (R : Type) where
  round : MHETripleGenRound R
  state : Nat
  sent : List (PartyID × MHETripleGenMessage)

/-- How the message loop of `MHETripleGenProtocol.Run` stands once the messages
that arrived have been offered to it. -/
inductive MHEOutcome (R : Type) where
  /-- the loop was left by `break` -/
  | exited (st : MHEState R) (unread : List MHETripleGenMessage)
  /-- every message was consumed and the loop blocks on `tgp.Chan` -/
  | waiting (st : MHEState R)
  /-- a nil dereference -/
  | panicked

/-- First part of `MHETripleGenProtocol.Run`: a party without children sends its
two ciphertexts to its parent (a nil dereference when it has no parent). -/
def MHETripleGenProtocol.start {R : Type} (L : MHELattice R) (tgp : MHETripleGenProtocol R)
    (round : MHETripleGenRound R) : Option (MHEState R) :=
  if tgp.Children.length = 0 then
    match tgp.Parent with
    | none => none
    | some parent =>
      some { round := round, state := 0,
             sent := [(parent, { PartyID := tgp.ID,
                                 Data := L.marshalCt round.encA ++ L.marshalCt round.encB,
                                 Round := 0 })] }
  else some { round := round, state := 0, sent := [] }

/-- Body of the message loop of `MHETripleGenProtocol.Run` for one message: the
new state and whether the loop is left by `break`.  The three tests on
`m.Round` of the source exclude one another. -/
def MHETripleGenProtocol.step {R : Type} [Ring R] (L : MHELattice R)
    (tgp : MHETripleGenProtocol R) (noise : R) (st : MHEState R) (m : MHETripleGenMessage) :
    Option (MHEState R × Bool) :=
  if m.Round = 0 then
    match aggregateEncAEncB L m.Data st.round with
    | none => none
    | some round =>
      if (st.state + 1) % 2 ^ 64 = tgp.Children.length then
        match tgp.Parent with
        | some parent =>
          some ({ round := round, state := 0,
                  sent := st.sent ++
                    [(parent, { PartyID := tgp.ID,
                                Data := L.marshalCt round.encA ++ L.marshalCt round.encB,
                                Round := 0 })] }, false)
        | none =>
          match genDecryptionShare L tgp noise
              (L.marshalPoly (L.ntt (L.mulRelin round.encA round.encB).2))
              { round with encC := L.mulRelin round.encA round.encB } with
          | none => none
          | some round2 =>
            some ({ round := round2, state := 0,
                    sent := st.sent ++ tgp.Children.map fun ch =>
                      (ch, { PartyID := tgp.ID,
                             Data := L.marshalPoly (L.ntt (L.mulRelin round.encA round.encB).2),
                             Round := 1 }) }, false)
      else some ({ round := round, state := (st.state + 1) % 2 ^ 64, sent := st.sent }, false)
  else if m.Round = 1 then
    match genDecryptionShare L tgp noise m.Data st.round with
    | none => none
    | some round =>
      if tgp.Children.length = 0 then
        match tgp.Parent with
        | none => none
        | some parent =>
          some ({ round := round, state := st.state,
                  sent := st.sent ++
                    [(parent, { PartyID := tgp.ID,
                                Data := L.marshalPoly round.decryptionShare,
                                Round := 2 })] }, true)
      else
        some ({ round := round, state := st.state,
                sent := st.sent ++ tgp.Children.map fun ch =>
                  (ch, { PartyID := tgp.ID, Data := m.Data, Round := 1 }) }, false)
  else if m.Round = 2 then
    match aggregateDecryptionShare L m.Data st.round with
    | none => none
    | some round =>
      if (st.state + 1) % 2 ^ 64 = tgp.Children.length then
        match tgp.Parent with
        | some parent =>
          some ({ round := round, state := 0,
                  sent := st.sent ++
                    [(parent, { PartyID := tgp.ID,
                                Data := L.marshalPoly round.decryptionShare,
                                Round := 2 })] }, true)
        | none =>
          some ({ round := rootFinalize L round, state := (st.state + 1) % 2 ^ 64,
                  sent := st.sent }, true)
      else some ({ round := round, state := (st.state + 1) % 2 ^ 64, sent := st.sent }, false)
  else some (st, false)

/-- The message loop of `MHETripleGenProtocol.Run`, `for m := range tgp.Chan`,
on the messages that arrive, in their order of arrival. -/
def MHETripleGenProtocol.loop {R : Type} [Ring R] (L : MHELattice R)
    (tgp : MHETripleGenProtocol R) (noise : R) :
    MHEState R → List MHETripleGenMessage → MHEOutcome R
  | st, [] => .waiting st
  | st, m :: inbox =>
    match tgp.step L noise st m with
    | none => .panicked
    | some (st1, true) => .exited st1 inbox
    | some (st1, false) => MHETripleGenProtocol.loop L tgp noise st1 inbox

/-- The first message with the given round tag that a driver has put on the
queue of `dest`. -/
def MHEState.sentTo {R : Type} (st : MHEState R) (dest : PartyID) (round : Int) :
    Option MHETripleGenMessage :=
  (st.sent.find? fun x => decide (x.1 = dest) && decide (x.2.Round = round)).map Prod.snd

/-- All the values of a list of optional values, when none is missing. -/
def collect {α : Type} : List (Option α) → Option (List α)
  | [] => some []
  | none :: _ => none
  | some x :: rest => (collect rest).map fun xs => x :: xs

/-- The inputs of one run of the MHE protocol: the lattice operations, the
tree, and for every party its secret key, its sampled vectors and noise, and
the orders in which the round-0 and round-2 messages of its children arrive;
`crp1`, `crp2` are the two common reference polynomials. -/
structure MHERun (R : Type) where
  L : MHELattice R
  tree : Tree
  sk : PartyID → R
  a : PartyID → List Nat
  b : PartyID → List Nat
  c : PartyID → List Nat
  crp1 : R
  crp2 : R
  noise : PartyID → R
  arrival0 : PartyID → List PartyID
  arrival2 : PartyID → List PartyID

/-- Party `i` up to the message loop of `Run`: its protocol instance and its
driver state. -/
def MHERun.start {R : Type} [Ring R] (run : MHERun R) (i : PartyID) :
    Option (MHETripleGenProtocol R × MHEState R) :=
  match NewMHETripleGenProtocol i (run.sk i) run.tree with
  | none => none
  | some tgp =>
    match tgp.start run.L (tgp.genInput run.L (run.a i) (run.b i) (run.c i) run.crp1 run.crp2) with
    | none => none
    | some st => some (tgp, st)

/-- Round 0, bottom-up: the state of party `i` once the round-0 messages of
all its children, as sent by the children, have been consumed.  The recursion
descends into the children, at most `fuel` levels deep. -/
def MHERun.phase0 {R : Type} [Ring R] (run : MHERun R) : Nat → PartyID → Option (MHEState R)
  | 0, _ => none
  | fuel + 1, i =>
    match run.start i with
    | none => none
    | some (tgp, st0) =>
      match collect ((run.arrival0 i).map fun ch =>
          (MHERun.phase0 run fuel ch).bind fun st => st.sentTo i 0) with
      | none => none
      | some inbox =>
        match tgp.loop run.L (run.noise i) st0 inbox with
        | .waiting st => some st
        | _ => none

/-- Round 1, top-down: the state of party `i` once the round-1 message of its
parent, as sent by the parent, has been consumed, and whether the loop has
been left (it is at a party without children).  The root receives no round-1
message.  `depth` is the fuel given to `phase0`. -/
def MHERun.phase1 {R : Type} [Ring R] (run : MHERun R) (depth : Nat) :
    Nat → PartyID → Option (MHEState R × Bool)
  | 0, _ => none
  | fuel + 1, i =>
    match run.start i, run.phase0 depth i with
    | some (tgp, _), some st0 =>
      match tgp.Parent with
      | none => some (st0, false)
      | some parent =>
        match (MHERun.phase1 run depth fuel parent).bind fun x => x.1.sentTo i 1 with
        | none => none
        | some m =>
          match tgp.loop run.L (run.noise i) st0 [m] with
          | .waiting st => some (st, false)
          | .exited st [] => some (st, true)
          | _ => none
    | _, _ => none

/-- Round 2, bottom-up: the state in which party `i` leaves the message loop,
once the round-2 messages of all its children, as sent by the children, have
been consumed. -/
def MHERun.phase2 {R : Type} [Ring R] (run : MHERun R) (depth : Nat) :
    Nat → PartyID → Option (MHEState R)
  | 0, _ => none
  | fuel + 1, i =>
    match run.start i, run.phase1 depth depth i with
    | some (_, _), some (st1, true) => some st1
    | some (tgp, _), some (st1, false) =>
      match collect ((run.arrival2 i).map fun ch =>
          (MHERun.phase2 run depth fuel ch).bind fun st => st.sentTo i 2) with
      | none => none
      | some inbox =>
        match tgp.loop run.L (run.noise i) st1 inbox with
        | .exited st [] => some st
        | _ => none
    | _, _ => none

/-- Sum of `own` over the subtree of `i`, descending at most `fuel` levels. -/
def treeSum {M : Type} [AddCommMonoid M] (children : PartyID → List PartyID)
    (own : PartyID → M) : Nat → PartyID → M
  | 0, i => own i
  | fuel + 1, i => own i + ((children i).map (treeSum children own fuel)).sum

/-- The contract of marshalling in the lattice library: unmarshalling gives
back what was marshalled, and all ciphertexts of degree one have the same
marshalled length (so that the midpoint of two of them separates them). -/
def MHELattice.Marshals {R : Type} (L : MHELattice R) : Prop :=
  (∀ ct : R × R, L.unmarshalCt (L.marshalCt ct) = some ct) ∧
  (∀ x y : R × R, (L.marshalCt x).length = (L.marshalCt y).length) ∧
  (∀ p : R, L.unmarshalPoly (L.marshalPoly p) = some p)

/-- The round-0 message of a sender with the ciphertexts `encA`, `encB`. -/
def roundZeroMessage {R : Type} (L : MHELattice R) (t : PartyID × (R × R) × (R × R)) :
    MHETripleGenMessage :=
  { PartyID := t.1, Data := L.marshalCt t.2.1 ++ L.marshalCt t.2.2, Round := 0 }

/-- The round-2 message of a sender with the decryption share `share`. -/
def roundTwoMessage {R : Type} (L : MHELattice R) (t : PartyID × R) : MHETripleGenMessage :=
  { PartyID := t.1, Data := L.marshalPoly t.2, Round := 2 }

/-- A round record after the first polynomials `x`, `y` have been added into
those of `encA` and `encB`. -/
def MHETripleGenRound.addAB {R : Type} [Add R] (round : MHETripleGenRound R) (x y : R) :
    MHETripleGenRound R :=
  { round with encA := (round.encA.1 + x, round.encA.2), encB := (round.encB.1 + y, round.encB.2) }

/-- A round record with the decryption share replaced. -/
def MHETripleGenRound.withShare {R : Type} (round : MHETripleGenRound R) (share : R) :
    MHETripleGenRound R :=
  { round with decryptionShare := share }

/-- The decryption share that `genDecryptionShare` computes at a party with a
parent, from the polynomial `x` it received. -/
def nonRootShare {R : Type} [Ring R] (L : MHELattice R) (sk noise x : R) (c : List Nat) : R :=
  L.invNTT (L.mulCoeffsMontgomeryAndAdd x sk 0) + noise - L.encodeUint c

/-- A tree over the parties `0 .. N-1` rooted at 0: every party has a node, 0 is
its own parent, every other party has a smaller parent, and the child list of
a party lists, without repetition, the parties other than 0 whose parent it is. -/
def Tree.WellFormed (tree : Tree) (N : Nat) : Prop :=
  (∀ i : Nat, i < N → ∃ node, tree.lookup i = some node) ∧
  tree.parentOf 0 = 0 ∧
  (∀ i : Nat, 0 < i → i < N → tree.parentOf i < i) ∧
  (∀ i : Nat, i < N → (tree.childrenOf i).Nodup) ∧
  (∀ i : Nat, i < N → ∀ j : Nat, j ∈ tree.childrenOf i ↔ 0 < j ∧ j < N ∧ tree.parentOf j = i)

/-- The protocol instance of party `i` in a run over a well-formed tree. -/
def MHERun.node {R : Type} (run : MHERun R) (i : PartyID) : MHETripleGenProtocol R :=
  { ID := i, SecretKey := run.sk i,
    Parent := if i = 0 then none else some (run.tree.parentOf i),
    Children := run.tree.childrenOf i }

/-- The ciphertext `encA` that `genInput` builds at party `i` (it encrypts `b`). -/
def MHERun.ownA {R : Type} (run : MHERun R) (i : PartyID) : R × R :=
  run.L.encryptFromCRP (run.sk i) (run.b i) run.crp2

/-- The ciphertext `encB` that `genInput` builds at party `i` (it encrypts `a`). -/
def MHERun.ownB {R : Type} (run : MHERun R) (i : PartyID) : R × R :=
  run.L.encryptFromCRP (run.sk i) (run.a i) run.crp1

/-- The round record that `genInput` builds at party `i`. -/
def MHERun.input {R : Type} [Ring R] (run : MHERun R) (i : PartyID) : MHETripleGenRound R :=
  (run.node i).genInput run.L (run.a i) (run.b i) (run.c i) run.crp1 run.crp2

/-- The state in which party `i` enters the message loop. -/
def MHERun.init {R : Type} [Ring R] (run : MHERun R) (i : PartyID) : MHEState R :=
  if run.tree.childrenOf i = [] then
    { round := run.input i, state := 0,
      sent := [(run.tree.parentOf i, roundZeroMessage run.L (i, run.ownA i, run.ownB i))] }
  else { round := run.input i, state := 0, sent := [] }

/-- First polynomial of `encA`, summed over the subtree of `i`. -/
def MHERun.aggA {R : Type} [Ring R] (run : MHERun R) (N : Nat) (i : PartyID) : R :=
  treeSum run.tree.childrenOf (fun j => (run.ownA j).1) N i

/-- First polynomial of `encB`, summed over the subtree of `i`. -/
def MHERun.aggB {R : Type} [Ring R] (run : MHERun R) (N : Nat) (i : PartyID) : R :=
  treeSum run.tree.childrenOf (fun j => (run.ownB j).1) N i

/-- The round record of party `i` once round 0 has been aggregated. -/
def MHERun.round0 {R : Type} [Ring R] (run : MHERun R) (N : Nat) (i : PartyID) :
    MHETripleGenRound R :=
  { a := run.a i, b := run.b i, c := run.c i,
    encA := (run.aggA N i, (run.ownA i).2),
    encB := (run.aggB N i, (run.ownB i).2),
    encC := (0, 0),
    decryptionShare := 0 }

/-- The ciphertext `encC` that the root computes. -/
def MHERun.encC {R : Type} [Ring R] (run : MHERun R) (N : Nat) : R × R :=
  run.L.mulRelin (run.round0 N 0).encA (run.round0 N 0).encB

/-- The decryption share that party `i` computes. -/
def MHERun.share {R : Type} [Ring R] (run : MHERun R) (N : Nat) (i : PartyID) : R :=
  if i = 0 then
    run.L.invNTT (run.L.mulCoeffsMontgomeryAndAdd (run.L.ntt (run.encC N).2) (run.sk 0) 0)
  else nonRootShare run.L (run.sk i) (run.noise i) (run.L.ntt (run.encC N).2) (run.c i)

/-- The decryption shares summed over the subtree of `i`. -/
def MHERun.aggShare {R : Type} [Ring R] (run : MHERun R) (N : Nat) (i : PartyID) : R :=
  treeSum run.tree.childrenOf (run.share N) N i

/-- The round-0 message of party `i`. -/
def MHERun.msg0 {R : Type} [Ring R] (run : MHERun R) (N : Nat) (i : PartyID) :
    MHETripleGenMessage :=
  roundZeroMessage run.L (i, (run.round0 N i).encA, (run.round0 N i).encB)

/-- The round-2 message of party `i`. -/
def MHERun.msg2 {R : Type} [Ring R] (run : MHERun R) (N : Nat) (i : PartyID) :
    MHETripleGenMessage :=
  roundTwoMessage run.L (i, run.aggShare N i)

/-- The round-1 messages that party `i` puts on the queues of its children. -/
def MHERun.bcast {R : Type} [Ring R] (run : MHERun R) (N : Nat) (i : PartyID) :
    List (PartyID × MHETripleGenMessage) :=
  (run.tree.childrenOf i).map fun ch =>
    (ch, { PartyID := i, Data := run.L.marshalPoly (run.L.ntt (run.encC N).2), Round := 1 })

/-- The state of party `i` at the end of round 0. -/
def MHERun.state0 {R : Type} [Ring R] (run : MHERun R) (N : Nat) (i : PartyID) : MHEState R :=
  if i = 0 then
    { round := { run.round0 N 0 with encC := run.encC N, decryptionShare := run.share N 0 },
      state := 0, sent := run.bcast N 0 }
  else { round := run.round0 N i, state := 0, sent := [(run.tree.parentOf i, run.msg0 N i)] }

/-- The state of party `i` at the end of round 1, and whether it has left the
loop. -/
def MHERun.state1 {R : Type} [Ring R] (run : MHERun R) (N : Nat) (i : PartyID) :
    MHEState R × Bool :=
  if i = 0 then (run.state0 N 0, false)
  else if run.tree.childrenOf i = [] then
    ({ round := (run.round0 N i).withShare (run.share N i), state := 0,
       sent := [(run.tree.parentOf i, run.msg0 N i)] ++
         [(run.tree.parentOf i, roundTwoMessage run.L (i, run.share N i))] }, true)
  else
    ({ round := (run.round0 N i).withShare (run.share N i), state := 0,
       sent := [(run.tree.parentOf i, run.msg0 N i)] ++ run.bcast N i }, false)

/-- The state in which party `i` leaves the message loop. -/
def MHERun.state2 {R : Type} [Ring R] (run : MHERun R) (N : Nat) (i : PartyID) : MHEState R :=
  if i = 0 then
    { round := rootFinalize run.L
        (MHETripleGenRound.withShare { run.round0 N 0 with encC := run.encC N }
          (run.aggShare N 0)),
      state := (run.tree.childrenOf 0).length, sent := run.bcast N 0 }
  else if run.tree.childrenOf i = [] then (run.state1 N i).1
  else
    { round := (run.round0 N i).withShare (run.aggShare N i), state := 0,
      sent := [(run.tree.parentOf i, run.msg0 N i)] ++ run.bcast N i ++
        [(run.tree.parentOf i, run.msg2 N i)] }

/-- Modelled from the spec: the contract of the lattice operations, noise
ignored, for plaintext vectors in `(Z_q)^n` and the collective secret key `s`.
A ciphertext `(c0, c1)` encrypts `v` under a key `k` when `c0 + c1 * k` is the
encoding of `v`.
* `EncryptFromCRP` gives a ciphertext with the CRP as second polynomial that
  encrypts the plaintext under the key of the party;
* encoding is additive;
* `Mul` followed by `Relinearize` (with the relinearization key of `s`) turns
  encryptions of `u` and `v` under `s` into an encryption of their product;
* `InvNTT (NTT x ⊙ sk)` is the product `x * sk` in the ring;
* decoding inverts encoding. -/
def MHELattice.Contract {R : Type} [Ring R] (L : MHELattice R) (n q : Nat) (s : R) : Prop :=
  (∀ (sk : R) (v : List Nat) (r : R), (L.encryptFromCRP sk v r).2 = r) ∧
  (∀ (sk : R) (v : List Nat) (r : R), IsVec n q v →
    (L.encryptFromCRP sk v r).1 + r * sk = L.encodeUint v) ∧
  (∀ u v : List Nat, IsVec n q u → IsVec n q v →
    L.encodeUint (List.zipWith (addCoeff q) u v) = L.encodeUint u + L.encodeUint v) ∧
  (∀ (ctA ctB : R × R) (u v : List Nat), IsVec n q u → IsVec n q v →
    ctA.1 + ctA.2 * s = L.encodeUint u → ctB.1 + ctB.2 * s = L.encodeUint v →
    (L.mulRelin ctA ctB).1 + (L.mulRelin ctA ctB).2 * s
      = L.encodeUint (List.zipWith (mulCoeff q) u v)) ∧
  (∀ x sk : R, L.invNTT (L.mulCoeffsMontgomeryAndAdd (L.ntt x) sk 0) = x * sk) ∧
  (∀ v : List Nat, IsVec n q v → L.decodeUint (L.encodeUint v) = v)

/-- Coordinate-wise sum modulo `q` of the vectors `v 0, .., v (m-1)` of length `n`. -/
def vecSum (n q : Nat) (v : Nat → List Nat) : Nat → List Nat
  | 0 => List.replicate n 0
  | m + 1 => List.zipWith (addCoeff q) (vecSum n q v m) (v m)

/-- A noise-free instance of `MHELattice` over the ring `ZMod 7`, for vectors
of one coordinate modulo 7 and the collective key `s`: the encoding of `[x]` is
`x`, a ciphertext `(c0, c1)` encrypts `c0 + c1 * key`, the transform is the
identity.  It is used to run the driver on concrete data. -/
def sampleMHELattice (s : ZMod 7) : MHELattice (ZMod 7) where
  encodeUint := fun v => ((v.getD 0 0 : Nat) : ZMod 7)
  decodeUint := fun p => [p.val]
  encryptFromCRP := fun sk v r => (((v.getD 0 0 : Nat) : ZMod 7) - r * sk, r)
  mulRelin := fun x y => ((x.1 + x.2 * s) * (y.1 + y.2 * s) - x.2 * y.2 * s, x.2 * y.2)
  ntt := fun x => x
  invNTT := fun x => x
  mulCoeffsMontgomeryAndAdd := fun x sk acc => acc + x * sk
  marshalCt := fun ct => [ct.1.val, ct.2.val]
  unmarshalCt := fun d =>
    match d with
    | [x, y] => some ((x : ZMod 7), (y : ZMod 7))
    | _ => none
  marshalPoly := fun p => [p.val]
  unmarshalPoly := fun d =>
    match d with
    | [x] => some (x : ZMod 7)
    | _ => none

/-- A sample run of the MHE protocol: two parties, the tree of `NewTree` with
branching factor 2, secret keys 3 and 5, one coordinate modulo 7. -/
def sampleRun : MHERun (ZMod 7) where
  L := sampleMHELattice (3 + 5)
  tree := (NewTree (mainPeers 2) 2).getD ∅
  sk := fun i => if i = 0 then 3 else 5
  a := fun i => [i + 2]
  b := fun i => [2 * i + 1]
  c := fun i => [i + 3]
  crp1 := 4
  crp2 := 2
  noise := fun _ => 0
  arrival0 := fun i => ((NewTree (mainPeers 2) 2).getD ∅).childrenOf i
  arrival2 := fun i => ((NewTree (mainPeers 2) 2).getD ∅).childrenOf i

/-- Embedding of `negVec`: `v[i] = q - a[i]`, a `uint64` subtraction without
reduction. -/
def negVec (a : List Nat) (q : Nat) : List Nat :=
  a.map fun x => (q + 2 ^ 64 - x) % 2 ^ 64

/-! ### Party registry (`parties.go`) and connection roles (`network.go`) -/

/-- Embedding of `type RemoteParty struct { Party }`, with the fields of
`type Party struct { ID PartyID; Addr string }`. -/
structure RemoteParty where
  ID : PartyID
  Addr : String
deriving DecidableEq, Repr

/-- Embedding of `LocalParty`: the fields of the embedded `Party` and the map
`Peers` (the embedded `*sync.WaitGroup` is left nil by the constructor). -/
structure LocalParty where
  ID : PartyID
  Addr : String
  Peers : AList (fun _ : PartyID => RemoteParty)

/-- Embedding of `NewRemoteParty`, which always returns a nil error. -/
def NewRemoteParty (id : PartyID) (addr : String) : Except String RemoteParty :=
  .ok { ID := id, Addr := addr }

/-- Embedding of `NewLocalParty`.  `p.Addr = peers[id]` is the empty string when
`id` is not a key of `peers`; `order` is the order in which `range peers`
yields the entries of the address book. -/
def NewLocalParty (id : PartyID) (peers : PeerMap)
    (order : List (Sigma fun _ : PartyID => String)) : Except String LocalParty :=
  order.foldlM
    (fun p e =>
      match NewRemoteParty e.1 e.2 with
      | .ok rp => .ok { p with Peers := p.Peers.insert e.1 rp }
      | .error err => .error err)
    { ID := id, Addr := (peers.lookup id).getD "", Peers := ∅ }

/-- The two maps `waitFor` and `dialFor` that `TCPNetworkStruct.Connect` fills. -/
structure ConnectRoles where
  waitFor : AList (fun _ : PartyID => RemoteParty)
  dialFor : AList (fun _ : PartyID => RemoteParty)

/-- First loop of `TCPNetworkStruct.Connect`: a peer with a smaller ID than the
local party goes to `waitFor` (its connection is accepted on the listening
socket), a peer with a greater ID to `dialFor` (it is dialled).  `order` is the
order in which `range lp.Peers` yields the remote parties. -/
def Connect.roles (lp : LocalParty) (order : List RemoteParty) : ConnectRoles :=
  order.foldl
    (fun r rp =>
      { waitFor := if lp.ID > rp.ID then r.waitFor.insert rp.ID rp else r.waitFor,
        dialFor := if lp.ID < rp.ID then r.dialFor.insert rp.ID rp else r.dialFor })
    { waitFor := ∅, dialFor := ∅ }

/-- The count given to `tnw.ready.Add`: `len(waitFor) + len(dialFor)`, the
number of connections `Connect` waits for before it returns. -/
def Connect.readyCount (r : ConnectRoles) : Nat :=
  r.waitFor.entries.length + r.dialFor.entries.length

/-- The remote parties of a local party, in the order of the entries of `Peers`. -/
def LocalParty.remotes (lp : LocalParty) : List RemoteParty :=
  lp.Peers.entries.map Sigma.snd

/-! ### RLK protocol (`genrlk.go`) -/

/-- Modelled from the spec: the operations of the lattice library that
`RkgProtocol.Run` calls (`dbfv.RKGProtocol`, the keyed sampler), over a type `P`
of polynomials (secret keys, CRP), a type `S` of shares (`drlwe.RKGShare`) and
a type `K` of relinearization keys.  The samples drawn inside the share
generation are fixed by the instance. -/
structure RKGLattice (P S K : Type) where
  /-- Embeds `AllocateShares`: the ephemeral key and the two shares, zeroed -/
  allocateShares : P × S × S
  /-- Embeds `NewKeyedPRNG(seed)` and the `Beta` reads of the uniform sampler over
  it: the CRP; `none` when `NewKeyedPRNG` returns an error -/
  crpOfSeed : List Nat → Option (List P)
  /-- Embeds `GenShareRoundOne(sk, crp, u, share1)`: the values written to `u` and `share1` -/
  genShareRoundOne : P → List P → P × S
  /-- Embeds `GenShareRoundTwo(u, sk, share1, crp, share2)`: the value written to `share2` -/
  genShareRoundTwo : P → P → S → List P → S
  /-- Embeds `AggregateShares(x, y, out)`: the value written to `out` -/
  aggregateShares : S → S → S
  /-- Embeds `bfv.NewRelinearizationKey` followed by `GenRelinearizationKey(share1, share2, rlk)` -/
  genRelinearizationKey : S → S → K
  /-- Embeds `RKGShare.MarshalBinary` -/
  marshalShare : S → List Nat
  /-- Embeds `RKGShare.UnmarshalBinary`; `none` is an error -/
  unmarshalShare : List Nat → Option S

/-- The fields of `RkgProtocol` that `Run` reads and does not write: the local
ID, the secret key, the parent (`nil` at the root) and the keys of `Children`. -/
structure RkgProtocol (P : Type) where
  ID : PartyID
  SecretKey : P
  Parent : Option PartyID
  Children : List PartyID

/-- Embedding of `NewRkgProtocol`: `Parent` is set when
`lp.ID != tree[lp.ID].Parent`, and `Children` is keyed by the IDs of
`tree[lp.ID].Children`.  A tree without a node for `lp.ID` is a nil dereference. -/
def NewRkgProtocol {P : Type} (id : PartyID) (sk : P) (tree : Tree) : Option (RkgProtocol P) :=
  match tree.lookup id with
  | none => none
  | some node =>
    some { ID := id, SecretKey := sk,
           Parent := if id ≠ node.Parent then some node.Parent else none,
           Children := node.Children.dedup }

/-- The fields of `RkgProtocol` that `Run` writes (`u`, `share1`, `share2`,
`crp`, `rlk`; a nil `rlk` is `none`), the local counter `state` (a Go `int`)
and the messages put so far on the outbound queues, with their addressee. -/
structure RkgState (P S K : Type) where
  u : P
  share1 : S
  share2 : S
  crp : List P
  rlk : Option K
  state : Int
  sent : List (PartyID × RkgGenMessage)

/-- How the message loop of `RkgProtocol.Run` stands once the messages that
arrived have been offered to it. -/
inductive RkgOutcome (P S K : Type) where
  /-- the loop was left by `break` -/
  | exited (st : RkgState P S K) (unread : List RkgGenMessage)
  /-- every message was consumed and the loop blocks on `rkg.Chan` -/
  | waiting (st : RkgState P S K)
  /-- a call of `panic` -/
  | panicked

/-- The field `rlk` in the state an outcome carries (nil after a panic, which
assigns nothing). -/
def RkgOutcome.rlk {P S K : Type} : RkgOutcome P S K → Option K
  | .exited st _ => st.rlk
  | .waiting st => st.rlk
  | .panicked => none

/-- The statement `state++` on a Go `int` (64 bits, two's complement). -/
def intIncr (x : Int) : Int := if x + 1 < 2 ^ 63 then x + 1 else x + 1 - 2 ^ 64

/-- The seed `[]byte{'b', 'e', 'a', 'v', 'e', 'r', 's'}` of the root. -/
def beaversSeed : List Nat := [98, 101, 97, 118, 101, 114, 115]

/-- Embedding of `aggregateShareRound1`; an unmarshalling error panics. -/
def aggregateShareRound1 {P S K : Type} (L : RKGLattice P S K) (data : List Nat)
    (st : RkgState P S K) : Option (RkgState P S K) :=
  match L.unmarshalShare data with
  | none => none
  | some share => some { st with share1 := L.aggregateShares st.share1 share }

/-- Embedding of `aggregateShareRound2`; an unmarshalling error panics. -/
def aggregateShareRound2 {P S K : Type} (L : RKGLattice P S K) (data : List Nat)
    (st : RkgState P S K) : Option (RkgState P S K) :=
  match L.unmarshalShare data with
  | none => none
  | some share => some { st with share2 := L.aggregateShares st.share2 share }

/-- The state after the first two statements of `RkgProtocol.Run` (the shares
are allocated, `state` is zero). -/
def RkgProtocol.alloc {P S K : Type} (L : RKGLattice P S K) : RkgState P S K :=
  { u := L.allocateShares.1, share1 := L.allocateShares.2.1, share2 := L.allocateShares.2.2,
    crp := [], rlk := none, state := 0, sent := [] }

/-- Root branch of `RkgProtocol.Run` up to its message loop: the CRP is expanded
from the seed, the seed is sent to every child with round tag 0, and the
round-one share is generated. -/
def RkgProtocol.rootStart {P S K : Type} (L : RKGLattice P S K) (rkg : RkgProtocol P) :
    Option (RkgState P S K) :=
  match L.crpOfSeed beaversSeed with
  | none => none
  | some crp =>
    some { u := (L.genShareRoundOne rkg.SecretKey crp).1,
           share1 := (L.genShareRoundOne rkg.SecretKey crp).2,
           share2 := L.allocateShares.2.2,
           crp := crp, rlk := none, state := 0,
           sent := rkg.Children.map fun ch =>
             (ch, { PartyID := rkg.ID, Data := beaversSeed, Round := 0 }) }

/-- Body of the message loop of the root for one message: the new state and
whether the loop is left by `break`.  The two tests on `m.Round` of the source
exclude one another. -/
def RkgProtocol.rootStep {P S K : Type} (L : RKGLattice P S K) (rkg : RkgProtocol P)
    (st : RkgState P S K) (m : RkgGenMessage) : Option (RkgState P S K × Bool) :=
  if m.Round = 1 then
    match aggregateShareRound1 L m.Data st with
    | none => none
    | some st1 =>
      if intIncr st1.state = rkg.Children.length then
        some ({ st1 with
                share2 := L.genShareRoundTwo st1.u rkg.SecretKey st1.share1 st1.crp,
                state := 0,
                sent := st1.sent ++ rkg.Children.map fun ch =>
                  (ch, { PartyID := rkg.ID, Data := L.marshalShare st1.share1, Round := 2 }) },
              false)
      else some ({ st1 with state := intIncr st1.state }, false)
  else if m.Round = 3 then
    match aggregateShareRound2 L m.Data st with
    | none => none
    | some st1 =>
      if intIncr st1.state = rkg.Children.length then
        some ({ st1 with
                state := intIncr st1.state,
                rlk := some (L.genRelinearizationKey st1.share1 st1.share2) }, true)
      else some ({ st1 with state := intIncr st1.state }, false)
  else some (st, false)

/-- Body of the message loop of a party with a parent (`rkg.Parent != nil`) for
one message: the new state and whether the loop is left by `break`.  The four
tests on `m.Round` of the source exclude one another.  A seed that
`NewKeyedPRNG` rejects and a round-2 buffer that does not unmarshal panic. -/
def RkgProtocol.childStep {P S K : Type} (L : RKGLattice P S K) (rkg : RkgProtocol P)
    (parent : PartyID) (st : RkgState P S K) (m : RkgGenMessage) :
    Option (RkgState P S K × Bool) :=
  if m.Round = 0 then
    match L.crpOfSeed m.Data with
    | none => none
    | some crp =>
      some ({ st with
              crp := crp,
              u := (L.genShareRoundOne rkg.SecretKey crp).1,
              share1 := (L.genShareRoundOne rkg.SecretKey crp).2,
              sent := st.sent ++ (rkg.Children.map fun ch => (ch, m)) ++
                if rkg.Children.length = 0 then
                  [(parent, { PartyID := rkg.ID,
                              Data := L.marshalShare (L.genShareRoundOne rkg.SecretKey crp).2,
                              Round := 1 })]
                else [] }, false)
  else if m.Round = 1 then
    match aggregateShareRound1 L m.Data st with
    | none => none
    | some st1 =>
      if intIncr st1.state = rkg.Children.length then
        some ({ st1 with
                state := 0,
                sent := st1.sent ++
                  [(parent, { PartyID := rkg.ID, Data := L.marshalShare st1.share1,
                              Round := 1 })] }, false)
      else some ({ st1 with state := intIncr st1.state }, false)
  else if m.Round = 2 then
    match L.unmarshalShare m.Data with
    | none => none
    | some share1 =>
      some ({ st with
              share1 := share1,
              share2 := L.genShareRoundTwo st.u rkg.SecretKey share1 st.crp,
              sent := st.sent ++ (rkg.Children.map fun ch => (ch, m)) ++
                if rkg.Children.length = 0 then
                  [(parent, { PartyID := rkg.ID,
                              Data := L.marshalShare
                                (L.genShareRoundTwo st.u rkg.SecretKey share1 st.crp),
                              Round := 3 })]
                else [] }, decide (rkg.Children.length = 0))
  else if m.Round = 3 then
    match aggregateShareRound2 L m.Data st with
    | none => none
    | some st1 =>
      if intIncr st1.state = rkg.Children.length then
        some ({ st1 with
                state := 0,
                sent := st1.sent ++
                  [(parent, { PartyID := rkg.ID, Data := L.marshalShare st1.share2,
                              Round := 3 })] }, true)
      else some ({ st1 with state := intIncr st1.state }, false)
  else some (st, false)

/-- Body of the message loop of `RkgProtocol.Run` for one message, in the
branch that `rkg.Parent == nil` selects. -/
def RkgProtocol.step {P S K : Type} (L : RKGLattice P S K) (rkg : RkgProtocol P)
    (st : RkgState P S K) (m : RkgGenMessage) : Option (RkgState P S K × Bool) :=
  match rkg.Parent with
  | none => rkg.rootStep L st m
  | some parent => rkg.childStep L parent st m

/-- The message loop of `RkgProtocol.Run`, `for m := range rkg.Chan`, on the
messages that arrive, in their order of arrival. -/
def RkgProtocol.loop {P S K : Type} (L : RKGLattice P S K) (rkg : RkgProtocol P) :
    RkgState P S K → List RkgGenMessage → RkgOutcome P S K
  | st, [] => .waiting st
  | st, m :: inbox =>
    match rkg.step L st m with
    | none => .panicked
    | some (st1, true) => .exited st1 inbox
    | some (st1, false) => RkgProtocol.loop L rkg st1 inbox

/-- Embedding of `RkgProtocol.Run` on the messages that arrive on `rkg.Chan`. -/
def RkgProtocol.Run {P S K : Type} (L : RKGLattice P S K) (rkg : RkgProtocol P)
    (inbox : List RkgGenMessage) : RkgOutcome P S K :=
  match rkg.Parent with
  | none =>
    match rkg.rootStart L with
    | none => .panicked
    | some st => rkg.loop L st inbox
  | some _ => rkg.loop L (RkgProtocol.alloc L) inbox

/-- The round-2 broadcast of the root: the aggregated round-one share, for
every child. -/
def RkgProtocol.bcast {P S K : Type} (L : RKGLattice P S K) (rkg : RkgProtocol P)
    (share1 : S) : List (PartyID × RkgGenMessage) :=
  rkg.Children.map fun ch =>
    (ch, { PartyID := rkg.ID, Data := L.marshalShare share1, Round := 2 })

/-- The seed messages of the root, for every child. -/
def RkgProtocol.seeds {P : Type} (rkg : RkgProtocol P) : List (PartyID × RkgGenMessage) :=
  rkg.Children.map fun ch => (ch, { PartyID := rkg.ID, Data := beaversSeed, Round := 0 })

/-- Number of messages with the given round tag put on the queue of `dest`. -/
def sentCount (sent : List (PartyID × RkgGenMessage)) (dest : PartyID) (round : Int) : Nat :=
  (sent.filter fun x => decide (x.1 = dest) && decide (x.2.Round = round)).length

/-- A sample instance of `RKGLattice` over integers: shares are added, the key
is the pair of the two aggregated shares, a share is marshalled as one byte. -/
def sampleRKGLattice : RKGLattice Nat Nat (Nat × Nat) where
  allocateShares := (0, 0, 0)
  crpOfSeed := fun seed => some [seed.length]
  genShareRoundOne := fun sk crp => (sk + 1, sk + crp.length)
  genShareRoundTwo := fun u sk share1 _ => u + sk + share1
  aggregateShares := fun x y => x + y
  genRelinearizationKey := fun s1 s2 => (s1, s2)
  marshalShare := fun s => [s]
  unmarshalShare := fun d =>
    match d with
    | [x] => some x
    | _ => none

/-- The root of the tree of three parties with branching factor 2, with the
children 1 and 2 and the secret key 5. -/
def sampleRkgRoot : RkgProtocol Nat :=
  { ID := 0, SecretKey := 5, Parent := none, Children := [1, 2] }

/-- A child of that root. -/
def sampleRkgChild : RkgProtocol Nat :=
  { ID := 1, SecretKey := 7, Parent := some 0, Children := [] }

/-- Sample arrivals at that root: the round-1 messages of its two children. -/
def sampleRound1 : List RkgGenMessage :=
  [{ PartyID := 1, Data := [4], Round := 1 }, { PartyID := 2, Data := [6], Round := 1 }]

/-- Sample arrivals at that root: the round-3 messages of its two children. -/
def sampleRound3 : List RkgGenMessage :=
  [{ PartyID := 2, Data := [1], Round := 3 }, { PartyID := 1, Data := [2], Round := 3 }]

/-- Sample round-0 messages of two children for `sampleMHELattice`: two
marshalled ciphertexts each. -/
def sampleRound0 : List MHETripleGenMessage :=
  [{ PartyID := 1, Data := [1, 2, 3, 2], Round := 0 },
   { PartyID := 2, Data := [5, 2, 6, 2], Round := 0 }]

/-- Sample round-2 messages of two children for `sampleMHELattice`: one
marshalled polynomial each. -/
def sampleRound2 : List MHETripleGenMessage :=
  [{ PartyID := 1, Data := [3], Round := 2 }, { PartyID := 2, Data := [6], Round := 2 }]

/-! ### Command line (`main.go`) -/

/-- Modelled from the spec: `strconv.ParseUint(s, 10, 64)` of the Go standard
library, for the "non-negative 64-bit integers" of the command line: the value
and whether an error is returned.  A string that is empty or has a character
other than a decimal digit is a syntax error, with value 0; a number that does
not fit 64 bits is a range error, with value `2^64 - 1`. -/
def ParseUint (s : String) : Nat × Bool :=
  if s.data = [] ∨ s.data.any (fun ch => !ch.isDigit) then (0, true)
  else if s.data.foldl (fun acc ch => 10 * acc + (ch.toNat - 48)) 0 < 2 ^ 64 then
    (s.data.foldl (fun acc ch => 10 * acc + (ch.toNat - 48)) 0, false)
  else (2 ^ 64 - 1, true)

/-- How `main` ends: a call of `os.Exit`, or the call of one of the two clients
with its arguments (party ID, number of parties, number of triples). -/
inductive MainAction where
  /-- Embeds `os.Exit(code)` -/
  | exit (code : Nat)
  /-- Embeds `ClientHETripleGen(partyID, nParties, nTriple)` -/
  | clientHE (partyID nParties nTriple : Nat)
  /-- Embeds `ClientMHETripleGen(partyID, nParties, nTriple)` -/
  | clientMHE (partyID nParties nTriple : Nat)
deriving DecidableEq, Repr

/-- What `main` does: the lines it prints, then its action. -/
structure MainResult where
  stdout : List String
  action : MainAction
deriving DecidableEq, Repr

/-- Embedding of `main`, for the program name `prog = os.Args[0]` and the
arguments `args = os.Args[1:]`. -/
def main (prog : String) (args : List String) : MainResult :=
  if args.length < 4 then
    { stdout := ["Usage: " ++ prog ++ " [proto] [party ID] [n party] [n beaver]"],
      action := .exit 1 }
  else if (ParseUint (args.getD 1 "")).2 then
    { stdout := ["Party ID should be an unsigned integer"], action := .exit 1 }
  else if (ParseUint (args.getD 2 "")).2 then
    { stdout := ["n party should be an unsigned integer"], action := .exit 1 }
  else
    { stdout :=
        if (ParseUint (args.getD 3 "")).2 ∨ (ParseUint (args.getD 3 "")).1 = 0 then
          ["n triples should be a positive integer"]
        else [],
      action :=
        if args.getD 0 "" = "mhe" then
          .clientMHE (ParseUint (args.getD 1 "")).1 (ParseUint (args.getD 2 "")).1
            (ParseUint (args.getD 3 "")).1
        else
          .clientHE (ParseUint (args.getD 1 "")).1 (ParseUint (args.getD 2 "")).1
            (ParseUint (args.getD 3 "")).1 }

/-! ### Emission of the triples (`offline_he.go`, `offline_mhe.go`) -/

/-- The channel `tgp.Triples`, made by `make(chan Triple, tgp.n)`: its capacity,
the values buffered (the channel is read only after `Run` has returned) and
whether it has been closed. -/
structure TripleChan where
  cap : Nat
  buf : List Triple
  closed : Bool
deriving DecidableEq, Repr

/-- The emission loop that ends both `Run` functions, entered with the value
`needed` of the `uint64` counter:
`for _, t := range triples { tgp.Triples <- t; needed--; if needed == 0 { break } }`.
A send on a full channel blocks for ever (`none`). -/
def Run.emitLoop (ch : TripleChan) : Nat → List Triple → Option TripleChan
  | _, [] => some ch
  | needed, t :: rest =>
    if ch.buf.length < ch.cap then
      if (needed + 2 ^ 64 - 1) % 2 ^ 64 = 0 then some { ch with buf := ch.buf ++ [t] }
      else Run.emitLoop { ch with buf := ch.buf ++ [t] } ((needed + 2 ^ 64 - 1) % 2 ^ 64) rest
    else none

/-- The end of both `Run` functions, for `tgp.n = n`: `needed := nTriple`, the
emission loop on the empty channel of capacity `n`, then `close(tgp.Triples)`. -/
def Run.emit (n nTriple : Nat) (triples : List Triple) : Option TripleChan :=
  (Run.emitLoop { cap := n, buf := [], closed := false } nTriple triples).map
    fun ch => { ch with closed := true }

/-- The end of `TripleGenProtocol.Run(nTriple)` once the message loop has been
left with the round record `round`; `none` is a panic or a blocked send. -/
def Run.finish {Ct : Type} (E : Lattice Ct) (n q nTriple : Nat) (round : TripleGenRound Ct) :
    Option TripleChan :=
  (decryptTriples E n q round).bind (Run.emit n nTriple)

/-- Embedding of `MHETripleGenProtocol.decryptTriples` for `tgp.n = n`; an
index beyond one of the vectors panics. -/
def MHETripleGenProtocol.decryptTriples {R : Type} (n : Nat) (round : MHETripleGenRound R) :
    Option (List Triple) :=
  if n ≤ round.a.length ∧ n ≤ round.b.length ∧ n ≤ round.c.length then
    some ((List.range n).map fun i =>
      ⟨round.a.getD i 0, round.b.getD i 0, round.c.getD i 0⟩)
  else none

/-- The end of `MHETripleGenProtocol.Run(nTriple)` once the message loop has
been left with the round record `round`. -/
def MHETripleGenProtocol.finish {R : Type} (n nTriple : Nat) (round : MHETripleGenRound R) :
    Option TripleChan :=
  (MHETripleGenProtocol.decryptTriples n round).bind (Run.emit n nTriple)

/-- A sample round record of the HE driver at the end of its message loop: two
coordinates modulo 7, ciphertexts of `idealLattice`. -/
def sampleHERound : TripleGenRound (List Nat) :=
  { a := [3, 1], b := [2, 5], c := [4, 6], plainA := [3, 1], plainB := [2, 5],
    plainM := fun _ => none, encA := [3, 1], encAggr := [5, 0],
    hasQueried := ∅, hasResponded := ∅ }

/-- A sample round record of the MHE driver at the end of its message loop. -/
def sampleMHERound : MHETripleGenRound (ZMod 7) :=
  { a := [3, 1], b := [2, 5], c := [4, 6], encA := (0, 0), encB := (0, 0), encC := (0, 0),
    decryptionShare := 0 }

/-! ## Theorems -/

/-! ### Coordinates of the vector operations -/

theorem addCoeff_lt {q x y : Nat} (hq : q ≤ 2 ^ 62) (hx : x < q) (hy : y < q) :
    addCoeff q x y < q := by
  unfold addCoeff CRed
  have h : (x + y) % 2 ^ 64 = x + y := Nat.mod_eq_of_lt (by omega)
  rw [h]
  split <;> omega

theorem addCoeff_cast {q x y : Nat} (hq : q ≤ 2 ^ 62) (hx : x < q) (hy : y < q) :
    ((addCoeff q x y : Nat) : ZMod q) = (x : ZMod q) + (y : ZMod q) := by
  unfold addCoeff CRed
  have h : (x + y) % 2 ^ 64 = x + y := Nat.mod_eq_of_lt (by omega)
  rw [h]
  split
  · rename_i hge
    rw [Nat.cast_sub hge]
    simp
  · simp

theorem subCoeff_lt {q x y : Nat} (hq : q ≤ 2 ^ 62) (hx : x < q) (hy : y < q) :
    subCoeff q x y < q := by
  unfold subCoeff CRed
  have h1 : (q + 2 ^ 64 - y) % 2 ^ 64 = q - y := by
    have : q + 2 ^ 64 - y = (q - y) + 2 ^ 64 := by omega
    rw [this, Nat.add_mod_right]
    exact Nat.mod_eq_of_lt (by omega)
  have h2 : (x + (q - y)) % 2 ^ 64 = x + (q - y) := Nat.mod_eq_of_lt (by omega)
  rw [h1, h2]
  split <;> omega

theorem subCoeff_cast {q x y : Nat} (hq : q ≤ 2 ^ 62) (hx : x < q) (hy : y < q) :
    ((subCoeff q x y : Nat) : ZMod q) = (x : ZMod q) - (y : ZMod q) := by
  unfold subCoeff CRed
  have h1 : (q + 2 ^ 64 - y) % 2 ^ 64 = q - y := by
    have : q + 2 ^ 64 - y = (q - y) + 2 ^ 64 := by omega
    rw [this, Nat.add_mod_right]
    exact Nat.mod_eq_of_lt (by omega)
  have h2 : (x + (q - y)) % 2 ^ 64 = x + (q - y) := Nat.mod_eq_of_lt (by omega)
  rw [h1, h2]
  split
  · rename_i hge
    rw [Nat.cast_sub hge, Nat.cast_add, Nat.cast_sub hy.le]
    simp
    ring
  · rw [Nat.cast_add, Nat.cast_sub hy.le]
    simp
    ring

theorem mulCoeff_lt {q : Nat} (x y : Nat) (hq : 0 < q) : mulCoeff q x y < q := by
  unfold mulCoeff BRed
  exact Nat.mod_lt _ hq

theorem mulCoeff_cast (q x y : Nat) :
    ((mulCoeff q x y : Nat) : ZMod q) = (x : ZMod q) * (y : ZMod q) := by
  unfold mulCoeff BRed
  simp

/-! ### Vectors -/

theorem IsVec.getD_lt {n q : Nat} {v : List Nat} (hv : IsVec n q v) {k : Nat} (hk : k < n) :
    v.getD k 0 < q := by
  obtain ⟨hl, hx⟩ := hv
  have hk2 : k < v.length := by omega
  rw [List.getD_eq_getElem _ _ hk2]
  exact hx _ (List.getElem_mem hk2)

theorem zipWith_getD (f : Nat → Nat → Nat) (a b : List Nat) (k : Nat)
    (ha : k < a.length) (hb : k < b.length) :
    (List.zipWith f a b).getD k 0 = f (a.getD k 0) (b.getD k 0) := by
  have hz : k < (List.zipWith f a b).length := by
    rw [List.length_zipWith]
    omega
  rw [List.getD_eq_getElem _ _ hz, List.getD_eq_getElem _ _ ha, List.getD_eq_getElem _ _ hb,
    List.getElem_zipWith]

theorem zipWith_isVec (f : Nat → Nat → Nat) {n q : Nat} {a b : List Nat}
    (ha : IsVec n q a) (hb : IsVec n q b)
    (hf : ∀ x y, x < q → y < q → f x y < q) : IsVec n q (List.zipWith f a b) := by
  obtain ⟨hla, hxa⟩ := ha
  obtain ⟨hlb, hxb⟩ := hb
  refine ⟨by rw [List.length_zipWith]; omega, ?_⟩
  intro x hx
  rw [List.mem_iff_getElem] at hx
  obtain ⟨i, hi, rfl⟩ := hx
  rw [List.getElem_zipWith]
  exact hf _ _ (hxa _ (List.getElem_mem _)) (hxb _ (List.getElem_mem _))

theorem subVec_isVec {n q : Nat} (hq : q ≤ 2 ^ 62) {a b : List Nat}
    (ha : IsVec n q a) (hb : IsVec n q b) :
    ∃ c, subVec a b q = some c ∧ IsVec n q c ∧
      ∀ k, k < n → ((c.getD k 0 : Nat) : ZMod q) = (a.getD k 0 : ZMod q) - (b.getD k 0 : ZMod q) := by
  refine ⟨List.zipWith (subCoeff q) a b, ?_, ?_, ?_⟩
  · unfold subVec
    rw [if_pos (by rw [ha.1, hb.1])]
  · exact zipWith_isVec _ ha hb (fun x y hx hy => subCoeff_lt hq hx hy)
  · intro k hk
    rw [zipWith_getD _ _ _ _ (by rw [ha.1]; exact hk) (by rw [hb.1]; exact hk)]
    exact subCoeff_cast hq (ha.getD_lt hk) (hb.getD_lt hk)

theorem addVec_isVec {n q : Nat} (hq : q ≤ 2 ^ 62) {a b : List Nat}
    (ha : IsVec n q a) (hb : IsVec n q b) :
    ∃ c, addVec a b q = some c ∧ IsVec n q c ∧
      ∀ k, k < n → ((c.getD k 0 : Nat) : ZMod q) = (a.getD k 0 : ZMod q) + (b.getD k 0 : ZMod q) := by
  refine ⟨List.zipWith (addCoeff q) a b, ?_, ?_, ?_⟩
  · unfold addVec
    rw [if_pos (by rw [ha.1, hb.1])]
  · exact zipWith_isVec _ ha hb (fun x y hx hy => addCoeff_lt hq hx hy)
  · intro k hk
    rw [zipWith_getD _ _ _ _ (by rw [ha.1]; exact hk) (by rw [hb.1]; exact hk)]
    exact addCoeff_cast hq (ha.getD_lt hk) (hb.getD_lt hk)

theorem mulVec_isVec {n q : Nat} (hq : 0 < q) {a b : List Nat}
    (ha : IsVec n q a) (hb : IsVec n q b) :
    ∃ c, mulVec a b q = some c ∧ IsVec n q c ∧
      ∀ k, k < n → ((c.getD k 0 : Nat) : ZMod q) = (a.getD k 0 : ZMod q) * (b.getD k 0 : ZMod q) := by
  refine ⟨List.zipWith (mulCoeff q) a b, ?_, ?_, ?_⟩
  · unfold mulVec
    rw [if_pos (by rw [ha.1, hb.1])]
  · exact zipWith_isVec _ ha hb (fun x y _ _ => mulCoeff_lt x y hq)
  · intro k hk
    rw [zipWith_getD _ _ _ _ (by rw [ha.1]; exact hk) (by rw [hb.1]; exact hk)]
    exact mulCoeff_cast q _ _

/-- The mask loop of `genInput`: it never panics on share vectors, and it
subtracts from every coordinate the masks of all the peers other than self. -/
theorem genInput_maskLoop {n q : Nat} (hq : q ≤ 2 ^ 62) (self : PartyID)
    (m : PartyID → List Nat) (L : List PartyID) :
    ∀ c0 : List Nat, IsVec n q c0 → (∀ p ∈ L, IsVec n q (m p)) →
    ∃ c, L.foldlM (fun c peerID => if peerID ≠ self then subVec c (m peerID) q else some c) c0
          = some c ∧ IsVec n q c ∧
      ∀ k, k < n → ((c.getD k 0 : Nat) : ZMod q) =
        (c0.getD k 0 : ZMod q) -
          ((L.filter (fun p => decide (p ≠ self))).map
            (fun p => (((m p).getD k 0 : Nat) : ZMod q))).sum := by
  induction L with
  | nil =>
    intro c0 hc0 _
    exact ⟨c0, rfl, hc0, fun k _ => by simp⟩
  | cons p L ih =>
    intro c0 hc0 hm
    have hmL : ∀ p ∈ L, IsVec n q (m p) := fun x hx => hm x (List.mem_cons_of_mem _ hx)
    by_cases hp : p = self
    · obtain ⟨c, hc, hv, hk⟩ := ih c0 hc0 hmL
      refine ⟨c, ?_, hv, ?_⟩
      · rw [List.foldlM_cons]
        simp only [hp, ne_eq, not_true_eq_false, if_false]
        simpa using hc
      · intro k hkn
        rw [hk k hkn]
        simp [hp]
    · obtain ⟨c1, hc1, hv1, hk1⟩ := subVec_isVec hq hc0 (hm p (List.mem_cons_self _ _))
      obtain ⟨c, hc, hv, hk⟩ := ih c1 hv1 hmL
      refine ⟨c, ?_, hv, ?_⟩
      · rw [List.foldlM_cons]
        simp only [ne_eq, hp, not_false_eq_true, if_true, hc1]
        simpa using hc
      · intro k hkn
        rw [hk k hkn, hk1 k hkn]
        simp [hp]
        ring

theorem sum_filter_ne_of_perm {M : Type} [AddCommMonoid M] (N : Nat) (self : PartyID)
    (L : List PartyID) (hL : L.Perm (List.range N)) (g : PartyID → M) :
    ((L.filter (fun p => decide (p ≠ self))).map g).sum
      = ∑ j in (Finset.range N).erase self, g j := by
  have h1 : ((L.filter (fun p => decide (p ≠ self))).map g).sum
      = (((List.range N).filter (fun p => decide (p ≠ self))).map g).sum :=
    ((hL.filter _).map g).sum_eq
  have hnd : ((List.range N).filter (fun p => decide (p ≠ self))).Nodup :=
    (List.nodup_range N).filter _
  rw [h1, ← List.sum_toFinset g hnd]
  apply Finset.sum_congr _ (fun _ _ => rfl)
  ext x
  simp [and_comm]

/-- One party of the HE protocol: `genInput` followed by `decryptTriples` on a
round whose aggregate decrypts to `e` neither panics nor changes the shares
of `a` and `b`, and the share of `c` is `a·b - Σ_j m_j + e` modulo `q`. -/
theorem he_party {Ct : Type} (E : Lattice Ct) (N n q : Nat) (hq0 : 0 < q) (hq : q ≤ 2 ^ 62)
    (self : PartyID) (a b : List Nat) (m : PartyID → List Nat) (order : List PartyID)
    (aggr : Ct) (ha : IsVec n q a) (hb : IsVec n q b) (hm : ∀ j, j < N → IsVec n q (m j))
    (horder : order.Perm (List.range N)) (he : IsVec n q (E.decrypt aggr)) :
    ∃ r T, genInput E self order q a b m = some r ∧
      decryptTriples E n q { r with encAggr := aggr } = some T ∧ T.length = n ∧
      ∀ k, k < n → (T.getD k ⟨0, 0, 0⟩).A = a.getD k 0 ∧ (T.getD k ⟨0, 0, 0⟩).B = b.getD k 0 ∧
        (((T.getD k ⟨0, 0, 0⟩).C : Nat) : ZMod q) =
          (a.getD k 0 : ZMod q) * (b.getD k 0 : ZMod q)
            - ∑ j in (Finset.range N).erase self, (((m j).getD k 0 : Nat) : ZMod q)
            + (((E.decrypt aggr).getD k 0 : Nat) : ZMod q) := by
  obtain ⟨c0, hc0, hv0, hk0⟩ := mulVec_isVec hq0 ha hb
  have hmL : ∀ p ∈ order, IsVec n q (m p) := fun p hp =>
    hm p (List.mem_range.1 (horder.mem_iff.1 hp))
  obtain ⟨c1, hc1, hv1, hk1⟩ := genInput_maskLoop hq self m order c0 hv0 hmL
  obtain ⟨c2, hc2, hv2, hk2⟩ := addVec_isVec hq hv1 he
  refine ⟨⟨a, b, c1, a, b, fun p => if p ∈ order ∧ p ≠ self then some (m p) else none,
      E.encrypt a, E.newCiphertext, ∅, ∅⟩,
    (List.range n).map fun i => ⟨a.getD i 0, b.getD i 0, c2.getD i 0⟩, ?_, ?_, ?_, ?_⟩
  · unfold genInput
    simp only [hc0, hc1, Option.bind_eq_bind, Option.some_bind]
  · unfold decryptTriples
    simp only [hc2, Option.bind_eq_bind, Option.some_bind]
    rw [if_pos ⟨ha.1.ge, hb.1.ge, hv2.1.ge⟩]
  · simp
  · intro k hk
    have hk' : k < ((List.range n).map
        fun i => (⟨a.getD i 0, b.getD i 0, c2.getD i 0⟩ : Triple)).length := by simpa using hk
    rw [List.getD_eq_getElem _ _ hk']
    simp only [List.getElem_map, List.getElem_range, true_and]
    rw [hk2 k hk, hk1 k hk, hk0 k hk, sum_filter_ne_of_perm N self order horder]

/-- Algebra behind the HE protocol, in `ZMod q`: the masks cancel in the sum
over all parties, and what remains is the product of the two sums. -/
theorem he_share_sum {R : Type} [CommRing R] (N : Nat) (A B : PartyID → R)
    (M : PartyID → PartyID → R) :
    ∑ i in Finset.range N,
        (A i * B i - ∑ j in (Finset.range N).erase i, M i j
          + ∑ j in (Finset.range N).erase i, (A i * B j + M j i))
      = (∑ i in Finset.range N, A i) * (∑ i in Finset.range N, B i) := by
  have h1 : ∀ i ∈ Finset.range N,
      (A i * B i - ∑ j in (Finset.range N).erase i, M i j
          + ∑ j in (Finset.range N).erase i, (A i * B j + M j i))
        = (∑ j in Finset.range N, A i * B j) + (∑ j in Finset.range N, M j i)
            - ∑ j in Finset.range N, M i j := by
    intro i hi
    rw [Finset.sum_erase_eq_sub hi, Finset.sum_erase_eq_sub hi, Finset.sum_add_distrib]
    ring
  rw [Finset.sum_congr rfl h1, Finset.sum_sub_distrib, Finset.sum_add_distrib,
    Finset.sum_comm (f := fun i j => M j i), Finset.sum_mul_sum]
  ring

/-- Claim C1 (HE mode triple correctness).  For every number of parties `N`, every
modulus `0 < q ≤ 2^62` (in particular every prime one) and all share vectors
`a i`, `b i` and masks `m i j` in `(Z_q)^n`: if every party `i` runs `genInput`
(in whatever order its peer map is iterated) and then `decryptTriples` on an
aggregate that decrypts to `Σ_{j ≠ i} (a_i·b_j + m_{j,i}) mod q`, then no party
panics, party `i` outputs `n` triples whose `A` and `B` are `a i` and `b i`, and
in every coordinate `(Σ_i A_i) · (Σ_i B_i) ≡ Σ_i C_i (mod q)`. -/
theorem he_triple_correctness {Ct : Type} (E : PartyID → Lattice Ct) (N n q : Nat)
    (hq0 : 0 < q) (hq : q ≤ 2 ^ 62)
    (a b : PartyID → List Nat) (m : PartyID → PartyID → List Nat)
    (order : PartyID → List PartyID) (aggr : PartyID → Ct)
    (ha : ∀ i, i < N → IsVec n q (a i)) (hb : ∀ i, i < N → IsVec n q (b i))
    (hm : ∀ i, i < N → ∀ j, j < N → IsVec n q (m i j))
    (horder : ∀ i, i < N → (order i).Perm (List.range N))
    (hdec : ∀ i, i < N → (E i).decrypt (aggr i) = (List.range n).map (fun k =>
      (∑ j in (Finset.range N).erase i,
        ((a i).getD k 0 * (b j).getD k 0 + (m j i).getD k 0)) % q)) :
    ∃ T : PartyID → List Triple,
      (∀ i, i < N → ∃ r, genInput (E i) i (order i) q (a i) (b i) (m i) = some r ∧
        decryptTriples (E i) n q { r with encAggr := aggr i } = some (T i)) ∧
      (∀ i, i < N → (T i).length = n) ∧
      ∀ k, k < n →
        (∀ i, i < N → ((T i).getD k ⟨0, 0, 0⟩).A = (a i).getD k 0 ∧
          ((T i).getD k ⟨0, 0, 0⟩).B = (b i).getD k 0) ∧
        ((∑ i in Finset.range N, ((T i).getD k ⟨0, 0, 0⟩).A) *
          (∑ i in Finset.range N, ((T i).getD k ⟨0, 0, 0⟩).B)) % q
          = (∑ i in Finset.range N, ((T i).getD k ⟨0, 0, 0⟩).C) % q := by
  have hvec : ∀ i, i < N → IsVec n q ((E i).decrypt (aggr i)) := by
    intro i hi
    rw [hdec i hi]
    refine ⟨by simp, ?_⟩
    intro x hx
    rw [List.mem_map] at hx
    obtain ⟨k, _, rfl⟩ := hx
    exact Nat.mod_lt _ hq0
  have hdk : ∀ i, i < N → ∀ k, k < n →
      ((((E i).decrypt (aggr i)).getD k 0 : Nat) : ZMod q)
        = ∑ j in (Finset.range N).erase i,
            ((((a i).getD k 0 : Nat) : ZMod q) * (((b j).getD k 0 : Nat) : ZMod q)
              + (((m j i).getD k 0 : Nat) : ZMod q)) := by
    intro i hi k hk
    rw [hdec i hi]
    have hk' : k < ((List.range n).map (fun k =>
      (∑ j in (Finset.range N).erase i,
        ((a i).getD k 0 * (b j).getD k 0 + (m j i).getD k 0)) % q)).length := by simpa using hk
    rw [List.getD_eq_getElem _ _ hk']
    simp only [List.getElem_map, List.getElem_range]
    rw [ZMod.natCast_mod]
    push_cast
    rfl
  have H : ∀ i, i < N → _ := fun i hi =>
    he_party (E i) N n q hq0 hq i (a i) (b i) (m i) (order i) (aggr i) (ha i hi) (hb i hi)
      (fun j hj => hm i hi j hj) (horder i hi) (hvec i hi)
  refine ⟨fun i => ((genInput (E i) i (order i) q (a i) (b i) (m i)).bind
      (fun r => decryptTriples (E i) n q { r with encAggr := aggr i })).getD [], ?_, ?_, ?_⟩
  · intro i hi
    obtain ⟨r, T, h1, h2, -⟩ := H i hi
    exact ⟨r, h1, by simp [h1, h2]⟩
  · intro i hi
    obtain ⟨r, T, h1, h2, h3, -⟩ := H i hi
    simp [h1, h2, h3]
  · intro k hk
    have hAB : ∀ i, i < N →
        ((((genInput (E i) i (order i) q (a i) (b i) (m i)).bind
          (fun r => decryptTriples (E i) n q { r with encAggr := aggr i })).getD []).getD k
            ⟨0, 0, 0⟩).A = (a i).getD k 0 ∧
        ((((genInput (E i) i (order i) q (a i) (b i) (m i)).bind
          (fun r => decryptTriples (E i) n q { r with encAggr := aggr i })).getD []).getD k
            ⟨0, 0, 0⟩).B = (b i).getD k 0 := by
      intro i hi
      obtain ⟨r, T, h1, h2, h3, h4⟩ := H i hi
      obtain ⟨hA, hB, -⟩ := h4 k hk
      simp only [h1, h2, Option.some_bind, Option.getD_some]
      exact ⟨hA, hB⟩
    refine ⟨hAB, ?_⟩
    rw [Finset.sum_congr rfl (fun i hi => (hAB i (Finset.mem_range.1 hi)).1),
      Finset.sum_congr rfl (fun i hi => (hAB i (Finset.mem_range.1 hi)).2)]
    apply (ZMod.natCast_eq_natCast_iff' _ _ q).1
    push_cast
    rw [← he_share_sum N (fun i => (((a i).getD k 0 : Nat) : ZMod q))
      (fun i => (((b i).getD k 0 : Nat) : ZMod q))
      (fun i j => (((m i j).getD k 0 : Nat) : ZMod q))]
    symm
    apply Finset.sum_congr rfl
    intro i hi
    have hi' : i < N := Finset.mem_range.1 hi
    obtain ⟨r, T, h1, h2, h3, h4⟩ := H i hi'
    obtain ⟨hA, hB, hC⟩ := h4 k hk
    simp only [h1, h2, Option.some_bind, Option.getD_some]
    rw [hC, hdk i hi' k hk]

/-- Witness of `he_triple_correctness`: two parties, one coordinate, `q = 7`,
the peer maps iterated in opposite orders. -/
theorem he_triple_correctness_witness :
    ∃ T : PartyID → List Triple,
      (∀ i, i < 2 → ∃ r, genInput (idealLattice 1 7) i (if i = 0 then [0, 1] else [1, 0]) 7
          (sampleA i) (sampleB i) (sampleM i) = some r ∧
        decryptTriples (idealLattice 1 7) 1 7 { r with encAggr := sampleAggr i } = some (T i)) ∧
      (∀ i, i < 2 → (T i).length = 1) ∧
      ∀ k, k < 1 →
        (∀ i, i < 2 → ((T i).getD k ⟨0, 0, 0⟩).A = (sampleA i).getD k 0 ∧
          ((T i).getD k ⟨0, 0, 0⟩).B = (sampleB i).getD k 0) ∧
        ((∑ i in Finset.range 2, ((T i).getD k ⟨0, 0, 0⟩).A) *
          (∑ i in Finset.range 2, ((T i).getD k ⟨0, 0, 0⟩).B)) % 7
          = (∑ i in Finset.range 2, ((T i).getD k ⟨0, 0, 0⟩).C) % 7 :=
  he_triple_correctness (fun _ => idealLattice 1 7) 2 1 7 (by decide) (by decide)
    sampleA sampleB sampleM (fun i => if i = 0 then [0, 1] else [1, 0]) sampleAggr
    (by decide) (by decide) (by decide) (by decide) (by decide)

/-! ### Tree builder -/

theorem newTree_fold_some (f : Nat → Option Node) (L : List Nat) :
    ∀ t0 : Tree, (∀ i ∈ L, ∃ node, f i = some node) →
    ∃ t : Tree, L.foldlM (fun tree i => (f i).map fun node => tree.insert i node) t0 = some t ∧
      ∀ i, t.lookup i = if i ∈ L then f i else t0.lookup i := by
  induction L with
  | nil => intro t0 _; exact ⟨t0, rfl, fun i => by simp⟩
  | cons x L ih =>
    intro t0 h
    obtain ⟨node, hnode⟩ := h x (List.mem_cons_self _ _)
    obtain ⟨t, ht, hl⟩ := ih (t0.insert x node) (fun i hi => h i (List.mem_cons_of_mem _ hi))
    refine ⟨t, ?_, ?_⟩
    · rw [List.foldlM_cons, hnode]
      simpa using ht
    · intro i
      rw [hl i]
      by_cases hiL : i ∈ L
      · simp [hiL]
      · by_cases hix : i = x
        · subst hix
          simp [hiL, hnode]
        · simp [hiL, hix, AList.lookup_insert_ne hix]

theorem newTree_fold_none (f : Nat → Option Node) (L : List Nat) :
    ∀ t0 : Tree, (∃ i ∈ L, f i = none) →
      L.foldlM (fun tree i => (f i).map fun node => tree.insert i node) t0 = none := by
  induction L with
  | nil => intro t0 h; obtain ⟨i, hi, _⟩ := h; simp at hi
  | cons x L ih =>
    intro t0 h
    rw [List.foldlM_cons]
    cases hfx : f x with
    | none => simp
    | some node =>
      obtain ⟨i, hi, hfi⟩ := h
      have hiL : i ∈ L := by
        rcases List.mem_cons.1 hi with rfl | h'
        · rw [hfx] at hfi; cases hfi
        · exact h'
      simpa using ih (t0.insert x node) ⟨i, hiL, hfi⟩

/-- With a positive branching factor `NewTree` returns a tree, and the node of
every index below `len(peers)` is the one built by the loop body. -/
theorem newTree_some (peers : PeerMap) (k : Nat) (hk : 0 < k) :
    ∃ tree : Tree, NewTree peers k = some tree ∧
      ∀ i : Nat, tree.lookup i =
        if i < peers.entries.length then
          some ⟨if i = 0 then 0 else (i - 1) / k, NewTree.children peers i k k 0⟩
        else none := by
  obtain ⟨t, ht, hl⟩ := newTree_fold_some (NewTree.node peers k)
    (List.range peers.entries.length) ∅ (by
      intro i _
      unfold NewTree.node
      by_cases hi : i = 0
      · exact ⟨_, if_pos hi⟩
      · exact ⟨_, by rw [if_neg hi, if_neg (by omega)]⟩)
  refine ⟨t, ht, ?_⟩
  intro i
  rw [hl i]
  by_cases hi : i < peers.entries.length
  · rw [if_pos (List.mem_range.2 hi), if_pos hi]
    unfold NewTree.node
    by_cases h0 : i = 0
    · simp [h0]
    · simp [h0, show k ≠ 0 by omega]
  · rw [if_neg (by simpa using hi), if_neg hi]
    rfl

/-- A peer map whose keys are exactly `0 .. N-1` has `N` entries. -/
theorem peers_length (peers : PeerMap) (N : Nat) (hkeys : ∀ i : Nat, i ∈ peers ↔ i < N) :
    peers.entries.length = N := by
  have hperm : peers.keys.Perm (List.range N) := by
    rw [List.perm_ext_iff_of_nodup peers.keys_nodup (List.nodup_range N)]
    intro i
    rw [← AList.mem_keys, hkeys i, List.mem_range]
  have := hperm.length_eq
  simpa [AList.keys, List.keys] using this

theorem iterate_parent_root (f : Nat → Nat) (h0 : f 0 = 0) (N : Nat)
    (hlt : ∀ i, 0 < i → i < N → f i < i) : ∀ i, i < N → f^[i] i = 0 := by
  intro i
  induction i using Nat.strong_induction_on with
  | _ i ih =>
    intro hi
    rcases Nat.eq_zero_or_pos i with rfl | hpos
    · rfl
    · obtain ⟨j, rfl⟩ : ∃ j, i = j + 1 := ⟨i - 1, by omega⟩
      have hp := hlt (j + 1) hpos hi
      rw [Function.iterate_succ_apply]
      obtain ⟨d, hd⟩ : ∃ d, j = d + f (j + 1) := ⟨j - f (j + 1), by omega⟩
      rw [hd, Function.iterate_add_apply, ← hd, ih (f (j + 1)) hp (by omega)]
      exact Function.iterate_fixed h0 d

/-- Claim C3 (tree parent relation).  For every `N ≥ 1`, every branching factor
`k ≥ 1` and every peer map whose keys are `0 .. N-1`, `NewTree` returns a tree
that has a node for exactly the IDs `0 .. N-1`; the node of 0 has parent 0 and
is the only node that is its own parent; every other node `i` has parent
`⌊(i-1)/k⌋`, which is strictly less than `i`; following parents `i` times from
node `i` ends at the root 0.  For `N = 7`, `k = 2` the parent table is
`[0,0,0,1,1,2,2]`. -/
theorem newTree_parent_relation (N k : Nat) (peers : PeerMap) (hN : 1 ≤ N) (hk : 1 ≤ k)
    (hkeys : ∀ i : Nat, i ∈ peers ↔ i < N) :
    (∃ tree : Tree, NewTree peers k = some tree ∧
      (∀ i : Nat, i ∈ tree ↔ i < N) ∧
      (∃ node, tree.lookup 0 = some node ∧ node.Parent = 0) ∧
      (∀ (i : Nat) (node : Node), tree.lookup i = some node → (node.Parent = i ↔ i = 0)) ∧
      (∀ (i : Nat) (node : Node), 0 < i → tree.lookup i = some node →
        node.Parent = (i - 1) / k ∧ node.Parent < i) ∧
      (∀ i, i < N → (tree.parentOf)^[i] i = 0)) ∧
    (NewTree (mainPeers 7) 2).map (fun t => (List.range 7).map t.parentOf)
      = some [0, 0, 0, 1, 1, 2, 2] := by
  refine ⟨?_, by decide⟩
  obtain ⟨tree, ht, hl⟩ := newTree_some peers k hk
  rw [peers_length peers N hkeys] at hl
  have hpar : ∀ (i : Nat) (node : Node), 0 < i → tree.lookup i = some node →
      node.Parent = (i - 1) / k ∧ node.Parent < i := by
    intro i node hi hnode
    rw [hl i] at hnode
    by_cases hiN : i < N
    · rw [if_pos hiN, if_neg (by omega)] at hnode
      cases hnode
      refine ⟨rfl, ?_⟩
      exact Nat.lt_of_le_of_lt (Nat.div_le_self (i - 1) k) (by omega)
    · rw [if_neg hiN] at hnode
      cases hnode
  have h0 : tree.lookup 0 = some ⟨0, NewTree.children peers 0 k k 0⟩ := by
    rw [hl 0, if_pos (by omega)]
    rfl
  refine ⟨tree, ht, ?_, ⟨_, h0, rfl⟩, ?_, hpar, ?_⟩
  · intro i
    rw [← AList.lookup_isSome, hl i]
    by_cases hiN : i < N <;> simp [hiN]
  · intro i node hnode
    rcases Nat.eq_zero_or_pos i with rfl | hpos
    · rw [h0] at hnode
      cases hnode
      simp
    · have := (hpar i node hpos hnode).2
      constructor
      · intro h; exact absurd h (Nat.ne_of_lt this)
      · intro h; omega
  · apply iterate_parent_root
    · unfold Tree.parentOf
      rw [h0]
    · intro i hi hiN
      have hli : tree.lookup i = some ⟨(i - 1) / k, NewTree.children peers i k k 0⟩ := by
        rw [hl i, if_pos hiN, if_neg (by omega)]
      unfold Tree.parentOf
      rw [hli]
      exact (hpar i _ hi hli).2

/-- Witness of `newTree_parent_relation`: the address book of three parties
built in `main.go`, branching factor 2. -/
theorem newTree_parent_relation_witness :
    (∃ tree : Tree, NewTree (mainPeers 3) 2 = some tree ∧
      (∀ i : Nat, i ∈ tree ↔ i < 3) ∧
      (∃ node, tree.lookup 0 = some node ∧ node.Parent = 0) ∧
      (∀ (i : Nat) (node : Node), tree.lookup i = some node → (node.Parent = i ↔ i = 0)) ∧
      (∀ (i : Nat) (node : Node), 0 < i → tree.lookup i = some node →
        node.Parent = (i - 1) / 2 ∧ node.Parent < i) ∧
      (∀ i, i < 3 → (tree.parentOf)^[i] i = 0)) ∧
    (NewTree (mainPeers 7) 2).map (fun t => (List.range 7).map t.parentOf)
      = some [0, 0, 0, 1, 1, 2, 2] :=
  newTree_parent_relation 3 2 (mainPeers 3) (by decide) (by decide) (by
    intro i
    have h : (mainPeers 3).keys = [2, 1, 0] := by decide
    rw [AList.mem_keys, h]
    simp
    omega)

/-- Without `uint64` overflow the inner loop of `NewTree` collects the
candidates `i*k+1+j, ..` that are below `N`. -/
theorem newTree_children_eq (peers : PeerMap) (N : Nat) (hkeys : ∀ i : Nat, i ∈ peers ↔ i < N)
    (i k : Nat) : ∀ remaining j : Nat, i * k + 1 + j + remaining ≤ 2 ^ 64 →
      NewTree.children peers i k remaining j
        = (List.range' (i * k + 1 + j) remaining).filter (fun x => decide (x < N)) := by
  intro remaining
  induction remaining with
  | zero => intro j _; rfl
  | succ r ih =>
    intro j hj
    have hmod : (i * k + 1 + j) % 2 ^ 64 = i * k + 1 + j := Nat.mod_eq_of_lt (by omega)
    rw [NewTree.children, hmod, List.range'_succ]
    by_cases hN : i * k + 1 + j < N
    · rw [if_pos ((hkeys _).2 hN), List.filter_cons_of_pos (by simpa using hN),
        ih (j + 1) (by omega)]
      rfl
    · rw [if_neg (fun h => hN ((hkeys _).1 h)), List.filter_cons_of_neg (by simpa using hN)]
      symm
      rw [List.filter_eq_nil_iff]
      intro x hx
      rw [List.mem_range'_1] at hx
      simp only [decide_eq_true_eq]
      omega

theorem div_eq_iff_bounds (i k j : Nat) (hk : 0 < k) (hj : 0 < j) :
    (j - 1) / k = i ↔ i * k + 1 ≤ j ∧ j ≤ i * k + k := by
  have h1 : i ≤ (j - 1) / k ↔ i * k ≤ j - 1 := Nat.le_div_iff_mul_le hk
  have h2 : (j - 1) / k < i + 1 ↔ j - 1 < (i + 1) * k := Nat.div_lt_iff_lt_mul hk
  have h3 : (i + 1) * k = i * k + k := by ring
  constructor
  · intro h
    have h1' := h1.1 (by omega)
    have h2' := h2.1 (by omega)
    omega
  · intro h
    have h1' := h1.2 (by omega)
    have h2' := h2.2 (by omega)
    omega

/-- Child lists of `NewTree` when `i*k+1+j` cannot overflow (`N * k < 2^64`):
the child list of node `i` is the increasing list of the IDs `j` with
`i*k+1 ≤ j ≤ i*k+k` and `j ≤ N-1`, that is of the IDs whose parent is `i`. -/
theorem newTree_children_spec (N k : Nat) (peers : PeerMap) (hk : 1 ≤ k)
    (hno : N * k < 2 ^ 64) (hkeys : ∀ i : Nat, i ∈ peers ↔ i < N) :
    ∃ tree : Tree, NewTree peers k = some tree ∧
      (∀ i : Nat, i < N → tree.parentOf i = if i = 0 then 0 else (i - 1) / k) ∧
      (∀ i : Nat, i < N →
        tree.childrenOf i = (List.range' (i * k + 1) k).filter (fun x => decide (x < N))) ∧
      (∀ i : Nat, i < N → (tree.childrenOf i).Pairwise (fun x y => x < y)) ∧
      (∀ i : Nat, i < N → ∀ j : Nat,
        j ∈ tree.childrenOf i ↔ i * k + 1 ≤ j ∧ j ≤ i * k + k ∧ j ≤ N - 1) ∧
      (∀ i : Nat, i < N → ∀ j : Nat,
        j ∈ tree.childrenOf i ↔ 0 < j ∧ j < N ∧ tree.parentOf j = i) := by
  obtain ⟨tree, ht, hl⟩ := newTree_some peers k hk
  rw [peers_length peers N hkeys] at hl
  have hpar : ∀ i : Nat, i < N → tree.parentOf i = if i = 0 then 0 else (i - 1) / k := by
    intro i hi
    unfold Tree.parentOf
    rw [hl i, if_pos hi]
  have hch : ∀ i : Nat, i < N →
      tree.childrenOf i = (List.range' (i * k + 1) k).filter (fun x => decide (x < N)) := by
    intro i hi
    unfold Tree.childrenOf
    rw [hl i, if_pos hi]
    have hb : i * k + 1 + 0 + k ≤ 2 ^ 64 := by
      have : (i + 1) * k ≤ N * k := Nat.mul_le_mul_right k hi
      have h3 : (i + 1) * k = i * k + k := by ring
      omega
    exact newTree_children_eq peers N hkeys i k k 0 hb
  have hmem : ∀ i : Nat, i < N → ∀ j : Nat,
      j ∈ tree.childrenOf i ↔ i * k + 1 ≤ j ∧ j ≤ i * k + k ∧ j ≤ N - 1 := by
    intro i hi j
    rw [hch i hi, List.mem_filter, List.mem_range'_1]
    simp only [decide_eq_true_eq]
    omega
  refine ⟨tree, ht, hpar, hch, ?_, hmem, ?_⟩
  · intro i hi
    rw [hch i hi]
    exact (List.pairwise_lt_range' (i * k + 1) k).filter _
  · intro i hi j
    rw [hmem i hi j]
    constructor
    · rintro ⟨h1, h2, h3⟩
      have hj0 : 0 < j := by omega
      have hjN : j < N := by omega
      refine ⟨hj0, hjN, ?_⟩
      rw [hpar j hjN, if_neg (by omega)]
      exact (div_eq_iff_bounds i k j hk hj0).2 ⟨h1, h2⟩
    · rintro ⟨hj0, hjN, hp⟩
      rw [hpar j hjN, if_neg (by omega)] at hp
      have := (div_eq_iff_bounds i k j hk hj0).1 hp
      omega

/-- Claim C4, as stated, fails.  With three peers `0, 1, 2` and branching factor
`2^63` the candidate `i*branching + 1 + j` wraps around for `i = 2`
(`2 * 2^63 = 2^64`), so node 2 gets the child list `[1, 2]` where the claim has
the empty list: node 2 is its own child, and 1 and 2 are in the child lists of
both 0 and 2, while the parent table of the same tree is `[0, 0, 0]`. -/
theorem newTree_children_overflow :
    (NewTree (mainPeers 3) (2 ^ 63)).map (fun t => (List.range 3).map t.childrenOf)
        = some [[1, 2], [], [1, 2]] ∧
      (NewTree (mainPeers 3) (2 ^ 63)).map (fun t => (List.range 3).map t.parentOf)
        = some [0, 0, 0] ∧
      ((List.range' (2 * 2 ^ 63 + 1) (2 ^ 63)).filter fun j => decide (j ≤ 3 - 1)) = [] := by
  refine ⟨by decide, by decide, ?_⟩
  rw [List.filter_eq_nil_iff]
  intro j hj
  rw [List.mem_range'_1] at hj
  simp only [decide_eq_true_eq]
  omega

/-- Claim C4 (tree child lists), amended.  For every `N ≥ 1`, every branching
factor `k ≥ 1` with `N * k < 2^64` (so that `i*k + 1 + j` does not wrap around;
the shipped `k = 2` is such) and every peer map whose keys are `0 .. N-1`,
the child list of node `i` in `NewTree(peers, k)` is the increasing list of
the IDs `j` with `i*k+1 ≤ j ≤ i*k+k` and `j ≤ N-1`.  Hence the child lists
partition `{1..N-1}`: every ID in `1..N-1` occurs in the child list of exactly
one node, its parent, and once; no node is its own child; 0 occurs in none.
For `N = 7`, `k = 2` the child lists are `[[1,2],[3,4],[5,6],[],[],[],[]]`. -/
theorem newTree_child_lists (N k : Nat) (peers : PeerMap) (hk : 1 ≤ k)
    (hno : N * k < 2 ^ 64) (hkeys : ∀ i : Nat, i ∈ peers ↔ i < N) :
    (∃ tree : Tree, NewTree peers k = some tree ∧
      (∀ i : Nat, i < N →
        tree.childrenOf i
          = (List.range' (i * k + 1) k).filter (fun j => decide (j ≤ N - 1))) ∧
      (∀ i : Nat, i < N → (tree.childrenOf i).Pairwise (fun x y => x < y)) ∧
      (∀ i : Nat, i < N → ∀ j : Nat,
        j ∈ tree.childrenOf i ↔ i * k + 1 ≤ j ∧ j ≤ i * k + k ∧ j ≤ N - 1) ∧
      (∀ j : Nat, 0 < j → j < N → ∀ i : Nat, i < N →
        (j ∈ tree.childrenOf i ↔ i = tree.parentOf j)) ∧
      (∀ j : Nat, 0 < j → j < N → tree.parentOf j < N) ∧
      (∀ i : Nat, i < N → i ∉ tree.childrenOf i) ∧
      (∀ i : Nat, i < N → 0 ∉ tree.childrenOf i)) ∧
    (NewTree (mainPeers 7) 2).map (fun t => (List.range 7).map t.childrenOf)
      = some [[1, 2], [3, 4], [5, 6], [], [], [], []] := by
  refine ⟨?_, by decide⟩
  obtain ⟨tree, ht, hpar, hch, hsorted, hmem, hmem2⟩ :=
    newTree_children_spec N k peers hk hno hkeys
  have hplt : ∀ j : Nat, 0 < j → j < N → tree.parentOf j < j := by
    intro j hj hjN
    rw [hpar j hjN, if_neg (by omega)]
    exact Nat.lt_of_le_of_lt (Nat.div_le_self (j - 1) k) (by omega)
  refine ⟨tree, ht, ?_, hsorted, hmem, ?_, ?_, ?_, ?_⟩
  · intro i hi
    rw [hch i hi]
    apply List.filter_congr
    intro j _
    have : (j < N) = (j ≤ N - 1) := by
      apply propext
      omega
    simp only [this]
  · intro j hj hjN i hi
    rw [hmem2 i hi j]
    constructor
    · rintro ⟨-, -, h⟩; exact h.symm
    · intro h; exact ⟨hj, hjN, h.symm⟩
  · intro j hj hjN
    have := hplt j hj hjN
    omega
  · intro i hi hself
    obtain ⟨h0, -, hp⟩ := (hmem2 i hi i).1 hself
    have := hplt i h0 hi
    omega
  · intro i hi h0
    have := (hmem2 i hi 0).1 h0
    omega

/-- Witness of `newTree_child_lists`: the address book of three parties built in
`main.go`, branching factor 2. -/
theorem newTree_child_lists_witness :
    (∃ tree : Tree, NewTree (mainPeers 3) 2 = some tree ∧
      (∀ i : Nat, i < 3 →
        tree.childrenOf i
          = (List.range' (i * 2 + 1) 2).filter (fun j => decide (j ≤ 3 - 1))) ∧
      (∀ i : Nat, i < 3 → (tree.childrenOf i).Pairwise (fun x y => x < y)) ∧
      (∀ i : Nat, i < 3 → ∀ j : Nat,
        j ∈ tree.childrenOf i ↔ i * 2 + 1 ≤ j ∧ j ≤ i * 2 + 2 ∧ j ≤ 3 - 1) ∧
      (∀ j : Nat, 0 < j → j < 3 → ∀ i : Nat, i < 3 →
        (j ∈ tree.childrenOf i ↔ i = tree.parentOf j)) ∧
      (∀ j : Nat, 0 < j → j < 3 → tree.parentOf j < 3) ∧
      (∀ i : Nat, i < 3 → i ∉ tree.childrenOf i) ∧
      (∀ i : Nat, i < 3 → 0 ∉ tree.childrenOf i)) ∧
    (NewTree (mainPeers 7) 2).map (fun t => (List.range 7).map t.childrenOf)
      = some [[1, 2], [3, 4], [5, 6], [], [], [], []] :=
  newTree_child_lists 3 2 (mainPeers 3) (by decide) (by decide) (by
    intro i
    have h : (mainPeers 3).keys = [2, 1, 0] := by decide
    rw [AList.mem_keys, h]
    simp
    omega)

/-- Claim C5, as stated, fails: `NewTree` returns a tree for the empty peer map
(the empty tree) and for one peer with branching factor 0. -/
theorem newTree_rejects_counterexample :
    ¬ ∀ (peers : PeerMap) (branching : Nat),
      (branching = 0 ∨ peers.entries = []) → NewTree peers branching = none := by
  intro h
  have h1 := h (mainPeers 0) 2 (Or.inr (by decide))
  revert h1
  decide

/-- Claim C5, amended.  `NewTree` has no error result and checks nothing: it
returns a tree exactly when `branching ≥ 1` or the peer map has at most one
entry (the empty tree for the empty map); the only failure is the division by
zero of `(i-1)/branching` at `i = 1`, with `branching == 0` and two or more
peers. -/
theorem newTree_returns_iff (peers : PeerMap) (branching : Nat) :
    (∃ tree : Tree, NewTree peers branching = some tree)
      ↔ (1 ≤ branching ∨ peers.entries.length ≤ 1) := by
  constructor
  · rintro ⟨tree, ht⟩
    by_contra hcon
    have hb : branching = 0 := by omega
    have hn : 2 ≤ peers.entries.length := by omega
    have hnone : NewTree peers branching = none := by
      apply newTree_fold_none
      refine ⟨1, List.mem_range.2 (by omega), ?_⟩
      simp [NewTree.node, hb]
    rw [hnone] at ht
    cases ht
  · intro h
    rcases Nat.eq_zero_or_pos branching with hb | hb
    · have hn : peers.entries.length ≤ 1 := by omega
      obtain ⟨t, ht, -⟩ := newTree_fold_some (NewTree.node peers branching)
        (List.range peers.entries.length) ∅ (by
          intro i hi
          have hi0 : i = 0 := by
            have := List.mem_range.1 hi
            omega
          subst hi0
          exact ⟨_, if_pos rfl⟩)
      exact ⟨t, ht⟩
    · obtain ⟨t, ht, -⟩ := newTree_some peers branching hb
      exact ⟨t, ht⟩

/-! ### Framing -/

theorem putUint64_eq_spec (v : Nat) : putUint64 v = specBigEndian v := by
  simp [putUint64, specBigEndian, List.range, List.range.loop, Nat.shiftRight_eq_div_pow]

theorem putUint64_length (v : Nat) : (putUint64 v).length = 8 := rfl

theorem getUint64_putUint64 (v : Nat) (hv : v < 2 ^ 64) : getUint64 (putUint64 v) = v := by
  simp only [getUint64, putUint64, Nat.shiftRight_eq_div_pow, List.getD_cons_zero,
    List.getD_cons_succ]
  omega

theorem readFull_append (a rest : List Nat) :
    readFull a.length (a ++ rest) = .ok (a, rest) := by
  unfold readFull
  rw [if_pos (by simp)]
  simp

theorem readUint64_append (v : Nat) (hv : v < 2 ^ 64) (rest : List Nat) :
    readUint64 (putUint64 v ++ rest) = .ok (v, rest) := by
  unfold readUint64
  have h := readFull_append (putUint64 v) rest
  rw [putUint64_length] at h
  rw [h]
  simp only []
  rw [getUint64_putUint64 v hv]

theorem intOfUint64_uint64OfInt (x : Int) (h1 : -2 ^ 63 ≤ x) (h2 : x < 2 ^ 63) :
    intOfUint64 (uint64OfInt x) = x := by
  unfold intOfUint64 uint64OfInt
  have hnn : 0 ≤ x % 2 ^ 64 := Int.emod_nonneg _ (by norm_num)
  have hcast : (((x % 2 ^ 64).toNat : Nat) : Int) = x % 2 ^ 64 := Int.toNat_of_nonneg hnn
  split
  · rename_i hlt
    rw [hcast]
    have : (x % 2 ^ 64).toNat < 2 ^ 63 := hlt
    omega
  · rename_i hge
    rw [hcast]
    have : ¬ (x % 2 ^ 64).toNat < 2 ^ 63 := hge
    omega

theorem uint64OfInt_lt (x : Int) : uint64OfInt x < 2 ^ 64 := by
  unfold uint64OfInt
  have hnn : 0 ≤ x % 2 ^ 64 := Int.emod_nonneg _ (by norm_num)
  have hlt : x % 2 ^ 64 < 2 ^ 64 := Int.emod_lt_of_pos _ (by norm_num)
  omega

theorem sendMessage_append (conn : List Nat) (m : MHETripleGenMessage) :
    sendMessage conn m = conn ++ sendMessage [] m := by
  simp [sendMessage, List.append_assoc]

theorem sendLoop_append (msgs : List MHETripleGenMessage) :
    ∀ conn : List Nat, sendLoop conn msgs = conn ++ sendLoop [] msgs := by
  induction msgs with
  | nil => intro conn; simp [sendLoop]
  | cons m ms ih =>
    intro conn
    have h1 : sendLoop conn (m :: ms) = sendLoop (sendMessage conn m) ms := rfl
    have h2 : sendLoop [] (m :: ms) = sendLoop (sendMessage [] m) ms := rfl
    rw [h1, h2, ih (sendMessage conn m), ih (sendMessage [] m), sendMessage_append conn m,
      List.append_assoc]

/-- A message that fits the Go types of its fields: a `uint64` identifier, a
slice (its length is a non-negative `int`), an `int` round. -/
theorem recvMessage_sendMessage (m : MHETripleGenMessage) (rest : List Nat)
    (hid : m.PartyID < 2 ^ 64) (hlen : m.Data.length < 2 ^ 63)
    (hr1 : -2 ^ 63 ≤ m.Round) (hr2 : m.Round < 2 ^ 63) :
    recvMessage (sendMessage [] m ++ rest) = .message m rest := by
  have hl : m.Data.length % 2 ^ 64 = m.Data.length := Nat.mod_eq_of_lt (by omega)
  have hs : sendMessage [] m ++ rest
      = putUint64 m.PartyID ++ (putUint64 m.Data.length ++
          (m.Data ++ (putUint64 (uint64OfInt m.Round) ++ rest))) := by
    unfold sendMessage
    rw [hl]
    simp [List.append_assoc]
  rw [hs]
  unfold recvMessage
  rw [readUint64_append _ hid]
  simp only []
  rw [readUint64_append _ (by omega)]
  simp only []
  rw [readFull_append]
  simp only []
  rw [readUint64_append _ (uint64OfInt_lt _)]
  simp only []
  rw [intOfUint64_uint64OfInt _ hr1 hr2]

theorem specBigEndian_value (v : Nat) (hv : v < 2 ^ 64) :
    (specBigEndian v).length = 8 ∧ (∀ b ∈ specBigEndian v, b < 256) ∧
      getUint64 (specBigEndian v) = v := by
  rw [← putUint64_eq_spec]
  refine ⟨rfl, ?_, getUint64_putUint64 v hv⟩
  intro b hb
  simp only [putUint64, List.mem_cons, List.mem_singleton, List.not_mem_nil, or_false] at hb
  rcases hb with h | h | h | h | h | h | h | h <;> rw [h] <;> exact Nat.mod_lt _ (by decide)

/-- Claim C6 (tree-protocol frame layout).  For every message with `Round ≥ 0`
(and fields that fit their Go types) the bytes written by the send task of the
RLK and MHE protocols are the frame of the spec: the 8-byte big-endian
`PartyID`, the 8-byte big-endian length of `Data`, the bytes of `Data`, the
8-byte big-endian `Round`; each 8-byte block decodes to the value it stands
for; the frame is `24 + len(Data)` bytes long.  For `{42, [0xDE, 0xAD], 3}`
the frame is `00 00 00 00 00 00 00 2A 00 00 00 00 00 00 00 02 DE AD 00 00 00
00 00 00 00 03`. -/
theorem tree_frame_layout (m : MHETripleGenMessage) (hround : 0 ≤ m.Round)
    (hty : m.WellTyped) :
    sendMessage [] m = specFrame m.PartyID m.Data m.Round.toNat ∧
      (sendMessage [] m).length = 24 + m.Data.length ∧
      getUint64 (specBigEndian m.PartyID) = m.PartyID ∧
      getUint64 (specBigEndian m.Data.length) = m.Data.length ∧
      (getUint64 (specBigEndian m.Round.toNat) : Int) = m.Round ∧
      sendMessage [] ⟨42, [0xDE, 0xAD], 3⟩
        = [0, 0, 0, 0, 0, 0, 0, 0x2A, 0, 0, 0, 0, 0, 0, 0, 2, 0xDE, 0xAD,
            0, 0, 0, 0, 0, 0, 0, 3] := by
  obtain ⟨hid, hlen, -, hr2⟩ := hty
  have hl : m.Data.length % 2 ^ 64 = m.Data.length := Nat.mod_eq_of_lt (by omega)
  have hr : uint64OfInt m.Round = m.Round.toNat := by
    unfold uint64OfInt
    rw [Int.emod_eq_of_lt hround (by omega)]
  have hrlt : m.Round.toNat < 2 ^ 64 := by omega
  refine ⟨?_, ?_, (specBigEndian_value _ hid).2.2, (specBigEndian_value _ (by omega)).2.2,
    ?_, by decide⟩
  · unfold sendMessage specFrame
    rw [hl, hr, putUint64_eq_spec, putUint64_eq_spec, putUint64_eq_spec]
    simp
  · unfold sendMessage
    simp only [List.nil_append, List.length_append, putUint64_length]
    omega
  · rw [(specBigEndian_value _ hrlt).2.2]
    exact Int.toNat_of_nonneg hround

/-- Witness of `tree_frame_layout`: the message of scenario S6. -/
theorem tree_frame_layout_witness :
    sendMessage [] ⟨42, [0xDE, 0xAD], 3⟩
        = specFrame 42 [0xDE, 0xAD] (3 : Int).toNat ∧
      (sendMessage [] ⟨42, [0xDE, 0xAD], 3⟩).length = 24 + 2 :=
  have h := tree_frame_layout ⟨42, [0xDE, 0xAD], 3⟩ (by decide) (by decide)
  ⟨h.1, h.2.1⟩

/-- Claim C7 (tree-protocol framing round trip).  For all messages whose
fields fit their Go types (any 64-bit `PartyID`, any `Data`, the empty one
included, any `int` round, negative ones included): one iteration of the
receive task on the bytes written by the send task, followed by any further
bytes, yields the message sent and leaves exactly the further bytes; and the
receive loop on the frames of a sequence of messages written back to back
pushes the same messages in the same order, then returns on end of stream. -/
theorem tree_frame_roundtrip (msgs : List MHETripleGenMessage)
    (hty : ∀ m ∈ msgs, m.WellTyped) :
    (∀ m ∈ msgs, ∀ rest : List Nat,
      recvMessage (sendMessage [] m ++ rest) = .message m rest) ∧
    ∀ fuel : Nat, msgs.length < fuel → recvLoop fuel (sendLoop [] msgs) = (msgs, .closed) := by
  refine ⟨fun m hm rest => ?_, ?_⟩
  · obtain ⟨h1, h2, h3, h4⟩ := hty m hm
    exact recvMessage_sendMessage m rest h1 h2 h3 h4
  · induction msgs with
    | nil =>
      intro fuel hf
      obtain ⟨f, rfl⟩ : ∃ f, fuel = f + 1 := ⟨fuel - 1, by simp at hf; omega⟩
      rfl
    | cons m ms ih =>
      intro fuel hf
      obtain ⟨f, rfl⟩ : ∃ f, fuel = f + 1 := ⟨fuel - 1, by simp at hf; omega⟩
      have hs : sendLoop [] (m :: ms) = sendMessage [] m ++ sendLoop [] ms := by
        have h2 : sendLoop [] (m :: ms) = sendLoop (sendMessage [] m) ms := rfl
        rw [h2, sendLoop_append]
      obtain ⟨h1, h2, h3, h4⟩ := hty m (List.mem_cons_self _ _)
      have hrec := ih (fun x hx => hty x (List.mem_cons_of_mem _ hx)) f
        (by simp at hf; omega)
      rw [hs, recvLoop, recvMessage_sendMessage m _ h1 h2 h3 h4]
      simp only [hrec]

/-- Witness of `tree_frame_roundtrip`: three frames, among them one with empty
data, the largest identifier and a negative round. -/
theorem tree_frame_roundtrip_witness :
    (∀ m ∈ [(⟨42, [0xDE, 0xAD], 3⟩ : MHETripleGenMessage), ⟨2 ^ 64 - 1, [], -1⟩, ⟨0, [7], 0⟩],
      ∀ rest : List Nat, recvMessage (sendMessage [] m ++ rest) = .message m rest) ∧
    ∀ fuel : Nat,
      [(⟨42, [0xDE, 0xAD], 3⟩ : MHETripleGenMessage), ⟨2 ^ 64 - 1, [], -1⟩, ⟨0, [7], 0⟩].length
          < fuel →
        recvLoop fuel
            (sendLoop [] [(⟨42, [0xDE, 0xAD], 3⟩ : MHETripleGenMessage), ⟨2 ^ 64 - 1, [], -1⟩,
              ⟨0, [7], 0⟩])
          = ([(⟨42, [0xDE, 0xAD], 3⟩ : MHETripleGenMessage), ⟨2 ^ 64 - 1, [], -1⟩, ⟨0, [7], 0⟩],
              .closed) :=
  tree_frame_roundtrip [⟨42, [0xDE, 0xAD], 3⟩, ⟨2 ^ 64 - 1, [], -1⟩, ⟨0, [7], 0⟩] (by decide)

/-! ### HE driver -/

theorem isComplete_fold {Ct : Type} (self : PartyID) (round : TripleGenRound Ct)
    (peers : List PartyID) : ∀ init : Bool,
    peers.foldl
      (fun complete peer =>
        (complete && decide (peer = self)) ||
          (complete && decide (peer ∈ round.hasQueried) && decide (peer ∈ round.hasResponded)))
      init = true ↔
    init = true ∧ ∀ p ∈ peers, p ≠ self → p ∈ round.hasQueried ∧ p ∈ round.hasResponded := by
  induction peers with
  | nil => intro init; simp
  | cons x peers ih =>
    intro init
    rw [List.foldl_cons, ih]
    cases init
    · simp
    · by_cases hx : x = self
      · simp [hx]
      · simp [hx]

theorem isComplete_iff {Ct : Type} (self : PartyID) (peers : List PartyID)
    (round : TripleGenRound Ct) :
    IsComplete self peers round = true ↔
      ∀ p ∈ peers, p ≠ self → p ∈ round.hasQueried ∧ p ∈ round.hasResponded := by
  unfold IsComplete
  rw [isComplete_fold]
  simp

/-- Claim C9 (HE completion predicate).  For every peer set (in whatever order
the peer map is iterated), local ID and round record, `IsComplete` returns
true if and only if every peer other than the local party is in both
`hasQueried` and `hasResponded`; the result is the same for every iteration
order of the peer map, and it does not change when the local ID is added to or
removed from either set. -/
theorem isComplete_spec {Ct : Type} (self : PartyID) (peers : List PartyID)
    (round : TripleGenRound Ct) :
    (IsComplete self peers round = true ↔
      ∀ p ∈ peers, p ≠ self → p ∈ round.hasQueried ∧ p ∈ round.hasResponded) ∧
    (∀ peers2 : List PartyID, peers.Perm peers2 →
      IsComplete self peers2 round = IsComplete self peers round) ∧
    (∀ hq hr : Finset PartyID, hq.erase self = round.hasQueried.erase self →
      hr.erase self = round.hasResponded.erase self →
      IsComplete self peers { round with hasQueried := hq, hasResponded := hr }
        = IsComplete self peers round) := by
  refine ⟨isComplete_iff self peers round, ?_, ?_⟩
  · intro peers2 hperm
    rw [Bool.eq_iff_iff, isComplete_iff, isComplete_iff]
    constructor
    · intro h p hp
      exact h p (hperm.mem_iff.1 hp)
    · intro h p hp
      exact h p (hperm.mem_iff.2 hp)
  · intro hq hr hq' hr'
    rw [Bool.eq_iff_iff, isComplete_iff, isComplete_iff]
    have hmq : ∀ p : PartyID, p ≠ self → (p ∈ hq ↔ p ∈ round.hasQueried) := by
      intro p hp
      have := Finset.ext_iff.1 hq' p
      simpa [Finset.mem_erase, hp] using this
    have hmr : ∀ p : PartyID, p ≠ self → (p ∈ hr ↔ p ∈ round.hasResponded) := by
      intro p hp
      have := Finset.ext_iff.1 hr' p
      simpa [Finset.mem_erase, hp] using this
    constructor
    · intro h p hp hne
      have := h p hp hne
      exact ⟨(hmq p hne).1 this.1, (hmr p hne).1 this.2⟩
    · intro h p hp hne
      have := h p hp hne
      exact ⟨(hmq p hne).2 this.1, (hmr p hne).2 this.2⟩

theorem runLoop_append {Ct : Type} (E : Lattice Ct) (self : PartyID) (peers : List PartyID)
    (pre suf : List (TripleGenMessage Ct)) :
    ∀ st st1 : DriverState Ct, Run.loop E self peers st pre = .waiting st1 →
      Run.loop E self peers st (pre ++ suf) = Run.loop E self peers st1 suf := by
  induction pre with
  | nil =>
    intro st st1 h
    rw [Run.loop] at h
    cases h
    rfl
  | cons m pre ih =>
    intro st st1 h
    rw [List.cons_append, Run.loop]
    rw [Run.loop] at h
    by_cases hq : m.Query = true
    · rw [if_pos hq] at h ⊢
      cases hpq : processQuery E m.PartyID m.Ciphertext st.round with
      | none => rw [hpq] at h; cases h
      | some res =>
        obtain ⟨round, response⟩ := res
        rw [hpq] at h
        simp only [] at h ⊢
        by_cases hp : m.PartyID ∈ peers
        · rw [if_pos hp] at h ⊢
          exact ih _ _ h
        · rw [if_neg hp] at h
          cases h
    · rw [if_neg hq] at h ⊢
      by_cases hc : IsComplete self peers (processResponse E m.PartyID m.Ciphertext st.round)
          = true
      · rw [if_pos hc] at h
        cases h
      · rw [if_neg hc] at h ⊢
        exact ih _ _ h

theorem pending_complete_iff {Ct : Type} (self : PartyID) (peers : List PartyID)
    (st : DriverState Ct) (inbox : List (TripleGenMessage Ct))
    (h : Pending self peers st inbox) :
    IsComplete self peers st.round = true ↔ inbox = [] := by
  obtain ⟨hmem, ⟨-, hqd, hqc⟩, ⟨-, hrd, hrc⟩, -, -, -⟩ := h
  rw [isComplete_iff]
  constructor
  · intro hc
    cases inbox with
    | nil => rfl
    | cons m rest =>
      exfalso
      obtain ⟨hp, hne⟩ := hmem m (List.mem_cons_self _ _)
      by_cases hq : m.Query = true
      · exact hqd m.PartyID (by simp [queryIDs, hq]) (hc _ hp hne).1
      · exact hrd m.PartyID (by simp [responseIDs, hq]) (hc _ hp hne).2
  · rintro rfl p hp hne
    refine ⟨?_, ?_⟩
    · rcases hqc p hp hne with h | h
      · exact h
      · simp [queryIDs] at h
    · rcases hrc p hp hne with h | h
      · exact h
      · simp [responseIDs] at h

theorem pending_step_query {Ct : Type} (E : Lattice Ct) (self : PartyID) (peers : List PartyID)
    (st : DriverState Ct) (m : TripleGenMessage Ct) (rest : List (TripleGenMessage Ct))
    (h : Pending self peers st (m :: rest)) (hq : m.Query = true) :
    ∃ st1 : DriverState Ct,
      (∀ L, Run.loop E self peers st (m :: L) = Run.loop E self peers st1 L) ∧
      Pending self peers st1 rest := by
  obtain ⟨hmem, ⟨hqn, hqd, hqc⟩, ⟨hrn, hrd, hrc⟩, hqs, hrs, hmask⟩ := h
  obtain ⟨hp, hne⟩ := hmem m (List.mem_cons_self _ _)
  obtain ⟨mask, hmk⟩ := hmask _ hp hne
  have hQ : queryIDs (m :: rest) = m.PartyID :: queryIDs rest := by simp [queryIDs, hq]
  have hR : responseIDs (m :: rest) = responseIDs rest := by simp [responseIDs, hq]
  rw [hQ] at hqn hqd hqc
  rw [hR] at hrn hrd hrc
  refine ⟨⟨{ st.round with hasQueried := insert m.PartyID st.round.hasQueried },
    st.sent ++ [(m.PartyID,
      ⟨self, E.smudge (E.addPlain (E.mulPlain m.Ciphertext st.round.plainB) mask), false⟩)]⟩,
    ?_, ?_⟩
  · intro L
    rw [Run.loop, if_pos hq]
    simp only [processQuery, hmk]
    rw [if_pos hp]
  · refine ⟨fun x hx => hmem x (List.mem_cons_of_mem _ hx),
      ⟨(List.nodup_cons.1 hqn).2, ?_, ?_⟩, ⟨hrn, hrd, hrc⟩, ?_, hrs, hmask⟩
    · intro p hpq hin
      rcases Finset.mem_insert.1 hin with h1 | h1
      · exact (List.nodup_cons.1 hqn).1 (h1 ▸ hpq)
      · exact hqd p (List.mem_cons_of_mem _ hpq) h1
    · intro p hpp hpne
      rcases hqc p hpp hpne with h1 | h1
      · exact Or.inl (Finset.mem_insert_of_mem h1)
      · rcases List.mem_cons.1 h1 with h2 | h2
        · exact Or.inl (h2 ▸ Finset.mem_insert_self _ _)
        · exact Or.inr h2
    · intro p hin
      rcases Finset.mem_insert.1 hin with h1 | h1
      · exact h1 ▸ ⟨hp, hne⟩
      · exact hqs p h1

theorem pending_step_response {Ct : Type} (E : Lattice Ct) (self : PartyID)
    (peers : List PartyID) (st : DriverState Ct) (m : TripleGenMessage Ct)
    (rest : List (TripleGenMessage Ct))
    (h : Pending self peers st (m :: rest)) (hq : ¬ m.Query = true) :
    Pending self peers
      { st with round := processResponse E m.PartyID m.Ciphertext st.round } rest := by
  obtain ⟨hmem, ⟨hqn, hqd, hqc⟩, ⟨hrn, hrd, hrc⟩, hqs, hrs, hmask⟩ := h
  obtain ⟨hp, hne⟩ := hmem m (List.mem_cons_self _ _)
  have hQ : queryIDs (m :: rest) = queryIDs rest := by simp [queryIDs, hq]
  have hR : responseIDs (m :: rest) = m.PartyID :: responseIDs rest := by
    simp [responseIDs, hq]
  rw [hQ] at hqn hqd hqc
  rw [hR] at hrn hrd hrc
  refine ⟨fun x hx => hmem x (List.mem_cons_of_mem _ hx),
      ⟨hqn, hqd, hqc⟩, ⟨(List.nodup_cons.1 hrn).2, ?_, ?_⟩, hqs, ?_, hmask⟩
  · intro p hpr hin
    rcases Finset.mem_insert.1 hin with h1 | h1
    · exact (List.nodup_cons.1 hrn).1 (h1 ▸ hpr)
    · exact hrd p (List.mem_cons_of_mem _ hpr) h1
  · intro p hpp hpne
    rcases hrc p hpp hpne with h1 | h1
    · exact Or.inl (Finset.mem_insert_of_mem h1)
    · rcases List.mem_cons.1 h1 with h2 | h2
      · exact Or.inl (h2 ▸ Finset.mem_insert_self _ _)
      · exact Or.inr h2
  · intro p hin
    rcases Finset.mem_insert.1 hin with h1 | h1
    · exact h1 ▸ ⟨hp, hne⟩
    · exact hrs p h1

/-- While messages are still to arrive the loop does not exit: on a proper
prefix of the arrivals it ends up waiting. -/
theorem pending_prefix_waiting {Ct : Type} (E : Lattice Ct) (self : PartyID)
    (peers : List PartyID) (pre suf : List (TripleGenMessage Ct)) (hsuf : suf ≠ []) :
    ∀ st : DriverState Ct, Pending self peers st (pre ++ suf) →
      ∃ st1, Run.loop E self peers st pre = .waiting st1 ∧ Pending self peers st1 suf := by
  induction pre with
  | nil => intro st h; exact ⟨st, rfl, h⟩
  | cons m pre ih =>
    intro st h
    rw [List.cons_append] at h
    by_cases hq : m.Query = true
    · obtain ⟨st1, hloop, hpend⟩ := pending_step_query E self peers st m _ h hq
      obtain ⟨st2, h2, hp2⟩ := ih st1 hpend
      exact ⟨st2, by rw [hloop, h2], hp2⟩
    · have hpend := pending_step_response E self peers st m _ h hq
      have hnc : ¬ IsComplete self peers (processResponse E m.PartyID m.Ciphertext st.round)
          = true := by
        intro hc
        have := (pending_complete_iff self peers _ _ hpend).1 hc
        simp at this
        exact hsuf this.2
      obtain ⟨st2, h2, hp2⟩ := ih _ hpend
      refine ⟨st2, ?_, hp2⟩
      rw [Run.loop, if_neg hq, if_neg hnc]
      exact h2

theorem pending_sets {Ct : Type} (self : PartyID) (peers : List PartyID)
    (st : DriverState Ct) (h : Pending self peers st []) :
    st.round.hasQueried = peers.toFinset.erase self ∧
      st.round.hasResponded = peers.toFinset.erase self := by
  obtain ⟨-, ⟨-, -, hqc⟩, ⟨-, -, hrc⟩, hqs, hrs, -⟩ := h
  constructor
  · ext p
    rw [Finset.mem_erase, List.mem_toFinset]
    constructor
    · intro hp; exact ⟨(hqs p hp).2, (hqs p hp).1⟩
    · rintro ⟨hne, hp⟩
      rcases hqc p hp hne with h | h
      · exact h
      · simp [queryIDs] at h
  · ext p
    rw [Finset.mem_erase, List.mem_toFinset]
    constructor
    · intro hp; exact ⟨(hrs p hp).2, (hrs p hp).1⟩
    · rintro ⟨hne, hp⟩
      rcases hrc p hp hne with h | h
      · exact h
      · simp [responseIDs] at h

/-- The last arrival: a response makes the loop exit, a query leaves it
waiting; either way both sets are then the peer set minus self. -/
theorem pending_last {Ct : Type} (E : Lattice Ct) (self : PartyID)
    (peers : List PartyID) (st : DriverState Ct) (m : TripleGenMessage Ct)
    (h : Pending self peers st [m]) :
    ∃ st1 : DriverState Ct,
      Run.loop E self peers st [m]
        = (if m.Query then LoopOutcome.waiting st1 else LoopOutcome.exited st1 []) ∧
      st1.round.hasQueried = peers.toFinset.erase self ∧
      st1.round.hasResponded = peers.toFinset.erase self := by
  by_cases hq : m.Query = true
  · obtain ⟨st1, hloop, hpend⟩ := pending_step_query E self peers st m _ h hq
    refine ⟨st1, ?_, pending_sets self peers st1 hpend⟩
    rw [hloop, if_pos hq]
    rfl
  · have hpend := pending_step_response E self peers st m _ h hq
    refine ⟨_, ?_, pending_sets self peers _ hpend⟩
    have hc := (pending_complete_iff self peers _ _ hpend).2 rfl
    rw [Run.loop, if_neg hq, if_pos hc, if_neg hq]

theorem genInput_round {Ct : Type} (E : Lattice Ct) (self : PartyID) (peers : List PartyID)
    (q : Nat) (a b : List Nat) (m : PartyID → List Nat) (round0 : TripleGenRound Ct)
    (h : genInput E self peers q a b m = some round0) :
    round0.hasQueried = ∅ ∧ round0.hasResponded = ∅ ∧ round0.a = a ∧ round0.b = b ∧
      round0.plainB = b ∧ round0.encAggr = E.newCiphertext ∧
      ∀ p ∈ peers, p ≠ self → round0.plainM p = some (m p) := by
  unfold genInput at h
  simp only [Option.bind_eq_bind, Option.bind_eq_some, Option.some.injEq] at h
  obtain ⟨c0, -, c, -, rfl⟩ := h
  refine ⟨rfl, rfl, rfl, rfl, rfl, rfl, ?_⟩
  intro p hp hne
  simp [hp, hne]

theorem pending_init {Ct : Type} (self : PartyID) (peers : List PartyID) (hnd : peers.Nodup)
    (round0 : TripleGenRound Ct) (hq0 : round0.hasQueried = ∅) (hr0 : round0.hasResponded = ∅)
    (hmask : ∀ p ∈ peers, p ≠ self → ∃ mask, round0.plainM p = some mask)
    (inbox : List (TripleGenMessage Ct))
    (hq : (queryIDs inbox).Perm (peers.filter fun p => decide (p ≠ self)))
    (hr : (responseIDs inbox).Perm (peers.filter fun p => decide (p ≠ self))) :
    Pending self peers (Run.sendInput self peers round0) inbox := by
  have hfn : (peers.filter fun p => decide (p ≠ self)).Nodup := hnd.filter _
  have hfm : ∀ p, p ∈ (peers.filter fun p => decide (p ≠ self)) ↔ p ∈ peers ∧ p ≠ self := by
    intro p
    simp [List.mem_filter]
  refine ⟨?_, ⟨hq.nodup_iff.2 hfn, ?_, ?_⟩, ⟨hr.nodup_iff.2 hfn, ?_, ?_⟩, ?_, ?_, hmask⟩
  · intro m hm
    by_cases hmq : m.Query = true
    · have : m.PartyID ∈ queryIDs inbox := by
        simp only [queryIDs, List.mem_map, List.mem_filter]
        exact ⟨m, ⟨hm, hmq⟩, rfl⟩
      exact (hfm _).1 (hq.mem_iff.1 this)
    · have : m.PartyID ∈ responseIDs inbox := by
        simp only [responseIDs, List.mem_map, List.mem_filter]
        exact ⟨m, ⟨hm, by simpa using hmq⟩, rfl⟩
      exact (hfm _).1 (hr.mem_iff.1 this)
  · intro p _ hin
    simp [Run.sendInput, hq0] at hin
  · intro p hp hne
    exact Or.inr (hq.mem_iff.2 ((hfm p).2 ⟨hp, hne⟩))
  · intro p _ hin
    simp [Run.sendInput, hr0] at hin
  · intro p hp hne
    exact Or.inr (hr.mem_iff.2 ((hfm p).2 ⟨hp, hne⟩))
  · intro p hin
    simp [Run.sendInput, hq0] at hin
  · intro p hin
    simp [Run.sendInput, hr0] at hin

/-- Claim C8, as stated, fails: at party 0 of two, when the response of party 1
arrives before its query, the loop has consumed both messages, both
`hasQueried` and `hasResponded` are the peer set minus self, and the loop has
not exited: it waits for a further message. -/
theorem he_loop_exit_counterexample :
    ∃ round0 st, genInput (idealLattice 1 7) 0 [0, 1] 7 (sampleA 0) (sampleB 0) (sampleM 0)
        = some round0 ∧
      queryIDs sampleInboxResponseFirst = [1] ∧ responseIDs sampleInboxResponseFirst = [1] ∧
      Run.loop (idealLattice 1 7) 0 [0, 1] (Run.sendInput 0 [0, 1] round0)
        sampleInboxResponseFirst = .waiting st ∧
      st.round.hasQueried = {1} ∧ st.round.hasResponded = {1} ∧
      IsComplete 0 [0, 1] st.round = true := by
  refine ⟨_, _, rfl, rfl, rfl, rfl, ?_, ?_, ?_⟩ <;> decide

/-- Claim C8 (HE driver termination), amended.  Let the driver start from the
round of `genInput`, and let exactly one query and exactly one response from
each peer other than self arrive, in any order.  On every proper prefix of the
arrivals the loop has not exited and `IsComplete` is false.  On the last
message, when it is a response the loop exits right after consuming it, with
nothing left unread; when it is a query the loop does not exit and waits for a
further message.  In both cases `hasQueried` and `hasResponded` are then the
peer set minus self. -/
theorem he_loop_exit {Ct : Type} (E : Lattice Ct) (self : PartyID) (peers : List PartyID)
    (hnd : peers.Nodup) (q : Nat) (a b : List Nat) (m : PartyID → List Nat)
    (round0 : TripleGenRound Ct) (hgen : genInput E self peers q a b m = some round0)
    (inbox : List (TripleGenMessage Ct))
    (hq : (queryIDs inbox).Perm (peers.filter fun p => decide (p ≠ self)))
    (hr : (responseIDs inbox).Perm (peers.filter fun p => decide (p ≠ self))) :
    (∀ pre suf, inbox = pre ++ suf → suf ≠ [] →
      ∃ st, Run.loop E self peers (Run.sendInput self peers round0) pre = .waiting st ∧
        IsComplete self peers st.round = false) ∧
    (∀ pre last, inbox = pre ++ [last] →
      ∃ st, Run.loop E self peers (Run.sendInput self peers round0) inbox
          = (if last.Query then LoopOutcome.waiting st else LoopOutcome.exited st []) ∧
        st.round.hasQueried = peers.toFinset.erase self ∧
        st.round.hasResponded = peers.toFinset.erase self) := by
  obtain ⟨h1, h2, -, -, -, -, h7⟩ := genInput_round E self peers q a b m round0 hgen
  have hpend := pending_init self peers hnd round0 h1 h2
    (fun p hp hne => ⟨_, h7 p hp hne⟩) inbox hq hr
  constructor
  · intro pre suf hcat hsuf
    subst hcat
    obtain ⟨st, hst, hp⟩ := pending_prefix_waiting E self peers pre suf hsuf _ hpend
    refine ⟨st, hst, ?_⟩
    rw [Bool.eq_false_iff]
    intro hc
    exact hsuf ((pending_complete_iff self peers st suf hp).1 hc)
  · intro pre last hcat
    subst hcat
    obtain ⟨st, hst, hp⟩ := pending_prefix_waiting E self peers pre [last] (by simp) _ hpend
    obtain ⟨st1, hl, hs⟩ := pending_last E self peers st last hp
    exact ⟨st1, by rw [runLoop_append E self peers pre [last] _ st hst, hl], hs⟩

/-- Witness of `he_loop_exit`: party 0 of two, the query of party 1 arriving
before its response. -/
theorem he_loop_exit_witness :
    ∃ round0, genInput (idealLattice 1 7) 0 [0, 1] 7 (sampleA 0) (sampleB 0) (sampleM 0)
        = some round0 ∧
      ∃ st, Run.loop (idealLattice 1 7) 0 [0, 1] (Run.sendInput 0 [0, 1] round0)
          sampleInboxQueryFirst = LoopOutcome.exited st [] ∧
        st.round.hasQueried = [0, 1].toFinset.erase 0 ∧
        st.round.hasResponded = [0, 1].toFinset.erase 0 :=
  ⟨_, rfl,
    (he_loop_exit (idealLattice 1 7) 0 [0, 1] (by decide) 7 (sampleA 0) (sampleB 0) (sampleM 0)
      _ rfl sampleInboxQueryFirst (by decide) (by decide)).2
      [{ PartyID := 1, Ciphertext := [5], Query := true }]
      { PartyID := 1, Ciphertext := [5], Query := false } rfl⟩

/-- Witness of `isComplete_spec`: the round of party 0 of two after the query and
the response of party 1, the peer map iterated in the two possible orders. -/
theorem isComplete_spec_witness :
    IsComplete 0 [1, 0]
        (processResponse (idealLattice 1 7) 1 [5]
          ⟨[3], [2], [2], [3], [2], fun _ => some [4], [3], [0], {1}, ∅⟩)
      = IsComplete 0 [0, 1]
        (processResponse (idealLattice 1 7) 1 [5]
          ⟨[3], [2], [2], [3], [2], fun _ => some [4], [3], [0], {1}, ∅⟩) :=
  (isComplete_spec 0 [0, 1]
    (processResponse (idealLattice 1 7) 1 [5]
      ⟨[3], [2], [2], [3], [2], fun _ => some [4], [3], [0], {1}, ∅⟩)).2.1 [1, 0] (by decide)

/-- Claim C10, as stated, fails: at party 0 of three, party 1 sends its query
twice and its response twice.  Nothing is rejected: the loop goes on waiting
(for party 2), party 1 has been answered twice, and both copies of the
response have been added into `encAggr` (`2 + 2 = 4` modulo 7). -/
theorem he_duplicates_counterexample :
    ∃ round0 st, genInput (idealLattice 1 7) 0 [0, 1, 2] 7 (sampleA 0) (sampleB 0) (sampleM 0)
        = some round0 ∧
      Run.loop (idealLattice 1 7) 0 [0, 1, 2] (Run.sendInput 0 [0, 1, 2] round0)
        sampleInboxDuplicates = .waiting st ∧
      (st.sent.filter fun x => !x.2.Query).map (fun x => (x.1, x.2.Ciphertext))
        = [(1, [0]), (1, [0])] ∧
      round0.encAggr = [0] ∧ st.round.encAggr = [4] ∧
      st.round.hasQueried = {1} ∧ st.round.hasResponded = {1} := by
  refine ⟨_, _, rfl, rfl, ?_, ?_, ?_, ?_, ?_⟩ <;> decide

/-- Claim C10, amended.  The HE driver has no duplicate detection.  A query from
a peer already in `hasQueried` is answered like a first one: the response
`smudge (encA * plainB + plainM[peer])` is put on the queue of that peer, the
round record is unchanged and the loop goes on.  A response from a peer
already in `hasResponded` is added into `encAggr` like a first one, with
`hasResponded` unchanged, and the loop goes on to its completion test. -/
theorem he_duplicates_accepted {Ct : Type} (E : Lattice Ct) (self : PartyID)
    (peers : List PartyID) (st : DriverState Ct) (m : TripleGenMessage Ct)
    (inbox : List (TripleGenMessage Ct)) :
    (m.Query = true → m.PartyID ∈ st.round.hasQueried → m.PartyID ∈ peers →
      ∀ mask, st.round.plainM m.PartyID = some mask →
        Run.loop E self peers st (m :: inbox)
          = Run.loop E self peers
              { round := st.round,
                sent := st.sent ++ [(m.PartyID,
                  ⟨self, E.smudge (E.addPlain (E.mulPlain m.Ciphertext st.round.plainB) mask),
                    false⟩)] }
              inbox) ∧
    (m.Query = false → m.PartyID ∈ st.round.hasResponded →
      Run.loop E self peers st (m :: inbox)
        = if IsComplete self peers
              { st.round with encAggr := E.add st.round.encAggr m.Ciphertext } then
            LoopOutcome.exited
              { st with round :=
                  { st.round with encAggr := E.add st.round.encAggr m.Ciphertext } } inbox
          else
            Run.loop E self peers
              { st with round :=
                  { st.round with encAggr := E.add st.round.encAggr m.Ciphertext } } inbox) := by
  constructor
  · intro hq hdup hp mask hmask
    rw [Run.loop, if_pos hq]
    simp only [processQuery, hmask]
    rw [if_pos hp, Finset.insert_eq_of_mem hdup]
  · intro hq hdup
    rw [Run.loop, if_neg (by simp [hq])]
    simp only [processResponse]
    rw [Finset.insert_eq_of_mem hdup]

/-- Witness of `he_duplicates_accepted`: party 0 of three holds the round in
which party 1 has already queried and responded, and the query of party 1
arrives once more. -/
theorem he_duplicates_accepted_witness :
    Run.loop (idealLattice 1 7) 0 [0, 1, 2]
        ⟨⟨[3], [2], [2], [3], [2], fun _ => some [4], [3], [2], {1}, {1}⟩, []⟩
        [{ PartyID := 1, Ciphertext := [5], Query := true }]
      = Run.loop (idealLattice 1 7) 0 [0, 1, 2]
          ⟨⟨[3], [2], [2], [3], [2], fun _ => some [4], [3], [2], {1}, {1}⟩,
            [] ++ [(1, ⟨0, (idealLattice 1 7).smudge ((idealLattice 1 7).addPlain
              ((idealLattice 1 7).mulPlain [5] [2]) [4]), false⟩)]⟩
          [] :=
  (he_duplicates_accepted (idealLattice 1 7) 0 [0, 1, 2]
    ⟨⟨[3], [2], [2], [3], [2], fun _ => some [4], [3], [2], {1}, {1}⟩, []⟩
    { PartyID := 1, Ciphertext := [5], Query := true } []).1 rfl (by decide) (by decide)
    [4] rfl

/-! ### MHE driver -/

theorem mheLoop_append {R : Type} [Ring R] (L : MHELattice R) (tgp : MHETripleGenProtocol R)
    (noise : R) (pre suf : List MHETripleGenMessage) :
    ∀ st st1 : MHEState R, tgp.loop L noise st pre = .waiting st1 →
      tgp.loop L noise st (pre ++ suf) = tgp.loop L noise st1 suf := by
  induction pre with
  | nil =>
    intro st st1 h
    rw [MHETripleGenProtocol.loop] at h
    cases h
    rfl
  | cons m pre ih =>
    intro st st1 h
    rw [List.cons_append, MHETripleGenProtocol.loop]
    rw [MHETripleGenProtocol.loop] at h
    cases hs : tgp.step L noise st m with
    | none => rw [hs] at h; cases h
    | some res =>
      obtain ⟨st2, ex⟩ := res
      rw [hs] at h
      cases ex with
      | true => cases h
      | false => exact ih _ _ h

theorem aggregateEncAEncB_marshal {R : Type} [Add R] (L : MHELattice R) (hL : L.Marshals)
    (x y : R × R) (round : MHETripleGenRound R) :
    aggregateEncAEncB L (L.marshalCt x ++ L.marshalCt y) round = some (round.addAB x.1 y.1) := by
  obtain ⟨h1, h2, -⟩ := hL
  have hlen : (L.marshalCt x ++ L.marshalCt y).length / 2 = (L.marshalCt x).length := by
    rw [List.length_append, h2 y x]
    omega
  unfold aggregateEncAEncB
  rw [hlen, List.take_left', List.drop_left', h1, h1]
  · rfl
  · rfl
  · rfl

theorem addAB_addAB {R : Type} [AddCommMonoid R] (round : MHETripleGenRound R) (x y u v : R) :
    (round.addAB x y).addAB u v = round.addAB (x + u) (y + v) := by
  simp [MHETripleGenRound.addAB, add_assoc]

/-- Round-0 messages that do not complete the count are only added in. -/
theorem mheLoop_round0_below {R : Type} [Ring R] (L : MHELattice R) (hL : L.Marshals)
    (tgp : MHETripleGenProtocol R) (noise : R) (hc : tgp.Children.length < 2 ^ 64)
    (msgs : List (PartyID × (R × R) × (R × R))) :
    ∀ st : MHEState R, st.state + msgs.length < tgp.Children.length →
      tgp.loop L noise st (msgs.map (roundZeroMessage L))
        = .waiting { round := st.round.addAB (msgs.map fun t => t.2.1.1).sum
                        (msgs.map fun t => t.2.2.1).sum,
                     state := st.state + msgs.length, sent := st.sent } := by
  induction msgs with
  | nil =>
    intro st _
    simp [MHETripleGenProtocol.loop, MHETripleGenRound.addAB]
  | cons t msgs ih =>
    intro st hlt
    simp only [List.length_cons] at hlt
    have hmod : (st.state + 1) % 2 ^ 64 = st.state + 1 := Nat.mod_eq_of_lt (by omega)
    rw [List.map_cons, MHETripleGenProtocol.loop]
    have hstep : tgp.step L noise st (roundZeroMessage L t)
        = some ({ round := st.round.addAB t.2.1.1 t.2.2.1, state := st.state + 1,
                  sent := st.sent }, false) := by
      have h0 : (roundZeroMessage L t).Round = 0 := rfl
      have hd : (roundZeroMessage L t).Data = L.marshalCt t.2.1 ++ L.marshalCt t.2.2 := rfl
      unfold MHETripleGenProtocol.step
      rw [if_pos h0, hd, aggregateEncAEncB_marshal L hL, hmod]
      simp only []
      rw [if_neg (by omega)]
    rw [hstep]
    simp only []
    rw [ih _ (by simp only []; omega)]
    simp only [addAB_addAB, List.map_cons, List.sum_cons, List.length_cons]
    congr 2
    omega

/-- The round-0 messages of all the children, at a party with a parent: the
aggregate is forwarded to the parent and the counter is reset. -/
theorem mheLoop_round0_parent {R : Type} [Ring R] (L : MHELattice R) (hL : L.Marshals)
    (tgp : MHETripleGenProtocol R) (noise : R) (hc : tgp.Children.length < 2 ^ 64)
    (parent : PartyID) (hp : tgp.Parent = some parent)
    (msgs : List (PartyID × (R × R) × (R × R))) (st : MHEState R) (hst : st.state = 0)
    (hlen : msgs.length = tgp.Children.length) (hpos : msgs ≠ []) :
    tgp.loop L noise st (msgs.map (roundZeroMessage L))
      = .waiting
          { round := st.round.addAB (msgs.map fun t => t.2.1.1).sum
              (msgs.map fun t => t.2.2.1).sum,
            state := 0,
            sent := st.sent ++ [(parent,
              { PartyID := tgp.ID,
                Data := L.marshalCt (st.round.addAB (msgs.map fun t => t.2.1.1).sum
                    (msgs.map fun t => t.2.2.1).sum).encA
                  ++ L.marshalCt (st.round.addAB (msgs.map fun t => t.2.1.1).sum
                    (msgs.map fun t => t.2.2.1).sum).encB,
                Round := 0 })] } := by
  rcases List.eq_nil_or_concat msgs with h | ⟨init, last, h⟩
  · exact absurd h hpos
  · rw [List.concat_eq_append] at h
    subst h
    rw [List.length_append, List.length_singleton] at hlen
    rw [List.map_append, mheLoop_append L tgp noise _ _ st _
      (mheLoop_round0_below L hL tgp noise hc init st (by omega))]
    have h0 : (roundZeroMessage L last).Round = 0 := rfl
    have hd : (roundZeroMessage L last).Data = L.marshalCt last.2.1 ++ L.marshalCt last.2.2 := rfl
    have hmod : (st.state + init.length + 1) % 2 ^ 64 = tgp.Children.length := by
      rw [Nat.mod_eq_of_lt (by omega)]
      omega
    simp only [List.map_cons, List.map_nil, MHETripleGenProtocol.loop,
      MHETripleGenProtocol.step]
    rw [if_pos h0, hd, aggregateEncAEncB_marshal L hL]
    simp only []
    rw [if_pos hmod, hp]
    simp only [addAB_addAB, List.map_append, List.sum_append, List.map_cons, List.map_nil,
      List.sum_cons, List.sum_nil, add_zero]

/-- The round-0 messages of all the children, at the root: the product is
computed, the second polynomial of `encC` is broadcast with round tag 1, and
the root computes its own decryption share. -/
theorem mheLoop_round0_root {R : Type} [Ring R] (L : MHELattice R) (hL : L.Marshals)
    (tgp : MHETripleGenProtocol R) (noise : R) (hc : tgp.Children.length < 2 ^ 64)
    (hp : tgp.Parent = none)
    (msgs : List (PartyID × (R × R) × (R × R))) (st : MHEState R) (hst : st.state = 0)
    (hlen : msgs.length = tgp.Children.length) (hpos : msgs ≠ []) :
    tgp.loop L noise st (msgs.map (roundZeroMessage L))
      = .waiting
          { round :=
              { st.round.addAB (msgs.map fun t => t.2.1.1).sum
                  (msgs.map fun t => t.2.2.1).sum with
                encC := L.mulRelin
                  (st.round.addAB (msgs.map fun t => t.2.1.1).sum
                    (msgs.map fun t => t.2.2.1).sum).encA
                  (st.round.addAB (msgs.map fun t => t.2.1.1).sum
                    (msgs.map fun t => t.2.2.1).sum).encB,
                decryptionShare := L.invNTT (L.mulCoeffsMontgomeryAndAdd
                  (L.ntt (L.mulRelin
                    (st.round.addAB (msgs.map fun t => t.2.1.1).sum
                      (msgs.map fun t => t.2.2.1).sum).encA
                    (st.round.addAB (msgs.map fun t => t.2.1.1).sum
                      (msgs.map fun t => t.2.2.1).sum).encB).2) tgp.SecretKey 0) },
            state := 0,
            sent := st.sent ++ tgp.Children.map fun ch =>
              (ch, { PartyID := tgp.ID,
                     Data := L.marshalPoly (L.ntt (L.mulRelin
                      (st.round.addAB (msgs.map fun t => t.2.1.1).sum
                        (msgs.map fun t => t.2.2.1).sum).encA
                      (st.round.addAB (msgs.map fun t => t.2.1.1).sum
                        (msgs.map fun t => t.2.2.1).sum).encB).2),
                     Round := 1 }) } := by
  rcases List.eq_nil_or_concat msgs with h | ⟨init, last, h⟩
  · exact absurd h hpos
  · rw [List.concat_eq_append] at h
    subst h
    rw [List.length_append, List.length_singleton] at hlen
    rw [List.map_append, mheLoop_append L tgp noise _ _ st _
      (mheLoop_round0_below L hL tgp noise hc init st (by omega))]
    have h0 : (roundZeroMessage L last).Round = 0 := rfl
    have hd : (roundZeroMessage L last).Data = L.marshalCt last.2.1 ++ L.marshalCt last.2.2 := rfl
    have hmod : (st.state + init.length + 1) % 2 ^ 64 = tgp.Children.length := by
      rw [Nat.mod_eq_of_lt (by omega)]
      omega
    simp only [List.map_cons, List.map_nil, MHETripleGenProtocol.loop,
      MHETripleGenProtocol.step]
    rw [if_pos h0, hd, aggregateEncAEncB_marshal L hL]
    simp only []
    rw [if_pos hmod, hp]
    simp only [genDecryptionShare, hL.2.2, hp, Option.isSome_none, Bool.false_eq_true,
      if_false, addAB_addAB, List.map_append, List.sum_append, List.map_cons, List.map_nil,
      List.sum_cons, List.sum_nil, add_zero]

/-- The round-1 message at a party with a parent: it is forwarded to the
children, the decryption share `c1 * sk + noise - encode c` is computed, and a
party without children sends its share to the parent and leaves the loop. -/
theorem mheLoop_round1 {R : Type} [Ring R] (L : MHELattice R) (hL : L.Marshals)
    (tgp : MHETripleGenProtocol R) (noise : R) (parent : PartyID)
    (hp : tgp.Parent = some parent) (sender : PartyID) (x : R) (st : MHEState R) :
    tgp.loop L noise st [{ PartyID := sender, Data := L.marshalPoly x, Round := 1 }]
      = if tgp.Children.length = 0 then
          .exited
            { round := st.round.withShare (nonRootShare L tgp.SecretKey noise x st.round.c),
              state := st.state,
              sent := st.sent ++ [(parent,
                { PartyID := tgp.ID,
                  Data := L.marshalPoly (nonRootShare L tgp.SecretKey noise x st.round.c),
                  Round := 2 })] } []
        else
          .waiting
            { round := st.round.withShare (nonRootShare L tgp.SecretKey noise x st.round.c),
              state := st.state,
              sent := st.sent ++ tgp.Children.map fun ch =>
                (ch, { PartyID := tgp.ID, Data := L.marshalPoly x, Round := 1 }) } := by
  have h0 : ¬ ((1 : Int) = 0) := by decide
  simp only [MHETripleGenProtocol.loop, MHETripleGenProtocol.step, h0, if_false, if_true,
    genDecryptionShare, hL.2.2, hp, Option.isSome_some]
  by_cases hleaf : tgp.Children.length = 0
  · simp only [hleaf, if_true]
    rfl
  · simp only [hleaf, if_false]
    rfl

/-- Round-2 messages that do not complete the count are only added in. -/
theorem mheLoop_round2_below {R : Type} [Ring R] (L : MHELattice R) (hL : L.Marshals)
    (tgp : MHETripleGenProtocol R) (noise : R) (hc : tgp.Children.length < 2 ^ 64)
    (msgs : List (PartyID × R)) :
    ∀ st : MHEState R, st.state + msgs.length < tgp.Children.length →
      tgp.loop L noise st (msgs.map (roundTwoMessage L))
        = .waiting
            { round := st.round.withShare
                (st.round.decryptionShare + (msgs.map fun t => t.2).sum),
              state := st.state + msgs.length, sent := st.sent } := by
  induction msgs with
  | nil =>
    intro st _
    simp [MHETripleGenProtocol.loop, MHETripleGenRound.withShare]
  | cons t msgs ih =>
    intro st hlt
    simp only [List.length_cons] at hlt
    have hmod : (st.state + 1) % 2 ^ 64 = st.state + 1 := Nat.mod_eq_of_lt (by omega)
    have h0 : ¬ (roundTwoMessage L t).Round = 0 := by simp [roundTwoMessage]
    have h1 : ¬ (roundTwoMessage L t).Round = 1 := by simp [roundTwoMessage]
    have h2 : (roundTwoMessage L t).Round = 2 := rfl
    have hd : (roundTwoMessage L t).Data = L.marshalPoly t.2 := rfl
    rw [List.map_cons, MHETripleGenProtocol.loop]
    have hstep : tgp.step L noise st (roundTwoMessage L t)
        = some ({ round := st.round.withShare (st.round.decryptionShare + t.2),
                  state := st.state + 1, sent := st.sent }, false) := by
      unfold MHETripleGenProtocol.step
      rw [if_neg h0, if_neg h1, if_pos h2, hd]
      simp only [aggregateDecryptionShare, hL.2.2, hmod]
      rw [if_neg (by omega)]
      rfl
    rw [hstep]
    simp only []
    rw [ih _ (by simp only []; omega)]
    simp only [MHETripleGenRound.withShare, List.map_cons, List.sum_cons, List.length_cons,
      add_assoc]
    congr 2
    omega

/-- The round-2 messages of all the children, at a party with a parent: the sum
of the shares is forwarded to the parent and the loop is left. -/
theorem mheLoop_round2_parent {R : Type} [Ring R] (L : MHELattice R) (hL : L.Marshals)
    (tgp : MHETripleGenProtocol R) (noise : R) (hc : tgp.Children.length < 2 ^ 64)
    (parent : PartyID) (hp : tgp.Parent = some parent)
    (msgs : List (PartyID × R)) (st : MHEState R) (hst : st.state = 0)
    (hlen : msgs.length = tgp.Children.length) (hpos : msgs ≠ []) :
    tgp.loop L noise st (msgs.map (roundTwoMessage L))
      = .exited
          { round := st.round.withShare
              (st.round.decryptionShare + (msgs.map fun t => t.2).sum),
            state := 0,
            sent := st.sent ++ [(parent,
              { PartyID := tgp.ID,
                Data := L.marshalPoly
                  (st.round.decryptionShare + (msgs.map fun t => t.2).sum),
                Round := 2 })] } [] := by
  rcases List.eq_nil_or_concat msgs with h | ⟨init, last, h⟩
  · exact absurd h hpos
  · rw [List.concat_eq_append] at h
    subst h
    rw [List.length_append, List.length_singleton] at hlen
    rw [List.map_append, mheLoop_append L tgp noise _ _ st _
      (mheLoop_round2_below L hL tgp noise hc init st (by omega))]
    have h0 : ¬ (roundTwoMessage L last).Round = 0 := by simp [roundTwoMessage]
    have h1 : ¬ (roundTwoMessage L last).Round = 1 := by simp [roundTwoMessage]
    have h2 : (roundTwoMessage L last).Round = 2 := rfl
    have hd : (roundTwoMessage L last).Data = L.marshalPoly last.2 := rfl
    have hmod : (st.state + init.length + 1) % 2 ^ 64 = tgp.Children.length := by
      rw [Nat.mod_eq_of_lt (by omega)]
      omega
    simp only [List.map_cons, List.map_nil, MHETripleGenProtocol.loop,
      MHETripleGenProtocol.step]
    rw [if_neg h0, if_neg h1, if_pos h2, hd]
    simp only [aggregateDecryptionShare, hL.2.2]
    rw [if_pos hmod, hp]
    simp only [MHETripleGenRound.withShare, List.map_append, List.sum_append, List.map_cons,
      List.map_nil, List.sum_cons, List.sum_nil, add_zero, add_assoc]

/-- The round-2 messages of all the children, at the root: the sum of the
shares is added to the first polynomial of `encC` and decoded by
`rootFinalize`, and the loop is left. -/
theorem mheLoop_round2_root {R : Type} [Ring R] (L : MHELattice R) (hL : L.Marshals)
    (tgp : MHETripleGenProtocol R) (noise : R) (hc : tgp.Children.length < 2 ^ 64)
    (hp : tgp.Parent = none)
    (msgs : List (PartyID × R)) (st : MHEState R) (hst : st.state = 0)
    (hlen : msgs.length = tgp.Children.length) (hpos : msgs ≠ []) :
    tgp.loop L noise st (msgs.map (roundTwoMessage L))
      = .exited
          { round := rootFinalize L (st.round.withShare
              (st.round.decryptionShare + (msgs.map fun t => t.2).sum)),
            state := tgp.Children.length,
            sent := st.sent } [] := by
  rcases List.eq_nil_or_concat msgs with h | ⟨init, last, h⟩
  · exact absurd h hpos
  · rw [List.concat_eq_append] at h
    subst h
    rw [List.length_append, List.length_singleton] at hlen
    rw [List.map_append, mheLoop_append L tgp noise _ _ st _
      (mheLoop_round2_below L hL tgp noise hc init st (by omega))]
    have h0 : ¬ (roundTwoMessage L last).Round = 0 := by simp [roundTwoMessage]
    have h1 : ¬ (roundTwoMessage L last).Round = 1 := by simp [roundTwoMessage]
    have h2 : (roundTwoMessage L last).Round = 2 := rfl
    have hd : (roundTwoMessage L last).Data = L.marshalPoly last.2 := rfl
    have hmod : (st.state + init.length + 1) % 2 ^ 64 = tgp.Children.length := by
      rw [Nat.mod_eq_of_lt (by omega)]
      omega
    simp only [List.map_cons, List.map_nil, MHETripleGenProtocol.loop,
      MHETripleGenProtocol.step]
    rw [if_neg h0, if_neg h1, if_pos h2, hd]
    simp only [aggregateDecryptionShare, hL.2.2]
    rw [if_pos hmod, hp]
    have hmod2 : (st.state + (init.length + 1)) % 2 ^ 64 = tgp.Children.length := by
      rw [← Nat.add_assoc]
      exact hmod
    simp only [hmod2, MHETripleGenRound.withShare, List.map_append, List.sum_append,
      List.map_cons, List.map_nil, List.sum_cons, List.sum_nil, add_zero, add_assoc]

/-! ### Sums over a tree -/

theorem treeSum_fuel {M : Type} [AddCommMonoid M] (children : PartyID → List PartyID)
    (own : PartyID → M) (N : Nat)
    (hch : ∀ i : Nat, i < N → ∀ j : Nat, j ∈ children i → i < j ∧ j < N) :
    ∀ f1 f2 i : Nat, i < N → N ≤ i + 1 + f1 → N ≤ i + 1 + f2 →
      treeSum children own f1 i = treeSum children own f2 i := by
  have hleaf : ∀ i : Nat, i < N → N ≤ i + 1 → ∀ f, treeSum children own f i = own i := by
    intro i hi hN f
    have hnil : children i = [] := by
      rw [List.eq_nil_iff_forall_not_mem]
      intro j hj
      have := hch i hi j hj
      omega
    cases f with
    | zero => rfl
    | succ f => simp [treeSum, hnil]
  intro f1
  induction f1 with
  | zero =>
    intro f2 i hi h1 _
    rw [hleaf i hi (by omega) 0, hleaf i hi (by omega) f2]
  | succ f ih =>
    intro f2 i hi h1 h2
    cases f2 with
    | zero => rw [hleaf i hi (by omega) 0, hleaf i hi (by omega) (f + 1)]
    | succ g =>
      simp only [treeSum]
      congr 2
      apply List.map_congr_left
      intro ch hmem
      have := hch i hi ch hmem
      exact ih g ch this.2 (by omega) (by omega)

theorem treeSum_rec {M : Type} [AddCommMonoid M] (children : PartyID → List PartyID)
    (own : PartyID → M) (N : Nat)
    (hch : ∀ i : Nat, i < N → ∀ j : Nat, j ∈ children i → i < j ∧ j < N) (i : Nat) (hi : i < N) :
    treeSum children own N i
      = own i + ((children i).map (treeSum children own N)).sum := by
  obtain ⟨n, rfl⟩ : ∃ n, N = n + 1 := ⟨N - 1, by omega⟩
  rw [treeSum]
  congr 2
  apply List.map_congr_left
  intro ch hmem
  have := hch i hi ch hmem
  exact treeSum_fuel children own (n + 1) hch n (n + 1) ch this.2 (by omega) (by omega)

/-- Sweeping the parties from the last to the first: values that satisfy
`S i = own i + Σ_{par j = i} S j` add up, at the root, to the sum of `own`. -/
theorem sum_over_tree {M : Type} [AddCommMonoid M] (N : Nat) (hN : 1 ≤ N) (par : Nat → Nat)
    (hpar : ∀ j : Nat, 0 < j → j < N → par j < j) (own S : Nat → M)
    (hrec : ∀ i : Nat, i < N →
      S i = own i + ∑ j in (Finset.range N).filter (fun j => 0 < j ∧ par j = i), S j) :
    S 0 = ∑ i in Finset.range N, own i := by
  have hstep : ∀ m : Nat, 1 ≤ m → m < N →
      (∑ i in Finset.range (m + 1), own i
        + ∑ j in (Finset.range N).filter (fun j => m + 1 ≤ j ∧ par j < m + 1), S j)
      = (∑ i in Finset.range m, own i
        + ∑ j in (Finset.range N).filter (fun j => m ≤ j ∧ par j < m), S j) := by
    intro m hm hmN
    have hA : ∑ j in (Finset.range N).filter (fun j => m + 1 ≤ j ∧ par j < m + 1), S j
        = ∑ j in (Finset.range N).filter (fun j => m + 1 ≤ j ∧ par j < m), S j
          + ∑ j in (Finset.range N).filter (fun j => 0 < j ∧ par j = m), S j := by
      rw [Finset.sum_filter, Finset.sum_filter, Finset.sum_filter, ← Finset.sum_add_distrib]
      apply Finset.sum_congr rfl
      intro j hj
      have hjN : j < N := Finset.mem_range.1 hj
      by_cases hj0 : 0 < j
      · have hp := hpar j hj0 hjN
        by_cases h1 : par j = m
        · have c1 : m + 1 ≤ j ∧ par j < m + 1 := ⟨by omega, by omega⟩
          have c2 : ¬ (m + 1 ≤ j ∧ par j < m) := by omega
          have c3 : 0 < j ∧ par j = m := ⟨hj0, h1⟩
          rw [if_pos c1, if_neg c2, if_pos c3, zero_add]
        · have c3 : ¬ (0 < j ∧ par j = m) := by omega
          by_cases c1 : m + 1 ≤ j ∧ par j < m + 1
          · have c2 : m + 1 ≤ j ∧ par j < m := ⟨c1.1, by omega⟩
            rw [if_pos c1, if_pos c2, if_neg c3, add_zero]
          · have c2 : ¬ (m + 1 ≤ j ∧ par j < m) := by omega
            rw [if_neg c1, if_neg c2, if_neg c3, add_zero]
      · have c1 : ¬ (m + 1 ≤ j ∧ par j < m + 1) := by omega
        have c2 : ¬ (m + 1 ≤ j ∧ par j < m) := by omega
        have c3 : ¬ (0 < j ∧ par j = m) := by omega
        rw [if_neg c1, if_neg c2, if_neg c3, add_zero]
    have hB : ∑ j in (Finset.range N).filter (fun j => m ≤ j ∧ par j < m), S j
        = S m + ∑ j in (Finset.range N).filter (fun j => m + 1 ≤ j ∧ par j < m), S j := by
      have hSm : S m = ∑ j in Finset.range N, if j = m then S j else 0 := by
        rw [Finset.sum_ite_eq' (Finset.range N) m S, if_pos (Finset.mem_range.2 hmN)]
      rw [hSm, Finset.sum_filter, Finset.sum_filter, ← Finset.sum_add_distrib]
      apply Finset.sum_congr rfl
      intro j hj
      have hjN : j < N := Finset.mem_range.1 hj
      by_cases hjm : j = m
      · subst hjm
        have hp := hpar j (by omega) hjN
        have c1 : j ≤ j ∧ par j < j := ⟨le_refl _, hp⟩
        have c2 : ¬ (j + 1 ≤ j ∧ par j < j) := by omega
        rw [if_pos c1, if_pos rfl, if_neg c2, add_zero]
      · by_cases c1 : m ≤ j ∧ par j < m
        · have c2 : m + 1 ≤ j ∧ par j < m := ⟨by omega, c1.2⟩
          rw [if_pos c1, if_neg hjm, if_pos c2, zero_add]
        · have c2 : ¬ (m + 1 ≤ j ∧ par j < m) := by omega
          rw [if_neg c1, if_neg hjm, if_neg c2, zero_add]
    rw [hA, hB, hrec m hmN, Finset.sum_range_succ]
    abel
  have hall : ∀ m : Nat, 1 ≤ m → m ≤ N →
      (∑ i in Finset.range m, own i
        + ∑ j in (Finset.range N).filter (fun j => m ≤ j ∧ par j < m), S j) = S 0 := by
    intro m hm
    induction m, hm using Nat.le_induction with
    | base =>
      intro _
      rw [hrec 0 (by omega), Finset.sum_range_one]
      congr 1
      apply Finset.sum_congr _ (fun _ _ => rfl)
      ext j
      simp only [Finset.mem_filter, Finset.mem_range]
      constructor
      · rintro ⟨h1, h2, h3⟩; exact ⟨h1, by omega, by omega⟩
      · rintro ⟨h1, h2, h3⟩; exact ⟨h1, by omega, by omega⟩
    | succ m hm ih =>
      intro hle
      rw [hstep m hm (by omega)]
      exact ih (by omega)
  have hfin := hall N hN (le_refl N)
  rw [← hfin]
  have hempty : (Finset.range N).filter (fun j => N ≤ j ∧ par j < N) = ∅ := by
    rw [Finset.filter_eq_empty_iff]
    intro j hj
    have := Finset.mem_range.1 hj
    omega
  rw [hempty, Finset.sum_empty, add_zero]

theorem wellFormed_children_lt (tree : Tree) (N : Nat) (hwf : tree.WellFormed N) :
    ∀ i : Nat, i < N → ∀ j : Nat, j ∈ tree.childrenOf i → i < j ∧ j < N := by
  obtain ⟨-, -, hlt, -, hmem⟩ := hwf
  intro i hi j hj
  obtain ⟨h0, hjN, hp⟩ := (hmem i hi j).1 hj
  have := hlt j h0 hjN
  rw [hp] at this
  exact ⟨this, hjN⟩

/-- In a well-formed tree the sum over the subtree of the root is the sum over
all the parties. -/
theorem treeSum_root {M : Type} [AddCommMonoid M] (tree : Tree) (N : Nat) (hN : 1 ≤ N)
    (hwf : tree.WellFormed N) (own : PartyID → M) :
    treeSum tree.childrenOf own N 0 = ∑ i in Finset.range N, own i := by
  have hlt := wellFormed_children_lt tree N hwf
  obtain ⟨-, -, hpar, hnd, hmem⟩ := hwf
  apply sum_over_tree N hN tree.parentOf hpar own (treeSum tree.childrenOf own N)
  intro i hi
  rw [treeSum_rec tree.childrenOf own N hlt i hi, ← List.sum_toFinset _ (hnd i hi)]
  congr 1
  apply Finset.sum_congr _ (fun _ _ => rfl)
  ext j
  rw [List.mem_toFinset, hmem i hi j, Finset.mem_filter, Finset.mem_range]
  constructor
  · rintro ⟨h1, h2, h3⟩; exact ⟨h2, h1, h3⟩
  · rintro ⟨h2, h1, h3⟩; exact ⟨h1, h2, h3⟩

/-- The trees that `NewTree` builds without overflow are well formed. -/
theorem newTree_wellFormed (N k : Nat) (peers : PeerMap) (hN : 1 ≤ N) (hk : 1 ≤ k)
    (hno : N * k < 2 ^ 64) (hkeys : ∀ i : Nat, i ∈ peers ↔ i < N) :
    ∃ tree : Tree, NewTree peers k = some tree ∧ tree.WellFormed N := by
  obtain ⟨tree, ht, hpar, hch, hsorted, -, hmem⟩ :=
    newTree_children_spec N k peers hk hno hkeys
  obtain ⟨tree2, ht2, hl⟩ := newTree_some peers k hk
  rw [ht] at ht2
  cases ht2
  rw [peers_length peers N hkeys] at hl
  refine ⟨tree, ht, ?_, ?_, ?_, ?_, hmem⟩
  · intro i hi
    exact ⟨_, by rw [hl i, if_pos hi]⟩
  · rw [hpar 0 (by omega), if_pos rfl]
  · intro i hi hiN
    rw [hpar i hiN, if_neg (by omega)]
    exact Nat.lt_of_le_of_lt (Nat.div_le_self (i - 1) k) (by omega)
  · intro i hi
    exact (hsorted i hi).imp (fun h => Nat.ne_of_lt h)

/-! ### A run of the MHE protocol over a well-formed tree -/

theorem collect_map {α β : Type} (l : List α) (g : α → Option β) (f : α → β)
    (h : ∀ x ∈ l, g x = some (f x)) : collect (l.map g) = some (l.map f) := by
  induction l with
  | nil => rfl
  | cons x l ih =>
    rw [List.map_cons, h x (List.mem_cons_self _ _), collect,
      ih (fun y hy => h y (List.mem_cons_of_mem _ hy))]
    rfl

theorem wellFormed_root_children (tree : Tree) (N : Nat) (hN : 2 ≤ N)
    (hwf : tree.WellFormed N) : tree.childrenOf 0 ≠ [] := by
  obtain ⟨-, -, hlt, -, hmem⟩ := hwf
  have h1 : (1 : Nat) ∈ tree.childrenOf 0 := by
    rw [hmem 0 (by omega) 1]
    have := hlt 1 (by omega) (by omega)
    exact ⟨by omega, by omega, Nat.lt_one_iff.1 this⟩
  intro h
  rw [h] at h1
  cases h1

theorem mheRun_node {R : Type} [Ring R] (run : MHERun R) (N : Nat) (hwf : run.tree.WellFormed N)
    (i : Nat) (hi : i < N) :
    NewMHETripleGenProtocol i (run.sk i) run.tree = some (run.node i) := by
  obtain ⟨hlook, h0, hlt, hnd, -⟩ := hwf
  obtain ⟨node, hnode⟩ := hlook i hi
  have hpar : run.tree.parentOf i = node.Parent := by
    unfold Tree.parentOf
    rw [hnode]
  have hch : run.tree.childrenOf i = node.Children := by
    unfold Tree.childrenOf
    rw [hnode]
  have hnd' := hnd i hi
  rw [hch] at hnd'
  unfold NewMHETripleGenProtocol MHERun.node
  rw [hnode]
  simp only [hpar, hch, hnd'.dedup]
  congr 2
  rcases Nat.eq_zero_or_pos i with rfl | hpos
  · have : node.Parent = 0 := by rw [← hpar]; exact h0
    simp [this]
  · have := hlt i hpos hi
    rw [hpar] at this
    have hne : i ≠ node.Parent := Nat.ne_of_gt this
    simp [hne, Nat.pos_iff_ne_zero.1 hpos]

theorem mheRun_start {R : Type} [Ring R] (run : MHERun R) (N : Nat) (hN : 2 ≤ N)
    (hwf : run.tree.WellFormed N) (i : Nat) (hi : i < N) :
    run.start i = some (run.node i, run.init i) := by
  unfold MHERun.start
  rw [mheRun_node run N hwf i hi]
  simp only []
  unfold MHETripleGenProtocol.start MHERun.init
  have hchildren : (run.node i).Children = run.tree.childrenOf i := rfl
  by_cases hleaf : run.tree.childrenOf i = []
  · have hi0 : i ≠ 0 := by
      rintro rfl
      exact wellFormed_root_children run.tree N hN hwf hleaf
    have hpar : (run.node i).Parent = some (run.tree.parentOf i) := by
      simp [MHERun.node, hi0]
    rw [hchildren, hleaf, List.length_nil, if_pos rfl, hpar, if_pos rfl]
    rfl
  · have hlen : ¬ (run.tree.childrenOf i).length = 0 := by
      rw [List.length_eq_zero]
      exact hleaf
    rw [hchildren, if_neg hlen, if_neg hleaf]
    rfl

theorem treeSum_arrival {M : Type} [AddCommMonoid M] (tree : Tree) (N : Nat)
    (hwf : tree.WellFormed N) (own : PartyID → M) (arr : List PartyID) (i : Nat) (hi : i < N)
    (hperm : arr.Perm (tree.childrenOf i)) :
    treeSum tree.childrenOf own N i
      = own i + (arr.map (treeSum tree.childrenOf own N)).sum := by
  rw [treeSum_rec tree.childrenOf own N (wellFormed_children_lt tree N hwf) i hi,
    (hperm.map _).sum_eq]

theorem sentTo_singleton {R : Type} (round : MHETripleGenRound R) (state : Nat)
    (dest : PartyID) (m : MHETripleGenMessage) (r : Int) (hr : m.Round = r) :
    MHEState.sentTo { round := round, state := state, sent := [(dest, m)] } dest r = some m := by
  simp [MHEState.sentTo, List.find?, hr]

theorem mheRun_inbox0 {R : Type} [Ring R] (run : MHERun R) (N : Nat)
    (hwf : run.tree.WellFormed N) (i ch : Nat) (hi : i < N)
    (hch : ch ∈ run.tree.childrenOf i) :
    (run.state0 N ch).sentTo i 0 = some (run.msg0 N ch) := by
  obtain ⟨h0, -, hp⟩ := (hwf.2.2.2.2 i hi ch).1 hch
  unfold MHERun.state0
  rw [if_neg (Nat.pos_iff_ne_zero.1 h0), hp]
  exact sentTo_singleton _ _ _ _ _ rfl

theorem mheRun_input_addAB {R : Type} [Ring R] (run : MHERun R) (N : Nat)
    (hwf : run.tree.WellFormed N) (i : Nat) (hi : i < N)
    (harr : (run.arrival0 i).Perm (run.tree.childrenOf i)) :
    (run.input i).addAB
        (((run.arrival0 i).map fun ch =>
          (ch, (run.round0 N ch).encA, (run.round0 N ch).encB)).map fun t => t.2.1.1).sum
        (((run.arrival0 i).map fun ch =>
          (ch, (run.round0 N ch).encA, (run.round0 N ch).encB)).map fun t => t.2.2.1).sum
      = run.round0 N i := by
  have hA := treeSum_arrival run.tree N hwf (fun j => (run.ownA j).1) (run.arrival0 i) i hi harr
  have hB := treeSum_arrival run.tree N hwf (fun j => (run.ownB j).1) (run.arrival0 i) i hi harr
  simp only [List.map_map]
  unfold MHERun.round0 MHERun.aggA MHERun.aggB
  rw [hA, hB]
  rfl

/-- Round 0 of a run: every party reaches the state `state0`. -/
theorem mheRun_phase0 {R : Type} [Ring R] (run : MHERun R) (N : Nat) (hN : 2 ≤ N)
    (hN64 : N < 2 ^ 64) (hwf : run.tree.WellFormed N) (hL : run.L.Marshals)
    (harr : ∀ i : Nat, i < N → (run.arrival0 i).Perm (run.tree.childrenOf i)) :
    ∀ fuel i : Nat, i < N → N ≤ i + fuel → run.phase0 fuel i = some (run.state0 N i) := by
  intro fuel
  induction fuel with
  | zero => intro i hi hf; omega
  | succ fuel ih =>
    intro i hi hf
    have hlt := wellFormed_children_lt run.tree N hwf
    have hin : collect ((run.arrival0 i).map fun ch =>
        (MHERun.phase0 run fuel ch).bind fun st => st.sentTo i 0)
        = some ((run.arrival0 i).map (run.msg0 N)) := by
      apply collect_map
      intro ch hch
      have hch' : ch ∈ run.tree.childrenOf i := (harr i hi).mem_iff.1 hch
      obtain ⟨h1, h2⟩ := hlt i hi ch hch'
      rw [ih ch h2 (by omega)]
      exact mheRun_inbox0 run N hwf i ch hi hch'
    have hmap : (run.arrival0 i).map (run.msg0 N)
        = ((run.arrival0 i).map fun ch =>
            (ch, (run.round0 N ch).encA, (run.round0 N ch).encB)).map
              (roundZeroMessage run.L) := by
      rw [List.map_map]
      rfl
    have hclen : (run.node i).Children.length < 2 ^ 64 := by
      have hnd : (run.tree.childrenOf i).Nodup := hwf.2.2.2.1 i hi
      have hsub : (run.tree.childrenOf i).toFinset ⊆ Finset.range N := by
        intro j hj
        rw [List.mem_toFinset] at hj
        exact Finset.mem_range.2 (hlt i hi j hj).2
      have hcard := Finset.card_le_card hsub
      rw [List.toFinset_card_of_nodup hnd, Finset.card_range] at hcard
      show (run.tree.childrenOf i).length < 2 ^ 64
      omega
    rw [MHERun.phase0, mheRun_start run N hN hwf i hi]
    simp only []
    rw [hin]
    simp only []
    by_cases hleaf : run.tree.childrenOf i = []
    · have hi0 : i ≠ 0 := by
        rintro rfl
        exact wellFormed_root_children run.tree N hN hwf hleaf
      have harr0 : run.arrival0 i = [] := by
        have := harr i hi
        rw [hleaf] at this
        exact this.eq_nil
      have hround := mheRun_input_addAB run N hwf i hi (harr i hi)
      rw [harr0] at hround
      simp only [List.map_nil, List.sum_nil, MHETripleGenRound.addAB, add_zero] at hround
      rw [harr0, List.map_nil, MHETripleGenProtocol.loop]
      simp only []
      unfold MHERun.init MHERun.state0
      rw [if_pos hleaf, if_neg hi0]
      unfold MHERun.msg0
      rw [← hround]
      rfl
    · have hpos : ((run.arrival0 i).map fun ch =>
          (ch, (run.round0 N ch).encA, (run.round0 N ch).encB)) ≠ [] := by
        intro h
        rw [List.map_eq_nil_iff] at h
        have := harr i hi
        rw [h] at this
        exact hleaf this.symm.eq_nil
      have hlen : ((run.arrival0 i).map fun ch =>
          (ch, (run.round0 N ch).encA, (run.round0 N ch).encB)).length
          = (run.node i).Children.length := by
        rw [List.length_map]
        exact (harr i hi).length_eq
      have hinit : run.init i = { round := run.input i, state := 0, sent := [] } := by
        unfold MHERun.init
        rw [if_neg hleaf]
      rw [hmap, hinit]
      by_cases hi0 : i = 0
      · subst hi0
        have hp : (run.node 0).Parent = none := by simp [MHERun.node]
        rw [mheLoop_round0_root run.L hL (run.node 0) (run.noise 0) hclen hp _ _ rfl hlen hpos]
        simp only []
        rw [mheRun_input_addAB run N hwf 0 hi (harr 0 hi)]
        unfold MHERun.state0
        rw [if_pos rfl]
        rfl
      · have hp : (run.node i).Parent = some (run.tree.parentOf i) := by
          simp [MHERun.node, hi0]
        rw [mheLoop_round0_parent run.L hL (run.node i) (run.noise i) hclen _ hp _ _ rfl
          hlen hpos]
        simp only []
        rw [mheRun_input_addAB run N hwf i hi (harr i hi)]
        unfold MHERun.state0
        rw [if_neg hi0]
        rfl

theorem bcast_find (m : Nat → MHETripleGenMessage) (hm : ∀ ch, (m ch).Round = 1) (i : Nat)
    (l : List Nat) (hi : i ∈ l) :
    (l.map fun ch => (ch, m ch)).find? (fun x => decide (x.1 = i) && decide (x.2.Round = 1))
      = some (i, m i) := by
  induction l with
  | nil => cases hi
  | cons a l ih =>
    rw [List.map_cons, List.find?_cons]
    by_cases ha : a = i
    · subst ha
      simp [hm]
    · have hil : i ∈ l := by
        rcases List.mem_cons.1 hi with h | h
        · exact absurd h.symm ha
        · exact h
      simp only [ha, decide_False, Bool.false_and]
      exact ih hil

theorem bcast_find_none {R : Type} [Ring R] (run : MHERun R) (N : Nat) (p i : PartyID) :
    (run.bcast N p).find? (fun x => decide (x.1 = i) && decide (x.2.Round = 2)) = none := by
  rw [List.find?_eq_none]
  intro x hx
  unfold MHERun.bcast at hx
  rw [List.mem_map] at hx
  obtain ⟨ch, -, rfl⟩ := hx
  simp

theorem mheRun_inbox1 {R : Type} [Ring R] (run : MHERun R) (N : Nat) (p i : Nat)
    (hi : i ∈ run.tree.childrenOf p) :
    (run.state1 N p).1.sentTo i 1
      = some { PartyID := p, Data := run.L.marshalPoly (run.L.ntt (run.encC N).2),
               Round := 1 } := by
  have hne : run.tree.childrenOf p ≠ [] := by
    intro h
    rw [h] at hi
    cases hi
  unfold MHERun.state1
  by_cases hp0 : p = 0
  · subst hp0
    rw [if_pos rfl]
    unfold MHERun.state0 MHEState.sentTo
    rw [if_pos rfl]
    simp only []
    unfold MHERun.bcast
    rw [bcast_find _ (fun _ => rfl) i _ hi]
    rfl
  · rw [if_neg hp0, if_neg hne]
    unfold MHEState.sentTo
    simp only []
    rw [List.cons_append, List.nil_append, List.find?_cons]
    have h0 : (decide (run.tree.parentOf p = i) && decide ((run.msg0 N p).Round = 1)) = false := by
      simp [MHERun.msg0, roundZeroMessage]
    rw [h0]
    simp only []
    unfold MHERun.bcast
    rw [bcast_find _ (fun _ => rfl) i _ hi]
    rfl

/-- Round 1 of a run: every party reaches the state `state1`. -/
theorem mheRun_phase1 {R : Type} [Ring R] (run : MHERun R) (N : Nat) (hN : 2 ≤ N)
    (hN64 : N < 2 ^ 64) (hwf : run.tree.WellFormed N) (hL : run.L.Marshals)
    (harr : ∀ i : Nat, i < N → (run.arrival0 i).Perm (run.tree.childrenOf i)) :
    ∀ fuel i : Nat, i < N → i < fuel → run.phase1 N fuel i = some (run.state1 N i) := by
  intro fuel
  induction fuel with
  | zero => intro i hi hf; omega
  | succ fuel ih =>
    intro i hi hf
    rw [MHERun.phase1, mheRun_start run N hN hwf i hi,
      mheRun_phase0 run N hN hN64 hwf hL harr N i hi (by omega)]
    simp only []
    by_cases hi0 : i = 0
    · subst hi0
      have hp : (run.node 0).Parent = none := by simp [MHERun.node]
      rw [hp]
      simp only []
      unfold MHERun.state1
      rw [if_pos rfl]
    · have hpos : 0 < i := Nat.pos_of_ne_zero hi0
      have hp : (run.node i).Parent = some (run.tree.parentOf i) := by
        simp [MHERun.node, hi0]
      have hplt : run.tree.parentOf i < i := hwf.2.2.1 i hpos hi
      have hmem : i ∈ run.tree.childrenOf (run.tree.parentOf i) :=
        (hwf.2.2.2.2 (run.tree.parentOf i) (by omega) i).2 ⟨hpos, hi, rfl⟩
      rw [hp]
      simp only []
      rw [ih (run.tree.parentOf i) (by omega) (by omega)]
      simp only [Option.some_bind]
      rw [mheRun_inbox1 run N (run.tree.parentOf i) i hmem]
      simp only []
      rw [mheLoop_round1 run.L hL (run.node i) (run.noise i) (run.tree.parentOf i) hp]
      have hst0 : run.state0 N i
          = { round := run.round0 N i, state := 0,
              sent := [(run.tree.parentOf i, run.msg0 N i)] } := by
        unfold MHERun.state0
        rw [if_neg hi0]
      have hshare : run.share N i
          = nonRootShare run.L (run.sk i) (run.noise i) (run.L.ntt (run.encC N).2) (run.c i) := by
        unfold MHERun.share
        rw [if_neg hi0]
      unfold MHERun.state1
      rw [if_neg hi0, hst0]
      by_cases hleaf : run.tree.childrenOf i = []
      · have hlen : (run.node i).Children.length = 0 := by
          show (run.tree.childrenOf i).length = 0
          rw [hleaf]
          rfl
        rw [if_pos hlen, if_pos hleaf, hshare]
        rfl
      · have hlen : ¬ (run.node i).Children.length = 0 := by
          show ¬ (run.tree.childrenOf i).length = 0
          rw [List.length_eq_zero]
          exact hleaf
        rw [if_neg hlen, if_neg hleaf, hshare]
        rfl

theorem mheRun_inbox2 {R : Type} [Ring R] (run : MHERun R) (N : Nat)
    (hwf : run.tree.WellFormed N) (i ch : Nat) (hi : i < N)
    (hch : ch ∈ run.tree.childrenOf i) :
    (run.state2 N ch).sentTo i 2 = some (run.msg2 N ch) := by
  obtain ⟨h0, hchN, hp⟩ := (hwf.2.2.2.2 i hi ch).1 hch
  have hne : ch ≠ 0 := Nat.pos_iff_ne_zero.1 h0
  have hskip : (decide (run.tree.parentOf ch = i) && decide ((run.msg0 N ch).Round = 2))
      = false := by
    simp [MHERun.msg0, roundZeroMessage]
  unfold MHERun.state2
  rw [if_neg hne]
  by_cases hleaf : run.tree.childrenOf ch = []
  · have hagg : run.aggShare N ch = run.share N ch := by
      unfold MHERun.aggShare
      rw [treeSum_rec run.tree.childrenOf (run.share N) N
        (wellFormed_children_lt run.tree N hwf) ch hchN, hleaf]
      simp
    rw [if_pos hleaf]
    unfold MHERun.state1
    rw [if_neg hne, if_pos hleaf]
    unfold MHEState.sentTo
    simp only []
    rw [List.cons_append, List.nil_append, List.find?_cons, hskip]
    simp only []
    rw [List.find?_cons]
    have hhit : (decide (run.tree.parentOf ch = i)
        && decide ((roundTwoMessage run.L (ch, run.share N ch)).Round = 2)) = true := by
      simp [hp, roundTwoMessage]
    rw [hhit]
    simp only [Option.map_some']
    unfold MHERun.msg2
    rw [hagg]
  · rw [if_neg hleaf]
    unfold MHEState.sentTo
    simp only []
    rw [List.append_assoc, List.cons_append, List.nil_append, List.find?_cons, hskip]
    simp only []
    rw [List.find?_append, bcast_find_none run N ch i]
    simp only [Option.none_or]
    rw [List.find?_cons]
    have hhit : (decide (run.tree.parentOf ch = i) && decide ((run.msg2 N ch).Round = 2))
        = true := by
      simp [hp, MHERun.msg2, roundTwoMessage]
    rw [hhit]
    rfl

/-- Round 2 of a run: every party leaves the loop in the state `state2`. -/
theorem mheRun_phase2 {R : Type} [Ring R] (run : MHERun R) (N : Nat) (hN : 2 ≤ N)
    (hN64 : N < 2 ^ 64) (hwf : run.tree.WellFormed N) (hL : run.L.Marshals)
    (harr0 : ∀ i : Nat, i < N → (run.arrival0 i).Perm (run.tree.childrenOf i))
    (harr2 : ∀ i : Nat, i < N → (run.arrival2 i).Perm (run.tree.childrenOf i)) :
    ∀ fuel i : Nat, i < N → N ≤ i + fuel → run.phase2 N fuel i = some (run.state2 N i) := by
  intro fuel
  induction fuel with
  | zero => intro i hi hf; omega
  | succ fuel ih =>
    intro i hi hf
    have hlt := wellFormed_children_lt run.tree N hwf
    rw [MHERun.phase2, mheRun_start run N hN hwf i hi,
      mheRun_phase1 run N hN hN64 hwf hL harr0 N i hi hi]
    by_cases hleaf : run.tree.childrenOf i = []
    · have hi0 : i ≠ 0 := by
        rintro rfl
        exact wellFormed_root_children run.tree N hN hwf hleaf
      have h1 : run.state1 N i = ((run.state1 N i).1, true) := by
        unfold MHERun.state1
        rw [if_neg hi0, if_pos hleaf]
      rw [h1]
      simp only []
      unfold MHERun.state2
      rw [if_neg hi0, if_pos hleaf]
    · have h1 : run.state1 N i = ((run.state1 N i).1, false) := by
        unfold MHERun.state1
        by_cases hi0 : i = 0
        · rw [if_pos hi0]
        · rw [if_neg hi0, if_neg hleaf]
      have hin : collect ((run.arrival2 i).map fun ch =>
          (MHERun.phase2 run N fuel ch).bind fun st => st.sentTo i 2)
          = some ((run.arrival2 i).map (run.msg2 N)) := by
        apply collect_map
        intro ch hch
        have hch' : ch ∈ run.tree.childrenOf i := (harr2 i hi).mem_iff.1 hch
        obtain ⟨h1, h2⟩ := hlt i hi ch hch'
        rw [ih ch h2 (by omega)]
        exact mheRun_inbox2 run N hwf i ch hi hch'
      have hmap : (run.arrival2 i).map (run.msg2 N)
          = ((run.arrival2 i).map fun ch => (ch, run.aggShare N ch)).map
              (roundTwoMessage run.L) := by
        rw [List.map_map]
        rfl
      have hclen : (run.node i).Children.length < 2 ^ 64 := by
        have hnd : (run.tree.childrenOf i).Nodup := hwf.2.2.2.1 i hi
        have hsub : (run.tree.childrenOf i).toFinset ⊆ Finset.range N := by
          intro j hj
          rw [List.mem_toFinset] at hj
          exact Finset.mem_range.2 (hlt i hi j hj).2
        have hcard := Finset.card_le_card hsub
        rw [List.toFinset_card_of_nodup hnd, Finset.card_range] at hcard
        show (run.tree.childrenOf i).length < 2 ^ 64
        omega
      have hpos : ((run.arrival2 i).map fun ch => (ch, run.aggShare N ch)) ≠ [] := by
        intro h
        rw [List.map_eq_nil_iff] at h
        have := harr2 i hi
        rw [h] at this
        exact hleaf this.symm.eq_nil
      have hlen : ((run.arrival2 i).map fun ch => (ch, run.aggShare N ch)).length
          = (run.node i).Children.length := by
        rw [List.length_map]
        exact (harr2 i hi).length_eq
      have hsum : run.share N i
          + (((run.arrival2 i).map fun ch => (ch, run.aggShare N ch)).map fun t => t.2).sum
          = run.aggShare N i := by
        rw [List.map_map]
        exact (treeSum_arrival run.tree N hwf (run.share N) (run.arrival2 i) i hi
          (harr2 i hi)).symm
      rw [h1]
      simp only []
      rw [hin]
      simp only []
      rw [hmap]
      by_cases hi0 : i = 0
      · subst hi0
        have hp : (run.node 0).Parent = none := by simp [MHERun.node]
        have hst : (run.state1 N 0).1 = run.state0 N 0 := by
          unfold MHERun.state1
          rw [if_pos rfl]
        have hst0 : run.state0 N 0
            = { round := { run.round0 N 0 with
                  encC := run.encC N, decryptionShare := run.share N 0 },
                state := 0, sent := run.bcast N 0 } := by
          unfold MHERun.state0
          rw [if_pos rfl]
        rw [hst, hst0, mheLoop_round2_root run.L hL (run.node 0) (run.noise 0) hclen hp _ _ rfl
          hlen hpos]
        simp only []
        rw [hsum]
        unfold MHERun.state2
        rw [if_pos rfl]
        rfl
      · have hp : (run.node i).Parent = some (run.tree.parentOf i) := by
          simp [MHERun.node, hi0]
        have hst : (run.state1 N i).1
            = { round := (run.round0 N i).withShare (run.share N i), state := 0,
                sent := [(run.tree.parentOf i, run.msg0 N i)] ++ run.bcast N i } := by
          unfold MHERun.state1
          rw [if_neg hi0, if_neg hleaf]
        rw [hst, mheLoop_round2_parent run.L hL (run.node i) (run.noise i) hclen _ hp _ _ rfl
          hlen hpos]
        simp only []
        have hsum2 : ((run.round0 N i).withShare (run.share N i)).decryptionShare
            + (((run.arrival2 i).map fun ch => (ch, run.aggShare N ch)).map fun t => t.2).sum
            = run.aggShare N i := hsum
        rw [hsum2]
        unfold MHERun.state2
        rw [if_neg hi0, if_neg hleaf]
        rfl

/-! ### Algebra of the MHE protocol -/

theorem isVec_ext {n q : Nat} {u v : List Nat} (hu : IsVec n q u) (hv : IsVec n q v)
    (h : ∀ k, k < n → ((u.getD k 0 : Nat) : ZMod q) = ((v.getD k 0 : Nat) : ZMod q)) :
    u = v := by
  apply List.ext_getElem (by rw [hu.1, hv.1])
  intro k h1 h2
  have hk : k < n := by rw [← hu.1]; exact h1
  have h3 := h k hk
  rw [List.getD_eq_getElem _ _ h1, List.getD_eq_getElem _ _ h2,
    ZMod.natCast_eq_natCast_iff'] at h3
  have hx := hu.getD_lt hk
  have hy := hv.getD_lt hk
  rw [List.getD_eq_getElem _ _ h1] at hx
  rw [List.getD_eq_getElem _ _ h2] at hy
  rwa [Nat.mod_eq_of_lt hx, Nat.mod_eq_of_lt hy] at h3

theorem isVec_replicate (n q : Nat) (hq0 : 0 < q) : IsVec n q (List.replicate n 0) := by
  refine ⟨List.length_replicate _ _, ?_⟩
  intro x hx
  rw [List.eq_of_mem_replicate hx]
  exact hq0

theorem replicate_getD (n k : Nat) : (List.replicate n 0).getD k 0 = 0 := by
  by_cases hk : k < (List.replicate n 0).length
  · rw [List.getD_eq_getElem _ _ hk, List.getElem_replicate]
  · rw [List.getD_eq_default _ _ (by omega)]

theorem vecSum_isVec (n q : Nat) (hq0 : 0 < q) (hq : q ≤ 2 ^ 62) (v : Nat → List Nat) :
    ∀ m : Nat, (∀ i, i < m → IsVec n q (v i)) →
      IsVec n q (vecSum n q v m) ∧
      ∀ k, k < n → (((vecSum n q v m).getD k 0 : Nat) : ZMod q)
        = ∑ i in Finset.range m, (((v i).getD k 0 : Nat) : ZMod q) := by
  intro m
  induction m with
  | zero =>
    intro _
    refine ⟨isVec_replicate n q hq0, fun k _ => ?_⟩
    simp [vecSum, replicate_getD]
  | succ m ih =>
    intro hv
    obtain ⟨h1, h2⟩ := ih (fun i hi => hv i (by omega))
    have hm := hv m (by omega)
    refine ⟨zipWith_isVec _ h1 hm (fun x y hx hy => addCoeff_lt hq hx hy), fun k hk => ?_⟩
    rw [vecSum, zipWith_getD _ _ _ _ (by rw [h1.1]; exact hk) (by rw [hm.1]; exact hk),
      addCoeff_cast hq (h1.getD_lt hk) (hm.getD_lt hk), h2 k hk, Finset.sum_range_succ]

theorem encode_vecSum {R : Type} [Ring R] (L : MHELattice R) (n q : Nat) (s : R)
    (hq0 : 0 < q) (hq : q ≤ 2 ^ 62) (hC : L.Contract n q s) (v : Nat → List Nat) :
    ∀ m : Nat, (∀ i, i < m → IsVec n q (v i)) →
      L.encodeUint (vecSum n q v m) = ∑ i in Finset.range m, L.encodeUint (v i) := by
  obtain ⟨-, -, hadd, -, -, -⟩ := hC
  have hzero : L.encodeUint (List.replicate n 0) = 0 := by
    have hz := isVec_replicate n q hq0
    have h := hadd _ _ hz hz
    have hzz : List.zipWith (addCoeff q) (List.replicate n 0) (List.replicate n 0)
        = List.replicate n 0 := by
      apply isVec_ext (zipWith_isVec _ hz hz (fun x y hx hy => addCoeff_lt hq hx hy)) hz
      intro k hk
      rw [zipWith_getD _ _ _ _ (by rw [hz.1]; exact hk) (by rw [hz.1]; exact hk),
        addCoeff_cast hq (hz.getD_lt hk) (hz.getD_lt hk), replicate_getD]
      simp
    rw [hzz] at h
    have h2 : L.encodeUint (List.replicate n 0) + 0
        = L.encodeUint (List.replicate n 0) + L.encodeUint (List.replicate n 0) := by
      rw [add_zero]
      exact h
    exact (add_left_cancel h2).symm
  intro m
  induction m with
  | zero => intro _; simpa [vecSum] using hzero
  | succ m ih =>
    intro hv
    have h1 := (vecSum_isVec n q hq0 hq v m (fun i hi => hv i (by omega))).1
    rw [vecSum, hadd _ _ h1 (hv m (by omega)), ih (fun i hi => hv i (by omega)),
      Finset.sum_range_succ]

/-- Subtracting an encoded vector from an encoded vector, then decoding, gives
the coordinate-wise difference. -/
theorem decode_sub_encode {R : Type} [Ring R] (L : MHELattice R) (n q : Nat) (s : R)
    (hq : q ≤ 2 ^ 62) (hC : L.Contract n q s) (p c : List Nat)
    (hp : IsVec n q p) (hc : IsVec n q c) :
    IsVec n q (L.decodeUint (L.encodeUint p - L.encodeUint c)) ∧
    ∀ k, k < n → (((L.decodeUint (L.encodeUint p - L.encodeUint c)).getD k 0 : Nat) : ZMod q)
      = ((p.getD k 0 : Nat) : ZMod q) - ((c.getD k 0 : Nat) : ZMod q) := by
  obtain ⟨-, -, hadd, -, -, hdec⟩ := hC
  have hw : IsVec n q (List.zipWith (subCoeff q) p c) :=
    zipWith_isVec _ hp hc (fun x y hx hy => subCoeff_lt hq hx hy)
  have hwk : ∀ k, k < n → (((List.zipWith (subCoeff q) p c).getD k 0 : Nat) : ZMod q)
      = ((p.getD k 0 : Nat) : ZMod q) - ((c.getD k 0 : Nat) : ZMod q) := by
    intro k hk
    rw [zipWith_getD _ _ _ _ (by rw [hp.1]; exact hk) (by rw [hc.1]; exact hk)]
    exact subCoeff_cast hq (hp.getD_lt hk) (hc.getD_lt hk)
  have hback : List.zipWith (addCoeff q) (List.zipWith (subCoeff q) p c) c = p := by
    apply isVec_ext (zipWith_isVec _ hw hc (fun x y hx hy => addCoeff_lt hq hx hy)) hp
    intro k hk
    rw [zipWith_getD _ _ _ _ (by rw [hw.1]; exact hk) (by rw [hc.1]; exact hk),
      addCoeff_cast hq (hw.getD_lt hk) (hc.getD_lt hk), hwk k hk]
    ring
  have henc : L.encodeUint p - L.encodeUint c
      = L.encodeUint (List.zipWith (subCoeff q) p c) := by
    have h := hadd _ _ hw hc
    rw [hback] at h
    rw [h]
    abel
  rw [henc, hdec _ hw]
  exact ⟨hw, hwk⟩

/-- What the root decodes, under the contract of the lattice operations: the
polynomial handed to the decoder is `encode P - encode S`, where `P` is the
product of the sums of the `b` and of the `a` shares and `S` the sum of the
`c` vectors of the parties other than the root. -/
theorem mheRun_root_poly {R : Type} [Ring R] (run : MHERun R) (N n q : Nat) (hN : 2 ≤ N)
    (hq0 : 0 < q) (hq : q ≤ 2 ^ 62) (hwf : run.tree.WellFormed N)
    (hC : run.L.Contract n q (∑ i in Finset.range N, run.sk i))
    (hnoise : ∀ i, i < N → run.noise i = 0)
    (ha : ∀ i, i < N → IsVec n q (run.a i)) (hb : ∀ i, i < N → IsVec n q (run.b i))
    (hc : ∀ i, i < N → IsVec n q (run.c i)) :
    (run.encC N).1 + run.aggShare N 0
      = run.L.encodeUint (List.zipWith (mulCoeff q) (vecSum n q run.b N) (vecSum n q run.a N))
        - run.L.encodeUint
            (vecSum n q (fun i => if i = 0 then List.replicate n 0 else run.c i) N) := by
  have hC' := hC
  obtain ⟨hcrp, hdecid, -, hmul, hntt, -⟩ := hC
  have hva := vecSum_isVec n q hq0 hq run.a N ha
  have hvb := vecSum_isVec n q hq0 hq run.b N hb
  have hc' : ∀ i, i < N → IsVec n q (if i = 0 then List.replicate n 0 else run.c i) := by
    intro i hi
    by_cases h0 : i = 0
    · rw [if_pos h0]; exact isVec_replicate n q hq0
    · rw [if_neg h0]; exact hc i hi
  -- the aggregated ciphertexts encrypt the sums under the collective key
  have hA : (run.round0 N 0).encA.1
      + (run.round0 N 0).encA.2 * (∑ i in Finset.range N, run.sk i)
      = run.L.encodeUint (vecSum n q run.b N) := by
    have h1 : (run.round0 N 0).encA.1 = ∑ i in Finset.range N, (run.ownA i).1 :=
      treeSum_root run.tree N (by omega) hwf _
    have h2 : (run.round0 N 0).encA.2 = run.crp2 := hcrp _ _ _
    rw [h1, h2, Finset.mul_sum, ← Finset.sum_add_distrib,
      encode_vecSum run.L n q _ hq0 hq hC' run.b N hb]
    apply Finset.sum_congr rfl
    intro i hi
    exact hdecid _ _ _ (hb i (Finset.mem_range.1 hi))
  have hB : (run.round0 N 0).encB.1
      + (run.round0 N 0).encB.2 * (∑ i in Finset.range N, run.sk i)
      = run.L.encodeUint (vecSum n q run.a N) := by
    have h1 : (run.round0 N 0).encB.1 = ∑ i in Finset.range N, (run.ownB i).1 :=
      treeSum_root run.tree N (by omega) hwf _
    have h2 : (run.round0 N 0).encB.2 = run.crp1 := hcrp _ _ _
    rw [h1, h2, Finset.mul_sum, ← Finset.sum_add_distrib,
      encode_vecSum run.L n q _ hq0 hq hC' run.a N ha]
    apply Finset.sum_congr rfl
    intro i hi
    exact hdecid _ _ _ (ha i (Finset.mem_range.1 hi))
  have hEncC := hmul (run.round0 N 0).encA (run.round0 N 0).encB _ _ hvb.1 hva.1 hA hB
  -- the shares add up to `c1 * s` minus the encodings of the `c` vectors
  have hshare : ∀ i, i < N → run.share N i
      = (run.encC N).2 * run.sk i
        - run.L.encodeUint (if i = 0 then List.replicate n 0 else run.c i) := by
    intro i hi
    have hz : run.L.encodeUint (List.replicate n 0) = 0 := by
      have := encode_vecSum run.L n q _ hq0 hq hC' run.a 0 (fun i hi => by omega)
      simpa [vecSum] using this
    unfold MHERun.share
    by_cases h0 : i = 0
    · rw [if_pos h0, if_pos h0, hntt, hz, sub_zero, h0]
    · rw [if_neg h0, if_neg h0]
      unfold nonRootShare
      rw [hntt, hnoise i hi, add_zero]
  have hagg : run.aggShare N 0
      = (run.encC N).2 * (∑ i in Finset.range N, run.sk i)
        - run.L.encodeUint
            (vecSum n q (fun i => if i = 0 then List.replicate n 0 else run.c i) N) := by
    unfold MHERun.aggShare
    rw [treeSum_root run.tree N (by omega) hwf _, Finset.sum_congr rfl
      (fun i hi => hshare i (Finset.mem_range.1 hi)), Finset.sum_sub_distrib,
      ← Finset.mul_sum, encode_vecSum run.L n q _ hq0 hq hC' _ N hc']
  rw [hagg, ← hEncC]
  unfold MHERun.encC
  abel

/-- Claim C2 (MHE mode end invariant).  Take a well-formed tree over `N ≥ 2`
parties (the trees of `NewTree` are), lattice operations that satisfy their
contract with noise ignored (`MHELattice.Marshals`, `MHELattice.Contract` for
the collective key `s = Σ_i sk_i`), share vectors in `(Z_q)^n`, and any
arrival orders of the messages of the children.  Then every party runs its
message loop to the end: the ciphertexts are summed up the tree, the root
multiplies and relinearizes, the decryption shares built by
`genDecryptionShare` are summed up the tree by `aggregateDecryptionShare`, and
`rootFinalize` adds them to the first polynomial of `encC` and decodes.  Every
party keeps its `a` and `b`, every party other than the root keeps the `c` it
sampled, the root ends with a vector `c` in `(Z_q)^n`, and in every coordinate
`(Σ_i a_i) · (Σ_i b_i) ≡ Σ_i c_i (mod q)`. -/
theorem mhe_end_invariant {R : Type} [Ring R] (run : MHERun R) (N n q : Nat) (hN : 2 ≤ N)
    (hN64 : N < 2 ^ 64) (hq0 : 0 < q) (hq : q ≤ 2 ^ 62) (hwf : run.tree.WellFormed N)
    (hL : run.L.Marshals) (hC : run.L.Contract n q (∑ i in Finset.range N, run.sk i))
    (hnoise : ∀ i, i < N → run.noise i = 0)
    (ha : ∀ i, i < N → IsVec n q (run.a i)) (hb : ∀ i, i < N → IsVec n q (run.b i))
    (hc : ∀ i, i < N → IsVec n q (run.c i))
    (harr0 : ∀ i : Nat, i < N → (run.arrival0 i).Perm (run.tree.childrenOf i))
    (harr2 : ∀ i : Nat, i < N → (run.arrival2 i).Perm (run.tree.childrenOf i)) :
    ∃ st : Nat → MHEState R,
      (∀ i, i < N → run.phase2 N N i = some (st i)) ∧
      (∀ i, i < N → (st i).round.a = run.a i ∧ (st i).round.b = run.b i) ∧
      (∀ i, 0 < i → i < N → (st i).round.c = run.c i) ∧
      IsVec n q (st 0).round.c ∧
      ∀ k, k < n →
        ((∑ i in Finset.range N, (st i).round.a.getD k 0) *
          (∑ i in Finset.range N, (st i).round.b.getD k 0)) % q
          = (∑ i in Finset.range N, (st i).round.c.getD k 0) % q := by
  have hab : ∀ i, i < N →
      (run.state2 N i).round.a = run.a i ∧ (run.state2 N i).round.b = run.b i := by
    intro i hi
    unfold MHERun.state2
    by_cases h0 : i = 0
    · rw [if_pos h0, h0]
      exact ⟨rfl, rfl⟩
    · rw [if_neg h0]
      by_cases hleaf : run.tree.childrenOf i = []
      · rw [if_pos hleaf]
        unfold MHERun.state1
        rw [if_neg h0, if_pos hleaf]
        exact ⟨rfl, rfl⟩
      · rw [if_neg hleaf]
        exact ⟨rfl, rfl⟩
  have hcc : ∀ i, 0 < i → i < N → (run.state2 N i).round.c = run.c i := by
    intro i hpos hi
    have h0 : i ≠ 0 := Nat.pos_iff_ne_zero.1 hpos
    unfold MHERun.state2
    rw [if_neg h0]
    by_cases hleaf : run.tree.childrenOf i = []
    · rw [if_pos hleaf]
      unfold MHERun.state1
      rw [if_neg h0, if_pos hleaf]
      rfl
    · rw [if_neg hleaf]
      rfl
  have hroot : (run.state2 N 0).round.c
      = run.L.decodeUint ((run.encC N).1 + run.aggShare N 0) := by
    unfold MHERun.state2
    rw [if_pos rfl]
    rfl
  have hva := vecSum_isVec n q hq0 hq run.a N ha
  have hvb := vecSum_isVec n q hq0 hq run.b N hb
  have hc' : ∀ i, i < N → IsVec n q (if i = 0 then List.replicate n 0 else run.c i) := by
    intro i hi
    by_cases h0 : i = 0
    · rw [if_pos h0]; exact isVec_replicate n q hq0
    · rw [if_neg h0]; exact hc i hi
  have hvc := vecSum_isVec n q hq0 hq _ N hc'
  have hP : IsVec n q (List.zipWith (mulCoeff q) (vecSum n q run.b N) (vecSum n q run.a N)) :=
    zipWith_isVec _ hvb.1 hva.1 (fun x y _ _ => mulCoeff_lt x y hq0)
  have hdec := decode_sub_encode run.L n q _ hq hC _ _ hP hvc.1
  rw [← mheRun_root_poly run N n q hN hq0 hq hwf hC hnoise ha hb hc, ← hroot] at hdec
  refine ⟨run.state2 N, fun i hi => mheRun_phase2 run N hN hN64 hwf hL harr0 harr2 N i hi
    (by omega), hab, hcc, hdec.1, ?_⟩
  intro k hk
  have hsa : ∑ i in Finset.range N, (run.state2 N i).round.a.getD k 0
      = ∑ i in Finset.range N, (run.a i).getD k 0 :=
    Finset.sum_congr rfl (fun i hi => by rw [(hab i (Finset.mem_range.1 hi)).1])
  have hsb : ∑ i in Finset.range N, (run.state2 N i).round.b.getD k 0
      = ∑ i in Finset.range N, (run.b i).getD k 0 :=
    Finset.sum_congr rfl (fun i hi => by rw [(hab i (Finset.mem_range.1 hi)).2])
  rw [hsa, hsb]
  apply (ZMod.natCast_eq_natCast_iff' _ _ q).1
  have hsplit : ∑ i in Finset.range N, (run.state2 N i).round.c.getD k 0
      = (run.state2 N 0).round.c.getD k 0
        + ∑ i in Finset.range N, (if i = 0 then List.replicate n 0 else run.c i).getD k 0 := by
    obtain ⟨m, rfl⟩ : ∃ m, N = m + 1 := ⟨N - 1, by omega⟩
    rw [Finset.sum_range_succ', Finset.sum_range_succ', add_comm]
    simp only [if_pos, replicate_getD, add_zero]
    congr 1
    apply Finset.sum_congr rfl
    intro i hi
    rw [hcc (i + 1) (by omega) (by have := Finset.mem_range.1 hi; omega),
      if_neg (by omega)]
  rw [hsplit]
  push_cast
  rw [hdec.2 k hk, zipWith_getD _ _ _ _ (by rw [hvb.1.1]; exact hk) (by rw [hva.1.1]; exact hk),
    mulCoeff_cast, hvb.2 k hk, hva.2 k hk, hvc.2 k hk]
  ring

theorem sampleMHELattice_marshals (s : ZMod 7) : (sampleMHELattice s).Marshals := by
  refine ⟨?_, fun _ _ => rfl, ?_⟩
  · intro ct
    obtain ⟨x, y⟩ := ct
    simp [sampleMHELattice]
  · intro p
    simp [sampleMHELattice]

theorem isVec_one {q : Nat} {v : List Nat} (hv : IsVec 1 q v) :
    v = [v.getD 0 0] ∧ v.getD 0 0 < q := by
  obtain ⟨hl, hx⟩ := hv
  match v, hl, hx with
  | [x], _, hx => exact ⟨rfl, hx x (List.mem_singleton.2 rfl)⟩

theorem sampleMHELattice_contract (s : ZMod 7) : (sampleMHELattice s).Contract 1 7 s := by
  refine ⟨fun _ _ _ => rfl, ?_, ?_, ?_, ?_, ?_⟩
  · intro sk v r _
    simp [sampleMHELattice]
  · intro u v hu hv
    have h := zipWith_getD (addCoeff 7) u v 0 (by rw [hu.1]; decide) (by rw [hv.1]; decide)
    show (((List.zipWith (addCoeff 7) u v).getD 0 0 : Nat) : ZMod 7)
      = ((u.getD 0 0 : Nat) : ZMod 7) + ((v.getD 0 0 : Nat) : ZMod 7)
    rw [h]
    exact addCoeff_cast (by decide) (isVec_one hu).2 (isVec_one hv).2
  · intro ctA ctB u v hu hv hA hB
    have h := zipWith_getD (mulCoeff 7) u v 0 (by rw [hu.1]; decide) (by rw [hv.1]; decide)
    show (ctA.1 + ctA.2 * s) * (ctB.1 + ctB.2 * s) - ctA.2 * ctB.2 * s + ctA.2 * ctB.2 * s
      = (((List.zipWith (mulCoeff 7) u v).getD 0 0 : Nat) : ZMod 7)
    rw [h, mulCoeff_cast, sub_add_cancel, hA, hB]
    rfl
  · intro x sk
    show 0 + x * sk = x * sk
    rw [zero_add]
  · intro v hv
    obtain ⟨h1, h2⟩ := isVec_one hv
    show [(((v.getD 0 0 : Nat) : ZMod 7)).val] = v
    rw [ZMod.val_natCast, Nat.mod_eq_of_lt h2]
    exact h1.symm

/-- Witness of `mhe_end_invariant`: the sample run of two parties over the tree
of `NewTree`, with the noise-free lattice over `ZMod 7`. -/
theorem mhe_end_invariant_witness :
    ∃ st : Nat → MHEState (ZMod 7),
      (∀ i, i < 2 → sampleRun.phase2 2 2 i = some (st i)) ∧
      (∀ i, i < 2 → (st i).round.a = sampleRun.a i ∧ (st i).round.b = sampleRun.b i) ∧
      (∀ i, 0 < i → i < 2 → (st i).round.c = sampleRun.c i) ∧
      IsVec 1 7 (st 0).round.c ∧
      ∀ k, k < 1 →
        ((∑ i in Finset.range 2, (st i).round.a.getD k 0) *
          (∑ i in Finset.range 2, (st i).round.b.getD k 0)) % 7
          = (∑ i in Finset.range 2, (st i).round.c.getD k 0) % 7 :=
  mhe_end_invariant sampleRun 2 1 7 (by decide) (by decide) (by decide) (by decide)
    (by
      obtain ⟨tree, ht, hwf⟩ := newTree_wellFormed 2 2 (mainPeers 2) (by decide) (by decide)
        (by decide) (by
          intro i
          have h : (mainPeers 2).keys = [1, 0] := by decide
          rw [AList.mem_keys, h]
          simp
          omega)
      have htree : sampleRun.tree = tree := by
        show (NewTree (mainPeers 2) 2).getD ∅ = tree
        rw [ht]
        rfl
      rw [htree]
      exact hwf)
    (sampleMHELattice_marshals _)
    (by
      have h : (∑ i in Finset.range 2, sampleRun.sk i) = (3 + 5 : ZMod 7) := by decide
      rw [h]
      exact sampleMHELattice_contract _)
    (fun _ _ => rfl) (by decide) (by decide) (by decide)
    (fun _ _ => List.Perm.refl _) (fun _ _ => List.Perm.refl _)

/-! ### The vector operations as stated in the contract -/

theorem addCoeff_eq_mod {q x y : Nat} (hq : q ≤ 2 ^ 62) (hx : x < q) (hy : y < q) :
    addCoeff q x y = (x + y) % q := by
  unfold addCoeff CRed
  have h : (x + y) % 2 ^ 64 = x + y := Nat.mod_eq_of_lt (by omega)
  rw [h]
  split
  · rename_i hge
    have h2 : x + y = (x + y - q) + q := by omega
    rw [h2, Nat.add_mod_right, Nat.mod_eq_of_lt (by omega)]
    omega
  · rw [Nat.mod_eq_of_lt (by omega)]

theorem subCoeff_eq_emod {q x y : Nat} (hq : q ≤ 2 ^ 62) (hx : x < q) (hy : y < q) :
    ((subCoeff q x y : Nat) : Int) = ((x : Int) - (y : Int)) % (q : Int) := by
  unfold subCoeff CRed
  have h1 : (q + 2 ^ 64 - y) % 2 ^ 64 = q - y := by
    have : q + 2 ^ 64 - y = (q - y) + 2 ^ 64 := by omega
    rw [this, Nat.add_mod_right]
    exact Nat.mod_eq_of_lt (by omega)
  have h2 : (x + (q - y)) % 2 ^ 64 = x + (q - y) := Nat.mod_eq_of_lt (by omega)
  rw [h1, h2]
  split
  · rename_i hge
    have hxy : y ≤ x := by omega
    rw [Int.emod_eq_of_lt (by omega) (by omega)]
    omega
  · rename_i hlt
    have h3 : ((x : Int) - (y : Int)) % (q : Int) = (x : Int) - (y : Int) + (q : Int) := by
      rw [← Int.add_emod_self, Int.emod_eq_of_lt (by omega) (by omega)]
    rw [h3]
    omega

theorem subCoeff_addCoeff {q x y : Nat} (hq : q ≤ 2 ^ 62) (hx : x < q) (hy : y < q) :
    subCoeff q (addCoeff q x y) y = x := by
  unfold subCoeff addCoeff CRed
  have h : (x + y) % 2 ^ 64 = x + y := Nat.mod_eq_of_lt (by omega)
  have h1 : (q + 2 ^ 64 - y) % 2 ^ 64 = q - y := by
    have : q + 2 ^ 64 - y = (q - y) + 2 ^ 64 := by omega
    rw [this, Nat.add_mod_right]
    exact Nat.mod_eq_of_lt (by omega)
  rw [h, h1]
  by_cases hge : x + y ≥ q
  · rw [if_pos hge]
    have h2 : (x + y - q + (q - y)) % 2 ^ 64 = x := by
      have : x + y - q + (q - y) = x := by omega
      rw [this]
      exact Nat.mod_eq_of_lt (by omega)
    rw [h2, if_neg (by omega)]
  · rw [if_neg hge]
    have h2 : (x + y + (q - y)) % 2 ^ 64 = x + q := by
      have : x + y + (q - y) = x + q := by omega
      rw [this]
      exact Nat.mod_eq_of_lt (by omega)
    rw [h2, if_pos (by omega)]
    omega

theorem zipWith_sub_add (q : Nat) (hq : q ≤ 2 ^ 62) :
    ∀ a b : List Nat, a.length = b.length → (∀ x ∈ a, x < q) → (∀ x ∈ b, x < q) →
      List.zipWith (subCoeff q) (List.zipWith (addCoeff q) a b) b = a
  | [], _, _, _, _ => by simp
  | x :: a, [], h, _, _ => by simp at h
  | x :: a, y :: b, h, ha, hb => by
    simp only [List.zipWith_cons_cons]
    rw [subCoeff_addCoeff hq (ha x (List.mem_cons_self _ _)) (hb y (List.mem_cons_self _ _)),
      zipWith_sub_add q hq a b (by simpa using h)
        (fun z hz => ha z (List.mem_cons_of_mem _ hz))
        (fun z hz => hb z (List.mem_cons_of_mem _ hz))]

/-- C13: for `1 ≤ q ≤ 2^62` and vectors `a`, `b` of the same length with all
coordinates below `q`, `addVec` and `subVec` return vectors of the length of
`a`; no intermediate `uint64` value wraps around; coordinate `i` is
`(a[i] + b[i]) mod q`, respectively the representative in `[0, q)` of
`(a[i] - b[i]) mod q`; and subtracting `b` from the sum gives `a` back. -/
theorem addVec_subVec_spec (q : Nat) (hq1 : 1 ≤ q) (hq : q ≤ 2 ^ 62) (a b : List Nat)
    (hlen : a.length = b.length) (ha : ∀ x ∈ a, x < q) (hb : ∀ x ∈ b, x < q) :
    ∃ s d, addVec a b q = some s ∧ subVec a b q = some d ∧
      s.length = a.length ∧ d.length = a.length ∧
      (∀ i, i < a.length →
        a.getD i 0 + b.getD i 0 < 2 ^ 64 ∧ b.getD i 0 ≤ q ∧
        a.getD i 0 + (q - b.getD i 0) < 2 ^ 64 ∧
        s.getD i 0 = (a.getD i 0 + b.getD i 0) % q ∧ s.getD i 0 < q ∧
        ((d.getD i 0 : Nat) : Int) = ((a.getD i 0 : Int) - (b.getD i 0 : Int)) % (q : Int) ∧
        d.getD i 0 < q) ∧
      subVec s b q = some a := by
  have hA : IsVec a.length q a := ⟨rfl, ha⟩
  have hB : IsVec a.length q b := ⟨hlen.symm, hb⟩
  refine ⟨List.zipWith (addCoeff q) a b, List.zipWith (subCoeff q) a b, ?_, ?_, ?_, ?_, ?_, ?_⟩
  · unfold addVec
    rw [if_pos (le_of_eq hlen)]
  · unfold subVec
    rw [if_pos (le_of_eq hlen)]
  · rw [List.length_zipWith]
    omega
  · rw [List.length_zipWith]
    omega
  · intro i hi
    have hx : a.getD i 0 < q := hA.getD_lt hi
    have hy : b.getD i 0 < q := hB.getD_lt hi
    rw [zipWith_getD _ _ _ _ hi (by omega), zipWith_getD _ _ _ _ hi (by omega)]
    refine ⟨by omega, by omega, by omega, addCoeff_eq_mod hq hx hy, addCoeff_lt hq hx hy,
      subCoeff_eq_emod hq hx hy, subCoeff_lt hq hx hy⟩
  · unfold subVec
    rw [if_pos (by rw [List.length_zipWith]; omega), zipWith_sub_add q hq a b hlen ha hb]

theorem addVec_subVec_spec_witness :
    ∃ s d, addVec [3, 6] [5, 2] 7 = some s ∧ subVec [3, 6] [5, 2] 7 = some d ∧
      s.length = [3, 6].length ∧ d.length = [3, 6].length ∧
      (∀ i, i < [3, 6].length →
        [3, 6].getD i 0 + [5, 2].getD i 0 < 2 ^ 64 ∧ [5, 2].getD i 0 ≤ 7 ∧
        [3, 6].getD i 0 + (7 - [5, 2].getD i 0) < 2 ^ 64 ∧
        s.getD i 0 = ([3, 6].getD i 0 + [5, 2].getD i 0) % 7 ∧ s.getD i 0 < 7 ∧
        ((d.getD i 0 : Nat) : Int)
          = (((([3, 6] : List Nat).getD i 0 : Nat) : Int)
              - ((([5, 2] : List Nat).getD i 0 : Nat) : Int)) % ((7 : Nat) : Int) ∧
        d.getD i 0 < 7) ∧
      subVec s [5, 2] 7 = some [3, 6] :=
  addVec_subVec_spec 7 (by decide) (by decide) [3, 6] [5, 2] rfl (by decide) (by decide)

/-- C14: `negVec` does not reduce: the negation of a zero coordinate is `q`
itself, which is not in `[0, q)`; the other coordinates are reduced. -/
theorem negVec_zero_coordinate :
    negVec [0, 3] 7 = [7, 4] ∧ (negVec [0, 3] 7).length = 2 ∧
      ¬ (negVec [0, 3] 7).getD 0 0 < 7 ∧
      (0 + (negVec [0, 3] 7).getD 0 0) % 7 = 0 ∧
      ∀ q : Nat, 1 ≤ q → q ≤ 2 ^ 62 → negVec [0] q = [q] := by
  refine ⟨by decide, by decide, by decide, by decide, ?_⟩
  intro q h1 h2
  unfold negVec
  simp only [List.map_cons, List.map_nil, Nat.sub_zero, Nat.add_mod_right]
  rw [Nat.mod_eq_of_lt (by omega)]

/-! ### A single party -/

/-- C11: with one party (`N = 1`, party 0 alone in the address book) neither
driver reaches the emission of the triples.  The HE driver sends no query and
its message loop blocks on the empty inbound channel, which nobody writes to
or closes; the MHE driver, for the tree that `NewTree` builds, has neither
parent nor children and dereferences the nil parent before its message loop. -/
theorem single_party_drivers {Ct R : Type} (E : Lattice Ct) (L : MHELattice R)
    (round : TripleGenRound Ct) (sk : R) (mround : MHETripleGenRound R) :
    (mainPeers 1).keys = [0] ∧
    (Run.sendInput 0 [0] round).sent = [] ∧
    Run.loop E 0 [0] (Run.sendInput 0 [0] round) [] = .waiting ⟨round, []⟩ ∧
    IsComplete 0 [0] round = true ∧
    ∃ tree tgp, NewTree (mainPeers 1) 2 = some tree ∧
      NewMHETripleGenProtocol 0 sk tree = some tgp ∧
      tgp.Parent = none ∧ tgp.Children = [] ∧ tgp.start L mround = none := by
  refine ⟨by decide, rfl, rfl, rfl, ?_⟩
  refine ⟨_, _, rfl, rfl, rfl, rfl, rfl⟩

/-! ### Party registry -/

theorem newLocalParty_fold (order : List (Sigma fun _ : PartyID => String)) :
    ∀ p : LocalParty,
      order.foldlM
        (fun p e =>
          match NewRemoteParty e.1 e.2 with
          | .ok rp => (.ok { p with Peers := p.Peers.insert e.1 rp } : Except String LocalParty)
          | .error err => .error err) p
      = .ok { p with Peers := order.foldl (fun m e => m.insert e.1 ⟨e.1, e.2⟩) p.Peers } := by
  induction order with
  | nil => intro p; rfl
  | cons e rest ih =>
    intro p
    rw [List.foldlM_cons]
    simp only [NewRemoteParty]
    exact ih _

theorem fold_insert_lookup (k : PartyID) :
    ∀ (order : List (Sigma fun _ : PartyID => String)) (acc : AList (fun _ : PartyID => RemoteParty)),
      order.NodupKeys →
      (order.foldl (fun m e => m.insert e.1 ⟨e.1, e.2⟩) acc).lookup k =
        match List.dlookup k order with
        | some addr => some ⟨k, addr⟩
        | none => acc.lookup k := by
  intro order
  induction order with
  | nil => intro acc _; rfl
  | cons e rest ih =>
    intro acc hnd
    rw [List.nodupKeys_cons] at hnd
    rw [List.foldl_cons, ih _ hnd.2]
    by_cases hk : k = e.1
    · subst hk
      have hnone : List.dlookup e.1 rest = none := by
        rw [List.dlookup_eq_none]
        exact hnd.1
      rw [hnone]
      obtain ⟨e1, e2⟩ := e
      simp [AList.lookup_insert, List.dlookup_cons_eq]
    · obtain ⟨e1, e2⟩ := e
      have hk2 : e1 ≠ k := fun h => hk h.symm
      rw [List.dlookup_cons_ne _ _ hk, AList.lookup_insert_ne hk]

theorem newLocalParty_ok (id : PartyID) (peers : PeerMap)
    (order : List (Sigma fun _ : PartyID => String)) (hperm : order.Perm peers.entries) :
    ∃ lp, NewLocalParty id peers order = .ok lp ∧ lp.ID = id ∧
      lp.Addr = (peers.lookup id).getD "" ∧
      ∀ k, lp.Peers.lookup k = (peers.lookup k).map fun addr => ⟨k, addr⟩ := by
  refine ⟨_, newLocalParty_fold order _, rfl, rfl, ?_⟩
  intro k
  have hnd : order.NodupKeys := (List.perm_nodupKeys hperm).mpr peers.nodupKeys
  simp only []
  rw [fold_insert_lookup k order ∅ hnd, List.perm_dlookup k hnd peers.nodupKeys hperm]
  unfold AList.lookup
  cases List.dlookup k peers.entries <;> simp

/-- C15, counterexample: `NewLocalParty(1, peers)` for the address book of a
single party (key 0), as `main` calls it for the arguments `he 1 1 5`: no error
is returned, but `Peers` has no entry for the local ID. -/
theorem newLocalParty_self_counterexample :
    ∃ lp, NewLocalParty 1 (mainPeers 1) (mainPeers 1).entries = .ok lp ∧ lp.ID = 1 ∧
      lp.Peers.keys = [0] ∧ lp.Peers.lookup lp.ID = none ∧
      ¬ ∃ rp, lp.Peers.lookup 1 = some rp ∧ rp.ID = lp.ID ∧ rp.Addr = lp.Addr := by
  have h : ∃ lp, NewLocalParty 1 (mainPeers 1) (mainPeers 1).entries = .ok lp ∧ lp.ID = 1 ∧
      lp.Peers.keys = [0] ∧ lp.Peers.lookup lp.ID = none :=
    ⟨_, rfl, rfl, by decide, by decide⟩
  obtain ⟨lp, h1, h2, h3, h4⟩ := h
  refine ⟨lp, h1, h2, h3, h4, ?_⟩
  rintro ⟨rp, h5, _⟩
  rw [h2] at h4
  rw [h4] at h5
  cases h5

/-- C15, amended: for every ID and every address book (its entries visited in
any order) `NewLocalParty` returns no error and a party with that ID whose
`Peers` map has exactly the keys of the address book, entry `k` holding
`(k, peers[k])`; the entry for the local ID equals the local party when the ID
is a key of the address book, and otherwise there is no such entry and the
local address is empty. -/
theorem newLocalParty_registry (id : PartyID) (peers : PeerMap)
    (order : List (Sigma fun _ : PartyID => String)) (hperm : order.Perm peers.entries) :
    ∃ lp, NewLocalParty id peers order = .ok lp ∧ lp.ID = id ∧
      (∀ k, lp.Peers.lookup k = (peers.lookup k).map fun addr => ⟨k, addr⟩) ∧
      (id ∈ peers → lp.Peers.lookup lp.ID = some ⟨lp.ID, lp.Addr⟩) ∧
      (id ∉ peers → lp.Peers.lookup lp.ID = none ∧ lp.Addr = "") := by
  obtain ⟨lp, hok, hid, haddr, hlook⟩ := newLocalParty_ok id peers order hperm
  refine ⟨lp, hok, hid, hlook, ?_, ?_⟩
  · intro hmem
    rw [← AList.lookup_isSome] at hmem
    obtain ⟨addr, hsome⟩ := Option.isSome_iff_exists.mp hmem
    rw [hid, hlook id, haddr, hsome]
    rfl
  · intro hmem
    rw [← AList.lookup_eq_none] at hmem
    rw [hid, hlook id, haddr, hmem]
    exact ⟨rfl, rfl⟩

theorem newLocalParty_registry_witness :
    ∃ lp, NewLocalParty 1 (mainPeers 2) (mainPeers 2).entries = .ok lp ∧ lp.ID = 1 ∧
      (∀ k, lp.Peers.lookup k = ((mainPeers 2).lookup k).map fun addr => ⟨k, addr⟩) ∧
      (1 ∈ mainPeers 2 → lp.Peers.lookup lp.ID = some ⟨lp.ID, lp.Addr⟩) ∧
      (1 ∉ mainPeers 2 → lp.Peers.lookup lp.ID = none ∧ lp.Addr = "") :=
  newLocalParty_registry 1 (mainPeers 2) (mainPeers 2).entries (List.Perm.refl _)

/-! ### Connection roles -/

theorem roles_mem (id : PartyID) (lp : LocalParty) (hid : lp.ID = id) (k : PartyID) :
    ∀ (order : List RemoteParty) (acc : ConnectRoles),
      (k ∈ (order.foldl
        (fun r rp =>
          { waitFor := if lp.ID > rp.ID then r.waitFor.insert rp.ID rp else r.waitFor,
            dialFor := if lp.ID < rp.ID then r.dialFor.insert rp.ID rp else r.dialFor })
        acc).waitFor ↔ k ∈ acc.waitFor ∨ (k < id ∧ ∃ rp ∈ order, rp.ID = k)) ∧
      (k ∈ (order.foldl
        (fun r rp =>
          ({ waitFor := if lp.ID > rp.ID then r.waitFor.insert rp.ID rp else r.waitFor,
             dialFor := if lp.ID < rp.ID then r.dialFor.insert rp.ID rp else r.dialFor }
            : ConnectRoles))
        acc).dialFor ↔ k ∈ acc.dialFor ∨ (id < k ∧ ∃ rp ∈ order, rp.ID = k)) := by
  intro order
  induction order with
  | nil => intro acc; simp
  | cons rp rest ih =>
    intro acc
    rw [List.foldl_cons]
    obtain ⟨ih1, ih2⟩ := ih
      { waitFor := if lp.ID > rp.ID then acc.waitFor.insert rp.ID rp else acc.waitFor,
        dialFor := if lp.ID < rp.ID then acc.dialFor.insert rp.ID rp else acc.dialFor }
    rw [ih1, ih2, hid]
    constructor
    · by_cases h : id > rp.ID
      · simp only [if_pos h, AList.mem_insert, List.mem_cons, exists_eq_or_imp]
        constructor
        · rintro ((rfl | h1) | ⟨h1, h2⟩)
          · exact Or.inr ⟨h, Or.inl rfl⟩
          · exact Or.inl h1
          · exact Or.inr ⟨h1, Or.inr h2⟩
        · rintro (h1 | ⟨h1, (h2 | h2)⟩)
          · exact Or.inl (Or.inr h1)
          · exact Or.inl (Or.inl h2.symm)
          · exact Or.inr ⟨h1, h2⟩
      · simp only [if_neg h, List.mem_cons, exists_eq_or_imp]
        constructor
        · rintro (h1 | ⟨h1, h2⟩)
          · exact Or.inl h1
          · exact Or.inr ⟨h1, Or.inr h2⟩
        · rintro (h1 | ⟨h1, (h2 | h2)⟩)
          · exact Or.inl h1
          · exact absurd (h2 ▸ h1) h
          · exact Or.inr ⟨h1, h2⟩
    · by_cases h : id < rp.ID
      · simp only [if_pos h, AList.mem_insert, List.mem_cons, exists_eq_or_imp]
        constructor
        · rintro ((rfl | h1) | ⟨h1, h2⟩)
          · exact Or.inr ⟨h, Or.inl rfl⟩
          · exact Or.inl h1
          · exact Or.inr ⟨h1, Or.inr h2⟩
        · rintro (h1 | ⟨h1, (h2 | h2)⟩)
          · exact Or.inl (Or.inr h1)
          · exact Or.inl (Or.inl h2.symm)
          · exact Or.inr ⟨h1, h2⟩
      · simp only [if_neg h, List.mem_cons, exists_eq_or_imp]
        constructor
        · rintro (h1 | ⟨h1, h2⟩)
          · exact Or.inl h1
          · exact Or.inr ⟨h1, Or.inr h2⟩
        · rintro (h1 | ⟨h1, (h2 | h2)⟩)
          · exact Or.inl h1
          · exact absurd (h2 ▸ h1) h
          · exact Or.inr ⟨h1, h2⟩

theorem roles_readyCount (lp : LocalParty) :
    ∀ (order : List RemoteParty) (acc : ConnectRoles),
      (order.map fun rp => rp.ID).Nodup →
      (∀ rp ∈ order, rp.ID ∉ acc.waitFor ∧ rp.ID ∉ acc.dialFor) →
      Connect.readyCount (order.foldl
        (fun r rp =>
          { waitFor := if lp.ID > rp.ID then r.waitFor.insert rp.ID rp else r.waitFor,
            dialFor := if lp.ID < rp.ID then r.dialFor.insert rp.ID rp else r.dialFor })
        acc)
      = Connect.readyCount acc + (order.filter fun rp => decide (rp.ID ≠ lp.ID)).length := by
  intro order
  induction order with
  | nil => intro acc _ _; rfl
  | cons rp rest ih =>
    intro acc hnd hfresh
    rw [List.map_cons, List.nodup_cons] at hnd
    rw [List.foldl_cons, ih _ hnd.2]
    · obtain ⟨hw, hd⟩ := hfresh rp (List.mem_cons_self _ _)
      rcases Nat.lt_trichotomy lp.ID rp.ID with h | h | h
      · have hne : rp.ID ≠ lp.ID := Nat.ne_of_gt h
        have hng : ¬ lp.ID > rp.ID := Nat.lt_asymm h
        simp only [Connect.readyCount, if_pos h, if_neg hng, AList.insert_entries_of_neg hd,
          List.length_cons, List.filter_cons, decide_eq_true hne, if_true]
        omega
      · have hng : ¬ lp.ID > rp.ID := by rw [h]; exact Nat.lt_irrefl _
        have hnl : ¬ lp.ID < rp.ID := by rw [h]; exact Nat.lt_irrefl _
        have hdec : decide (rp.ID ≠ lp.ID) = false := decide_eq_false (fun hne => hne h.symm)
        simp only [Connect.readyCount, if_neg hng, if_neg hnl, List.filter_cons, hdec]
        simp
      · have hne : rp.ID ≠ lp.ID := Nat.ne_of_lt h
        have hnl : ¬ lp.ID < rp.ID := Nat.lt_asymm h
        simp only [Connect.readyCount, if_pos h, if_neg hnl, AList.insert_entries_of_neg hw,
          List.length_cons, List.filter_cons, decide_eq_true hne, if_true]
        omega
    · intro rp2 hrp2
      obtain ⟨hw, hd⟩ := hfresh rp2 (List.mem_cons_of_mem _ hrp2)
      have hne : rp2.ID ≠ rp.ID := by
        intro heq
        exact hnd.1 (List.mem_map.mpr ⟨rp2, hrp2, heq⟩)
      constructor
      · by_cases h : lp.ID > rp.ID
        · simp only [if_pos h, AList.mem_insert]
          rintro (h1 | h1)
          · exact hne h1
          · exact hw h1
        · simp only [if_neg h]
          exact hw
      · by_cases h : lp.ID < rp.ID
        · simp only [if_pos h, AList.mem_insert]
          rintro (h1 | h1)
          · exact hne h1
          · exact hd h1
        · simp only [if_neg h]
          exact hd

theorem filter_ne_length (id : Nat) :
    ∀ l : List Nat, l.Nodup → id ∈ l → (l.filter fun x => decide (x ≠ id)).length = l.length - 1
  | [], _, h => by simp at h
  | x :: l, hnd, hmem => by
    rw [List.nodup_cons] at hnd
    by_cases hx : x = id
    · subst hx
      have hall : ∀ y ∈ l, decide (y ≠ x) = true := by
        intro y hy
        exact decide_eq_true (fun h => hnd.1 (h ▸ hy))
      rw [List.filter_cons, if_neg (by simp), List.filter_eq_self.mpr hall]
      simp
    · have hmem2 : id ∈ l := by
        rcases List.mem_cons.mp hmem with h | h
        · exact absurd h.symm hx
        · exact h
      have hpos : 0 < l.length := List.length_pos_of_mem hmem2
      rw [List.filter_cons, if_pos (decide_eq_true hx), List.length_cons,
        filter_ne_length id l hnd.2 hmem2, List.length_cons]
      omega

theorem newLocalParty_remotes (peers : PeerMap) (lp : LocalParty)
    (hlook : ∀ k, lp.Peers.lookup k = (peers.lookup k).map fun addr => ⟨k, addr⟩) :
    (lp.remotes.map fun rp => rp.ID) = lp.Peers.keys ∧
      (∀ k, k ∈ lp.Peers.keys ↔ k ∈ peers) ∧
      lp.Peers.keys.length = peers.entries.length := by
  have hkeys : ∀ k, k ∈ lp.Peers.keys ↔ k ∈ peers := by
    intro k
    rw [← AList.mem_keys, ← AList.lookup_isSome, ← AList.lookup_isSome, hlook k]
    cases AList.lookup k peers <;> simp
  refine ⟨?_, hkeys, ?_⟩
  · unfold LocalParty.remotes AList.keys List.keys
    rw [List.map_map]
    apply List.map_congr_left
    intro e he
    have h1 : e.2 ∈ lp.Peers.lookup e.1 := AList.mem_lookup_iff.mpr he
    rw [hlook e.1] at h1
    simp only [Option.mem_def, Option.map_eq_some'] at h1
    obtain ⟨addr, _, h2⟩ := h1
    simp only [Function.comp]
    rw [← h2]
  · have hperm : lp.Peers.keys.Perm peers.keys :=
      (List.perm_ext_iff_of_nodup lp.Peers.keys_nodup peers.keys_nodup).mpr
        (fun k => (hkeys k).trans AList.mem_keys.symm)
    rw [hperm.length_eq]
    unfold AList.keys List.keys
    rw [List.length_map]

theorem roles_of_party (peers : PeerMap) (id : Nat) (hid : id ∈ peers) (lp : LocalParty)
    (hlp : lp.ID = id)
    (hlook : ∀ k, lp.Peers.lookup k = (peers.lookup k).map fun addr => ⟨k, addr⟩)
    (order : List RemoteParty) (horder : order.Perm lp.remotes) :
    (∀ k : Nat, k ∈ (Connect.roles lp order).waitFor ↔ k ∈ peers ∧ k < id) ∧
    (∀ k : Nat, k ∈ (Connect.roles lp order).dialFor ↔ k ∈ peers ∧ id < k) ∧
    Connect.readyCount (Connect.roles lp order) = peers.entries.length - 1 := by
  obtain ⟨hmap, hkeys, hlen⟩ := newLocalParty_remotes peers lp hlook
  have hpermID : (order.map fun rp => rp.ID).Perm lp.Peers.keys := by
    rw [← hmap]
    exact horder.map _
  have hex : ∀ k : Nat, (∃ rp ∈ order, rp.ID = k) ↔ k ∈ peers := by
    intro k
    rw [← hkeys k, ← hpermID.mem_iff, List.mem_map]
  refine ⟨?_, ?_, ?_⟩
  · intro k
    unfold Connect.roles
    rw [(roles_mem id lp hlp k order ⟨∅, ∅⟩).1, hex k]
    simp only [AList.not_mem_empty, false_or]
    exact and_comm
  · intro k
    unfold Connect.roles
    rw [(roles_mem id lp hlp k order ⟨∅, ∅⟩).2, hex k]
    simp only [AList.not_mem_empty, false_or]
    exact and_comm
  · unfold Connect.roles
    rw [roles_readyCount lp order ⟨∅, ∅⟩ (hpermID.nodup_iff.mpr lp.Peers.keys_nodup)
      (fun rp _ => ⟨AList.not_mem_empty _, AList.not_mem_empty _⟩)]
    have hfilter : (order.filter fun rp => decide (rp.ID ≠ lp.ID)).length
        = ((order.map fun rp => rp.ID).filter fun x => decide (x ≠ id)).length := by
      rw [List.filter_map, List.length_map, hlp]
      rfl
    rw [hfilter, (hpermID.filter _).length_eq,
      filter_ne_length id lp.Peers.keys lp.Peers.keys_nodup ((hkeys id).mpr hid), hlen]
    simp [Connect.readyCount]

/-- C12, counterexample: in the address book of two parties, party 0 (the lower
ID) has party 1 in its dial set and not in its accept set, and party 1 (the
higher ID) has party 0 in its accept set and not in its dial set. -/
theorem connect_roles_counterexample :
    ∃ lp0 lp1, NewLocalParty 0 (mainPeers 2) (mainPeers 2).entries = .ok lp0 ∧
      NewLocalParty 1 (mainPeers 2) (mainPeers 2).entries = .ok lp1 ∧
      ¬ (1 ∈ (Connect.roles lp0 lp0.remotes).waitFor ∧
          1 ∉ (Connect.roles lp0 lp0.remotes).dialFor) ∧
      ¬ (0 ∈ (Connect.roles lp1 lp1.remotes).dialFor ∧
          0 ∉ (Connect.roles lp1 lp1.remotes).waitFor) ∧
      (Connect.roles lp0 lp0.remotes).waitFor.keys = [] ∧
      (Connect.roles lp0 lp0.remotes).dialFor.keys = [1] ∧
      (Connect.roles lp1 lp1.remotes).waitFor.keys = [0] ∧
      (Connect.roles lp1 lp1.remotes).dialFor.keys = [] :=
  ⟨_, _, rfl, rfl, by decide, by decide, by decide, by decide, by decide, by decide⟩

/-- C12, amended: for parties `i < j` of one address book, `Connect` makes the
higher-ID party `j` the accepting side of the pair (`i` is in the accept set
`waitFor` of `j` and not in its dial set) and the lower-ID party `i` the
dialling side (`j` is in the dial set `dialFor` of `i` and not in its accept
set); a party is in neither of its own sets, and the number of connections it
waits for, `len(waitFor) + len(dialFor)`, is `N - 1`.  The maps are iterated in
any order. -/
theorem connect_roles (peers : PeerMap) (i j : Nat) (hij : i < j) (hi : i ∈ peers)
    (hj : j ∈ peers) (oi oj : List (Sigma fun _ : PartyID => String))
    (hoi : oi.Perm peers.entries) (hoj : oj.Perm peers.entries) :
    ∃ lpi lpj, NewLocalParty i peers oi = .ok lpi ∧ NewLocalParty j peers oj = .ok lpj ∧
      ∀ ri rj : List RemoteParty, ri.Perm lpi.remotes → rj.Perm lpj.remotes →
        (i ∈ (Connect.roles lpj rj).waitFor ∧ i ∉ (Connect.roles lpj rj).dialFor) ∧
        (j ∈ (Connect.roles lpi ri).dialFor ∧ j ∉ (Connect.roles lpi ri).waitFor) ∧
        (i ∉ (Connect.roles lpi ri).waitFor ∧ i ∉ (Connect.roles lpi ri).dialFor) ∧
        (j ∉ (Connect.roles lpj rj).waitFor ∧ j ∉ (Connect.roles lpj rj).dialFor) ∧
        Connect.readyCount (Connect.roles lpi ri) = peers.entries.length - 1 ∧
        Connect.readyCount (Connect.roles lpj rj) = peers.entries.length - 1 := by
  obtain ⟨lpi, hoki, hidi, _, hlooki⟩ := newLocalParty_ok i peers oi hoi
  obtain ⟨lpj, hokj, hidj, _, hlookj⟩ := newLocalParty_ok j peers oj hoj
  refine ⟨lpi, lpj, hoki, hokj, ?_⟩
  intro ri rj hri hrj
  obtain ⟨hwi, hdi, hci⟩ := roles_of_party peers i hi lpi hidi hlooki ri hri
  obtain ⟨hwj, hdj, hcj⟩ := roles_of_party peers j hj lpj hidj hlookj rj hrj
  refine ⟨⟨(hwj i).mpr ⟨hi, hij⟩, ?_⟩, ⟨(hdi j).mpr ⟨hj, hij⟩, ?_⟩, ⟨?_, ?_⟩, ⟨?_, ?_⟩, hci, hcj⟩
  · intro h
    exact Nat.lt_asymm hij ((hdj i).mp h).2
  · intro h
    exact Nat.lt_asymm hij ((hwi j).mp h).2
  · intro h
    exact Nat.lt_irrefl i ((hwi i).mp h).2
  · intro h
    exact Nat.lt_irrefl i ((hdi i).mp h).2
  · intro h
    exact Nat.lt_irrefl j ((hwj j).mp h).2
  · intro h
    exact Nat.lt_irrefl j ((hdj j).mp h).2

theorem connect_roles_witness :
    ∃ lpi lpj, NewLocalParty 0 (mainPeers 3) (mainPeers 3).entries = .ok lpi ∧
      NewLocalParty 2 (mainPeers 3) (mainPeers 3).entries = .ok lpj ∧
      ∀ ri rj : List RemoteParty, ri.Perm lpi.remotes → rj.Perm lpj.remotes →
        (0 ∈ (Connect.roles lpj rj).waitFor ∧ 0 ∉ (Connect.roles lpj rj).dialFor) ∧
        (2 ∈ (Connect.roles lpi ri).dialFor ∧ 2 ∉ (Connect.roles lpi ri).waitFor) ∧
        (0 ∉ (Connect.roles lpi ri).waitFor ∧ 0 ∉ (Connect.roles lpi ri).dialFor) ∧
        (2 ∉ (Connect.roles lpj rj).waitFor ∧ 2 ∉ (Connect.roles lpj rj).dialFor) ∧
        Connect.readyCount (Connect.roles lpi ri) = (mainPeers 3).entries.length - 1 ∧
        Connect.readyCount (Connect.roles lpj rj) = (mainPeers 3).entries.length - 1 :=
  connect_roles (mainPeers 3) 0 2 (by decide) (by decide) (by decide)
    (mainPeers 3).entries (mainPeers 3).entries (List.Perm.refl _) (List.Perm.refl _)

/-! ### RLK protocol -/

theorem rkgLoop_append {P S K : Type} (L : RKGLattice P S K) (rkg : RkgProtocol P) :
    ∀ (xs ys : List RkgGenMessage) (st : RkgState P S K),
      rkg.loop L st (xs ++ ys) =
        match rkg.loop L st xs with
        | .waiting st1 => rkg.loop L st1 ys
        | .exited st1 unread => .exited st1 (unread ++ ys)
        | .panicked => .panicked
  | [], ys, st => by simp [RkgProtocol.loop]
  | m :: xs, ys, st => by
    simp only [List.cons_append, RkgProtocol.loop]
    cases h : rkg.step L st m with
    | none => rfl
    | some r =>
      obtain ⟨st1, b⟩ := r
      cases b
      · exact rkgLoop_append L rkg xs ys st1
      · rfl

theorem aggregateShareRound1_some {P S K : Type} (L : RKGLattice P S K) (data : List Nat)
    (st st1 : RkgState P S K) (h : aggregateShareRound1 L data st = some st1) :
    ∃ share, L.unmarshalShare data = some share ∧
      st1 = { st with share1 := L.aggregateShares st.share1 share } := by
  unfold aggregateShareRound1 at h
  cases hu : L.unmarshalShare data with
  | none => rw [hu] at h; cases h
  | some share =>
    rw [hu] at h
    exact ⟨share, rfl, (Option.some.inj h).symm⟩

theorem aggregateShareRound2_some {P S K : Type} (L : RKGLattice P S K) (data : List Nat)
    (st st1 : RkgState P S K) (h : aggregateShareRound2 L data st = some st1) :
    ∃ share, L.unmarshalShare data = some share ∧
      st1 = { st with share2 := L.aggregateShares st.share2 share } := by
  unfold aggregateShareRound2 at h
  cases hu : L.unmarshalShare data with
  | none => rw [hu] at h; cases h
  | some share =>
    rw [hu] at h
    exact ⟨share, rfl, (Option.some.inj h).symm⟩

theorem childStep_rlk {P S K : Type} (L : RKGLattice P S K) (rkg : RkgProtocol P)
    (parent : PartyID) (st st1 : RkgState P S K) (m : RkgGenMessage) (b : Bool)
    (h : rkg.childStep L parent st m = some (st1, b)) : st1.rlk = st.rlk := by
  unfold RkgProtocol.childStep at h
  repeat' split at h
  all_goals first
    | (simp at h; done)
    | (simp only [Option.some.injEq, Prod.mk.injEq] at h
       obtain ⟨h1, _⟩ := h
       subst h1
       first
         | rfl
         | (rename_i heq _ _
            first
              | (obtain ⟨_, _, h2⟩ := aggregateShareRound1_some L _ _ _ heq
                 subst h2
                 rfl)
              | (obtain ⟨_, _, h2⟩ := aggregateShareRound2_some L _ _ _ heq
                 subst h2
                 rfl)))

theorem childLoop_rlk {P S K : Type} (L : RKGLattice P S K) (rkg : RkgProtocol P)
    (parent : PartyID) (hp : rkg.Parent = some parent) :
    ∀ (inbox : List RkgGenMessage) (st : RkgState P S K), st.rlk = none →
      (rkg.loop L st inbox).rlk = none
  | [], st, h => h
  | m :: inbox, st, h => by
    unfold RkgProtocol.loop
    cases hs : rkg.step L st m with
    | none => rfl
    | some r =>
      obtain ⟨st1, b⟩ := r
      have hstep : rkg.childStep L parent st m = some (st1, b) := by
        unfold RkgProtocol.step at hs
        rw [hp] at hs
        exact hs
      have h1 : st1.rlk = none := (childStep_rlk L rkg parent st st1 m b hstep).trans h
      cases b
      · exact childLoop_rlk L rkg parent hp inbox st1 h1
      · exact h1

theorem intIncr_eq {x : Int} (h : x + 1 < 2 ^ 63) : intIncr x = x + 1 := by
  unfold intIncr
  rw [if_pos h]

theorem rootStep_round1 {P S K : Type} (L : RKGLattice P S K) (rkg : RkgProtocol P)
    (st : RkgState P S K) (m : RkgGenMessage) (share : S) (hm : m.Round = 1)
    (hu : L.unmarshalShare m.Data = some share) (hlt : st.state + 1 < 2 ^ 63) :
    rkg.rootStep L st m =
      if st.state + 1 = rkg.Children.length then
        some ({ st with
                share1 := L.aggregateShares st.share1 share,
                share2 := L.genShareRoundTwo st.u rkg.SecretKey
                  (L.aggregateShares st.share1 share) st.crp,
                state := 0,
                sent := st.sent ++ rkg.bcast L (L.aggregateShares st.share1 share) }, false)
      else some ({ st with share1 := L.aggregateShares st.share1 share,
                           state := st.state + 1 }, false) := by
  unfold RkgProtocol.rootStep aggregateShareRound1 RkgProtocol.bcast
  rw [if_pos hm, hu]
  simp only []
  rw [intIncr_eq hlt]

theorem rootStep_round3 {P S K : Type} (L : RKGLattice P S K) (rkg : RkgProtocol P)
    (st : RkgState P S K) (m : RkgGenMessage) (share : S) (hm : m.Round = 3)
    (hu : L.unmarshalShare m.Data = some share) (hlt : st.state + 1 < 2 ^ 63) :
    rkg.rootStep L st m =
      if st.state + 1 = rkg.Children.length then
        some ({ st with
                share2 := L.aggregateShares st.share2 share,
                state := st.state + 1,
                rlk := some (L.genRelinearizationKey st.share1
                  (L.aggregateShares st.share2 share)) }, true)
      else some ({ st with share2 := L.aggregateShares st.share2 share,
                           state := st.state + 1 }, false) := by
  unfold RkgProtocol.rootStep aggregateShareRound2
  have h1 : ¬ m.Round = 1 := by rw [hm]; decide
  rw [if_neg h1, if_pos hm, hu]
  simp only []
  rw [intIncr_eq hlt]

theorem rootLoop_below {P S K : Type} (L : RKGLattice P S K) (rkg : RkgProtocol P)
    (hroot : rkg.Parent = none) (r : Int) (hr : r = 1 ∨ r = 3)
    (hc : rkg.Children.length < 2 ^ 63) :
    ∀ (msgs : List RkgGenMessage) (st : RkgState P S K),
      (∀ m ∈ msgs, m.Round = r ∧ (L.unmarshalShare m.Data).isSome) →
      0 ≤ st.state → st.state + msgs.length < rkg.Children.length →
      ∃ st1, rkg.loop L st msgs = .waiting st1 ∧ st1.state = st.state + msgs.length ∧
        st1.rlk = st.rlk ∧ st1.sent = st.sent
  | [], st, _, _, _ => ⟨st, rfl, by simp, rfl, rfl⟩
  | m :: msgs, st, hmsgs, h0, hlt => by
    obtain ⟨hm, hsome⟩ := hmsgs m (List.mem_cons_self _ _)
    obtain ⟨share, hu⟩ := Option.isSome_iff_exists.mp hsome
    have hlen : ((m :: msgs).length : Int) = (msgs.length : Int) + 1 := by simp
    rw [hlen] at hlt
    have hne : ¬ st.state + 1 = (rkg.Children.length : Int) := by omega
    have hlt63 : st.state + 1 < 2 ^ 63 := by omega
    have hstep : ∃ st2, rkg.step L st m = some (st2, false) ∧ st2.state = st.state + 1 ∧
        st2.rlk = st.rlk ∧ st2.sent = st.sent := by
      unfold RkgProtocol.step
      rw [hroot]
      rcases hr with hr | hr
      · rw [hr] at hm
        rw [rootStep_round1 L rkg st m share hm hu hlt63, if_neg hne]
        exact ⟨_, rfl, rfl, rfl, rfl⟩
      · rw [hr] at hm
        rw [rootStep_round3 L rkg st m share hm hu hlt63, if_neg hne]
        exact ⟨_, rfl, rfl, rfl, rfl⟩
    obtain ⟨st2, hs, hst, hrlk, hsent⟩ := hstep
    obtain ⟨st1, hl, h1, h2, h3⟩ := rootLoop_below L rkg hroot r hr hc msgs st2
      (fun x hx => hmsgs x (List.mem_cons_of_mem _ hx)) (by omega) (by omega)
    refine ⟨st1, ?_, ?_, h2.trans hrlk, h3.trans hsent⟩
    · unfold RkgProtocol.loop
      rw [hs]
      exact hl
    · rw [h1, hst, hlen]
      omega

theorem rootLoop_round1 {P S K : Type} (L : RKGLattice P S K) (rkg : RkgProtocol P)
    (hroot : rkg.Parent = none) (hc : rkg.Children.length < 2 ^ 63)
    (msgs : List RkgGenMessage) (st : RkgState P S K)
    (hmsgs : ∀ m ∈ msgs, m.Round = 1 ∧ (L.unmarshalShare m.Data).isSome)
    (h0 : st.state = 0) (hlen : msgs.length = rkg.Children.length)
    (hpos : 1 ≤ rkg.Children.length) :
    ∃ st1, rkg.loop L st msgs = .waiting st1 ∧ st1.state = 0 ∧ st1.rlk = st.rlk ∧
      st1.sent = st.sent ++ rkg.bcast L st1.share1 := by
  rcases List.eq_nil_or_concat msgs with hnil | ⟨init, last, hcat⟩
  · rw [hnil] at hlen
    simp at hlen
    omega
  rw [List.concat_eq_append] at hcat
  subst hcat
  have hlen2 : init.length + 1 = rkg.Children.length := by simpa using hlen
  obtain ⟨st2, hl, hst, hrlk, hsent⟩ := rootLoop_below L rkg hroot 1 (Or.inl rfl) hc init st
    (fun x hx => hmsgs x (List.mem_append_left _ hx)) (by rw [h0]) (by rw [h0]; omega)
  obtain ⟨hm, hsome⟩ := hmsgs last (List.mem_append_right _ (List.mem_singleton_self _))
  obtain ⟨share, hu⟩ := Option.isSome_iff_exists.mp hsome
  have heq : st2.state + 1 = (rkg.Children.length : Int) := by rw [hst, h0]; omega
  have hstep : rkg.step L st2 last = some
      ({ st2 with
         share1 := L.aggregateShares st2.share1 share,
         share2 := L.genShareRoundTwo st2.u rkg.SecretKey
           (L.aggregateShares st2.share1 share) st2.crp,
         state := 0,
         sent := st2.sent ++ rkg.bcast L (L.aggregateShares st2.share1 share) }, false) := by
    unfold RkgProtocol.step
    rw [hroot]
    simp only []
    rw [rootStep_round1 L rkg st2 last share hm hu (by omega), if_pos heq]
  refine ⟨{ st2 with
         share1 := L.aggregateShares st2.share1 share,
         share2 := L.genShareRoundTwo st2.u rkg.SecretKey
           (L.aggregateShares st2.share1 share) st2.crp,
         state := 0,
         sent := st2.sent ++ rkg.bcast L (L.aggregateShares st2.share1 share) },
    ?_, rfl, hrlk, ?_⟩
  · rw [rkgLoop_append, hl]
    simp only [RkgProtocol.loop]
    rw [hstep]
  · simp only []
    rw [hsent]

theorem rootLoop_round3 {P S K : Type} (L : RKGLattice P S K) (rkg : RkgProtocol P)
    (hroot : rkg.Parent = none) (hc : rkg.Children.length < 2 ^ 63)
    (msgs : List RkgGenMessage) (st : RkgState P S K)
    (hmsgs : ∀ m ∈ msgs, m.Round = 3 ∧ (L.unmarshalShare m.Data).isSome)
    (h0 : st.state = 0) (hlen : msgs.length = rkg.Children.length)
    (hpos : 1 ≤ rkg.Children.length) :
    ∃ st1, rkg.loop L st msgs = .exited st1 [] ∧ st1.rlk.isSome ∧ st1.sent = st.sent := by
  rcases List.eq_nil_or_concat msgs with hnil | ⟨init, last, hcat⟩
  · rw [hnil] at hlen
    simp at hlen
    omega
  rw [List.concat_eq_append] at hcat
  subst hcat
  have hlen2 : init.length + 1 = rkg.Children.length := by simpa using hlen
  obtain ⟨st2, hl, hst, hrlk, hsent⟩ := rootLoop_below L rkg hroot 3 (Or.inr rfl) hc init st
    (fun x hx => hmsgs x (List.mem_append_left _ hx)) (by rw [h0]) (by rw [h0]; omega)
  obtain ⟨hm, hsome⟩ := hmsgs last (List.mem_append_right _ (List.mem_singleton_self _))
  obtain ⟨share, hu⟩ := Option.isSome_iff_exists.mp hsome
  have heq : st2.state + 1 = (rkg.Children.length : Int) := by rw [hst, h0]; omega
  have hstep : rkg.step L st2 last = some
      ({ st2 with
         share2 := L.aggregateShares st2.share2 share,
         state := st2.state + 1,
         rlk := some (L.genRelinearizationKey st2.share1
           (L.aggregateShares st2.share2 share)) }, true) := by
    unfold RkgProtocol.step
    rw [hroot]
    simp only []
    rw [rootStep_round3 L rkg st2 last share hm hu (by omega), if_pos heq]
  refine ⟨{ st2 with
         share2 := L.aggregateShares st2.share2 share,
         state := st2.state + 1,
         rlk := some (L.genRelinearizationKey st2.share1
           (L.aggregateShares st2.share2 share)) },
    ?_, rfl, hsent⟩
  rw [rkgLoop_append, hl]
  simp only [RkgProtocol.loop]
  rw [hstep]

theorem filter_eq_length (ch : Nat) :
    ∀ l : List Nat, l.Nodup → ch ∈ l → (l.filter fun x => decide (x = ch)).length = 1
  | [], _, h => by simp at h
  | x :: l, hnd, hmem => by
    rw [List.nodup_cons] at hnd
    by_cases hx : x = ch
    · subst hx
      have hnone : l.filter (fun y => decide (y = x)) = [] := by
        rw [List.filter_eq_nil_iff]
        intro y hy
        simp only [decide_eq_true_eq]
        intro h
        exact hnd.1 (h ▸ hy)
      rw [List.filter_cons, if_pos (by simp), hnone]
      rfl
    · have hmem2 : ch ∈ l := by
        rcases List.mem_cons.mp hmem with h | h
        · exact absurd h.symm hx
        · exact h
      rw [List.filter_cons, if_neg (by simpa using hx)]
      exact filter_eq_length ch l hnd.2 hmem2

theorem sentCount_bcast {P S K : Type} (L : RKGLattice P S K) (rkg : RkgProtocol P)
    (hnd : rkg.Children.Nodup) (s : S) (ch : Nat) (hch : ch ∈ rkg.Children) :
    sentCount (rkg.seeds ++ rkg.bcast L s) ch 2 = 1 := by
  unfold sentCount RkgProtocol.seeds RkgProtocol.bcast
  rw [List.filter_append, List.length_append, List.filter_map, List.filter_map,
    List.length_map, List.length_map]
  have h1 : (rkg.Children.filter
      ((fun x : PartyID × RkgGenMessage => decide (x.1 = ch) && decide (x.2.Round = 2)) ∘
        fun c => (c, ({ PartyID := rkg.ID, Data := beaversSeed, Round := 0 } : RkgGenMessage))))
      = [] := by
    rw [List.filter_eq_nil_iff]
    intro y _
    simp
  have h2 : (rkg.Children.filter
      ((fun x : PartyID × RkgGenMessage => decide (x.1 = ch) && decide (x.2.Round = 2)) ∘
        fun c => (c, ({ PartyID := rkg.ID, Data := L.marshalShare s, Round := 2 }
          : RkgGenMessage))))
      = rkg.Children.filter fun x => decide (x = ch) := by
    apply List.filter_congr
    intro y _
    simp
  rw [h1, h2, filter_eq_length ch rkg.Children hnd hch]
  rfl

/-- C16: a party with a parent never assigns `rlk`, whatever arrives: the
field is nil in every state its loop reaches.  At the root with `c ≥ 1`
children, when `c` round-1 messages arrive before `c` round-3 messages (each
carrying a share that unmarshals): after the `c`-th round-1 message the counter
is 0 again and the round-2 broadcast has been put exactly once on the queue of
every child; after every proper prefix of the arrivals the loop is still
waiting and `rlk` is nil; the `c`-th round-3 message assigns `rlk` and ends the
loop. -/
theorem rkg_key_ownership {P S K : Type} (L : RKGLattice P S K) (child root : RkgProtocol P)
    (parent : PartyID) (hchild : child.Parent = some parent) (hroot : root.Parent = none)
    (hpos : 1 ≤ root.Children.length) (hc : root.Children.length < 2 ^ 63)
    (hnd : root.Children.Nodup) (hseed : (L.crpOfSeed beaversSeed).isSome)
    (r1 r3 : List RkgGenMessage)
    (hlen1 : r1.length = root.Children.length) (hlen3 : r3.length = root.Children.length)
    (hr1 : ∀ m ∈ r1, m.Round = 1 ∧ (L.unmarshalShare m.Data).isSome)
    (hr3 : ∀ m ∈ r3, m.Round = 3 ∧ (L.unmarshalShare m.Data).isSome) :
    (∀ inbox, (child.Run L inbox).rlk = none) ∧
    (∃ st1, root.Run L r1 = .waiting st1 ∧ st1.state = 0 ∧ st1.rlk = none ∧
      st1.sent = root.seeds ++ root.bcast L st1.share1 ∧
      ∀ ch ∈ root.Children, sentCount st1.sent ch 2 = 1) ∧
    (∀ k, k < 2 * root.Children.length →
      ∃ st, root.Run L ((r1 ++ r3).take k) = .waiting st ∧ st.rlk = none) ∧
    (∃ st, root.Run L (r1 ++ r3) = .exited st [] ∧ st.rlk.isSome ∧
      ∀ ch ∈ root.Children, sentCount st.sent ch 2 = 1) := by
  obtain ⟨crp, hcrp⟩ := Option.isSome_iff_exists.mp hseed
  have hinit : ∃ st0 : RkgState P S K, (∀ inbox, root.Run L inbox = root.loop L st0 inbox) ∧
      st0.state = 0 ∧ st0.rlk = none ∧ st0.sent = root.seeds := by
    refine ⟨{ u := (L.genShareRoundOne root.SecretKey crp).1,
              share1 := (L.genShareRoundOne root.SecretKey crp).2,
              share2 := L.allocateShares.2.2,
              crp := crp, rlk := none, state := 0, sent := root.seeds }, ?_, rfl, rfl, rfl⟩
    intro inbox
    unfold RkgProtocol.Run RkgProtocol.rootStart
    rw [hroot, hcrp]
    rfl
  obtain ⟨st0, hrun, hs0, hrlk0, hsent0⟩ := hinit
  obtain ⟨st1, hl1, hs1, hrlk1, hsent1⟩ := rootLoop_round1 L root hroot hc r1 st0 hr1 hs0 hlen1 hpos
  obtain ⟨st3, hl3, hrlk3, hsent3⟩ := rootLoop_round3 L root hroot hc r3 st1 hr3 hs1 hlen3 hpos
  rw [hrlk0] at hrlk1
  rw [hsent0] at hsent1
  refine ⟨?_, ⟨st1, ?_, hs1, hrlk1, hsent1, ?_⟩, ?_, ⟨st3, ?_, hrlk3, ?_⟩⟩
  · intro inbox
    unfold RkgProtocol.Run
    rw [hchild]
    exact childLoop_rlk L child parent hchild inbox _ rfl
  · rw [hrun, hl1]
  · intro ch hch
    rw [hsent1]
    exact sentCount_bcast L root hnd _ ch hch
  · intro k hk
    rw [hrun, List.take_append_eq_append_take, rkgLoop_append]
    by_cases hkc : k < root.Children.length
    · obtain ⟨st, hl, _, hrlk, _⟩ := rootLoop_below L root hroot 1 (Or.inl rfl) hc (r1.take k) st0
        (fun m hm => hr1 m (List.mem_of_mem_take hm)) (by rw [hs0])
        (by rw [List.length_take, hs0]; omega)
      have hzero : k - r1.length = 0 := by omega
      rw [hl, hzero]
      exact ⟨st, rfl, hrlk.trans hrlk0⟩
    · have htake : r1.take k = r1 := List.take_of_length_le (by omega)
      rw [htake, hl1]
      obtain ⟨st, hl, _, hrlk, _⟩ := rootLoop_below L root hroot 3 (Or.inr rfl) hc
        (r3.take (k - r1.length)) st1
        (fun m hm => hr3 m (List.mem_of_mem_take hm)) (by rw [hs1])
        (by rw [List.length_take, hs1]; omega)
      exact ⟨st, hl, hrlk.trans hrlk1⟩
  · rw [hrun, rkgLoop_append, hl1]
    exact hl3
  · intro ch hch
    rw [hsent3, hsent1]
    exact sentCount_bcast L root hnd _ ch hch

theorem rkg_key_ownership_witness :
    (∀ inbox, (sampleRkgChild.Run sampleRKGLattice inbox).rlk = none) ∧
    (∃ st1, sampleRkgRoot.Run sampleRKGLattice sampleRound1 = .waiting st1 ∧
      st1.state = 0 ∧ st1.rlk = none ∧
      st1.sent = sampleRkgRoot.seeds ++ sampleRkgRoot.bcast sampleRKGLattice st1.share1 ∧
      ∀ ch ∈ sampleRkgRoot.Children, sentCount st1.sent ch 2 = 1) ∧
    (∀ k, k < 2 * sampleRkgRoot.Children.length →
      ∃ st, sampleRkgRoot.Run sampleRKGLattice ((sampleRound1 ++ sampleRound3).take k)
        = .waiting st ∧ st.rlk = none) ∧
    (∃ st, sampleRkgRoot.Run sampleRKGLattice (sampleRound1 ++ sampleRound3) = .exited st [] ∧
      st.rlk.isSome ∧ ∀ ch ∈ sampleRkgRoot.Children, sentCount st.sent ch 2 = 1) :=
  rkg_key_ownership sampleRKGLattice sampleRkgChild sampleRkgRoot 0 rfl rfl (by decide)
    (by decide) (by decide) rfl sampleRound1 sampleRound3 rfl rfl (by decide) (by decide)

/-! ### Aggregation and arrival order -/

theorem foldlM_perm {α β : Type} (f : β → α → Option β)
    (hcomm : ∀ b x y, ((f b x).bind fun b1 => f b1 y) = ((f b y).bind fun b1 => f b1 x))
    {l1 l2 : List α} (hperm : l1.Perm l2) : ∀ b, l1.foldlM f b = l2.foldlM f b := by
  induction hperm with
  | nil => intro b; rfl
  | cons x _ ih =>
    intro b
    rw [List.foldlM_cons, List.foldlM_cons]
    cases f b x with
    | none => rfl
    | some b1 => exact ih b1
  | swap x y l =>
    intro b
    simp only [List.foldlM_cons]
    have h := hcomm b y x
    have h1 : (f b y >>= fun b1 => f b1 x >>= fun b2 => List.foldlM f b2 l)
        = (((f b y).bind fun b1 => f b1 x).bind fun b2 => List.foldlM f b2 l) := by
      cases f b y <;> rfl
    have h2 : (f b x >>= fun b1 => f b1 y >>= fun b2 => List.foldlM f b2 l)
        = (((f b x).bind fun b1 => f b1 y).bind fun b2 => List.foldlM f b2 l) := by
      cases f b x <;> rfl
    rw [h1, h2, h]
  | trans _ _ ih1 ih2 =>
    intro b
    exact (ih1 b).trans (ih2 b)

theorem aggregateEncAEncB_comm {R : Type} [AddCommSemigroup R] (L : MHELattice R)
    (round : MHETripleGenRound R) (x y : List Nat) :
    ((aggregateEncAEncB L x round).bind fun r => aggregateEncAEncB L y r)
      = ((aggregateEncAEncB L y round).bind fun r => aggregateEncAEncB L x r) := by
  unfold aggregateEncAEncB
  cases L.unmarshalCt (x.take (x.length / 2)) <;>
    cases L.unmarshalCt (x.drop (x.length / 2)) <;>
    cases L.unmarshalCt (y.take (y.length / 2)) <;>
    cases L.unmarshalCt (y.drop (y.length / 2)) <;>
    simp [add_right_comm]

theorem aggregateDecryptionShare_comm {R : Type} [AddCommSemigroup R] (L : MHELattice R)
    (round : MHETripleGenRound R) (x y : List Nat) :
    ((aggregateDecryptionShare L x round).bind fun r => aggregateDecryptionShare L y r)
      = ((aggregateDecryptionShare L y round).bind fun r => aggregateDecryptionShare L x r) := by
  unfold aggregateDecryptionShare
  cases L.unmarshalPoly x <;> cases L.unmarshalPoly y <;> simp [add_right_comm]

theorem aggregateShareRound1_comm {P S K : Type} (L : RKGLattice P S K)
    (hcomm : ∀ x y, L.aggregateShares x y = L.aggregateShares y x)
    (hassoc : ∀ x y z,
      L.aggregateShares (L.aggregateShares x y) z = L.aggregateShares x (L.aggregateShares y z))
    (st : RkgState P S K) (x y : List Nat) :
    ((aggregateShareRound1 L x st).bind fun r => aggregateShareRound1 L y r)
      = ((aggregateShareRound1 L y st).bind fun r => aggregateShareRound1 L x r) := by
  unfold aggregateShareRound1
  cases L.unmarshalShare x with
  | none => cases L.unmarshalShare y <;> rfl
  | some sx =>
    cases L.unmarshalShare y with
    | none => rfl
    | some sy =>
      simp only [Option.some_bind]
      rw [hassoc, hassoc, hcomm sx sy]

theorem aggregateShareRound2_comm {P S K : Type} (L : RKGLattice P S K)
    (hcomm : ∀ x y, L.aggregateShares x y = L.aggregateShares y x)
    (hassoc : ∀ x y z,
      L.aggregateShares (L.aggregateShares x y) z = L.aggregateShares x (L.aggregateShares y z))
    (st : RkgState P S K) (x y : List Nat) :
    ((aggregateShareRound2 L x st).bind fun r => aggregateShareRound2 L y r)
      = ((aggregateShareRound2 L y st).bind fun r => aggregateShareRound2 L x r) := by
  unfold aggregateShareRound2
  cases L.unmarshalShare x with
  | none => cases L.unmarshalShare y <;> rfl
  | some sx =>
    cases L.unmarshalShare y with
    | none => rfl
    | some sy =>
      simp only [Option.some_bind]
      rw [hassoc, hassoc, hcomm sx sy]

/-- C17: the aggregate held after the messages of the children have been
folded in does not depend on the order of their arrival: for every
permutation of the messages, `aggregateEncAEncB`, `aggregateDecryptionShare`
(addition in the ring, commutative and associative), `aggregateShareRound1`
and `aggregateShareRound2` (for a commutative and associative
`AggregateShares`) end in the same state, or panic for both orders. -/
theorem aggregation_order_independent {R P S K : Type} [AddCommSemigroup R]
    (ML : MHELattice R) (L : RKGLattice P S K)
    (hcomm : ∀ x y, L.aggregateShares x y = L.aggregateShares y x)
    (hassoc : ∀ x y z,
      L.aggregateShares (L.aggregateShares x y) z = L.aggregateShares x (L.aggregateShares y z))
    (ct1 ct2 share1 share2 rkg1 rkg2 : List MHETripleGenMessage)
    (hct : ct1.Perm ct2) (hshare : share1.Perm share2) (hrkg : rkg1.Perm rkg2)
    (round : MHETripleGenRound R) (st : RkgState P S K) :
    ct1.foldlM (fun r m => aggregateEncAEncB ML m.Data r) round
      = ct2.foldlM (fun r m => aggregateEncAEncB ML m.Data r) round ∧
    share1.foldlM (fun r m => aggregateDecryptionShare ML m.Data r) round
      = share2.foldlM (fun r m => aggregateDecryptionShare ML m.Data r) round ∧
    rkg1.foldlM (fun s m => aggregateShareRound1 L m.Data s) st
      = rkg2.foldlM (fun s m => aggregateShareRound1 L m.Data s) st ∧
    rkg1.foldlM (fun s m => aggregateShareRound2 L m.Data s) st
      = rkg2.foldlM (fun s m => aggregateShareRound2 L m.Data s) st :=
  ⟨foldlM_perm _ (fun b x y => aggregateEncAEncB_comm ML b x.Data y.Data) hct round,
   foldlM_perm _ (fun b x y => aggregateDecryptionShare_comm ML b x.Data y.Data) hshare round,
   foldlM_perm _ (fun b x y => aggregateShareRound1_comm L hcomm hassoc b x.Data y.Data) hrkg st,
   foldlM_perm _ (fun b x y => aggregateShareRound2_comm L hcomm hassoc b x.Data y.Data) hrkg st⟩

theorem aggregation_order_independent_witness :
    sampleRound0.foldlM (fun r m => aggregateEncAEncB (sampleMHELattice 1) m.Data r)
        (sampleRun.input 0)
      = sampleRound0.reverse.foldlM (fun r m => aggregateEncAEncB (sampleMHELattice 1) m.Data r)
        (sampleRun.input 0) ∧
    sampleRound2.foldlM (fun r m => aggregateDecryptionShare (sampleMHELattice 1) m.Data r)
        (sampleRun.input 0)
      = sampleRound2.reverse.foldlM
        (fun r m => aggregateDecryptionShare (sampleMHELattice 1) m.Data r) (sampleRun.input 0) ∧
    sampleRound1.foldlM (fun s m => aggregateShareRound1 sampleRKGLattice m.Data s)
        (RkgProtocol.alloc sampleRKGLattice)
      = sampleRound1.reverse.foldlM (fun s m => aggregateShareRound1 sampleRKGLattice m.Data s)
        (RkgProtocol.alloc sampleRKGLattice) ∧
    sampleRound1.foldlM (fun s m => aggregateShareRound2 sampleRKGLattice m.Data s)
        (RkgProtocol.alloc sampleRKGLattice)
      = sampleRound1.reverse.foldlM (fun s m => aggregateShareRound2 sampleRKGLattice m.Data s)
        (RkgProtocol.alloc sampleRKGLattice) :=
  aggregation_order_independent (sampleMHELattice 1) sampleRKGLattice
    (fun x y => Nat.add_comm x y) (fun x y z => Nat.add_assoc x y z)
    sampleRound0 sampleRound0.reverse sampleRound2 sampleRound2.reverse
    sampleRound1 sampleRound1.reverse
    (List.reverse_perm _).symm (List.reverse_perm _).symm (List.reverse_perm _).symm
    (sampleRun.input 0) (RkgProtocol.alloc sampleRKGLattice)

/-! ### Command line -/

/-- C18: an `n_triples` argument that is zero or does not parse only prints
"n triples should be a positive integer": `main` does not exit and calls the
client with `nTriple = 0`, whereas a bad party ID or party count exits with
code 1.  Whether `main` exits does not depend on the fourth argument. -/
theorem main_nTriple_not_validated :
    main "tpl" ["he", "0", "2", "0"]
      = ⟨["n triples should be a positive integer"], .clientHE 0 2 0⟩ ∧
    main "tpl" ["mhe", "0", "2", "x"]
      = ⟨["n triples should be a positive integer"], .clientMHE 0 2 0⟩ ∧
    main "tpl" ["he", "0", "2", "5"] = ⟨[], .clientHE 0 2 5⟩ ∧
    main "tpl" ["he", "x", "2", "5"]
      = ⟨["Party ID should be an unsigned integer"], .exit 1⟩ ∧
    main "tpl" ["he", "0", "x", "5"]
      = ⟨["n party should be an unsigned integer"], .exit 1⟩ ∧
    ∀ (prog a b c d : String) (rest : List String),
      ((main prog (a :: b :: c :: d :: rest)).action = .exit 1 ↔
        (ParseUint b).2 = true ∨ (ParseUint c).2 = true) := by
  refine ⟨by decide, by decide, by decide, by decide, by decide, ?_⟩
  intro prog a b c d rest
  unfold main
  have hlen : ¬ (a :: b :: c :: d :: rest).length < 4 := by simp
  rw [if_neg hlen]
  simp only [List.getD_cons_zero, List.getD_cons_succ]
  by_cases hb : (ParseUint b).2 = true
  · simp [hb]
  · by_cases hc : (ParseUint c).2 = true
    · simp [hb, hc]
    · simp only [hb, hc, if_false, or_self, iff_false, Bool.false_eq_true]
      split <;> simp

/-! ### Emission of the triples -/

theorem emitLoop_pos :
    ∀ (triples : List Triple) (ch : TripleChan) (needed : Nat),
      1 ≤ needed → needed < 2 ^ 64 → ch.buf.length + triples.length ≤ ch.cap →
      Run.emitLoop ch needed triples = some { ch with buf := ch.buf ++ triples.take needed }
  | [], ch, needed, _, _, _ => by simp [Run.emitLoop]
  | t :: rest, ch, needed, h1, h64, hcap => by
    have hlen : (t :: rest).length = rest.length + 1 := rfl
    rw [hlen] at hcap
    unfold Run.emitLoop
    rw [if_pos (by omega)]
    have hdec : (needed + 2 ^ 64 - 1) % 2 ^ 64 = needed - 1 := by
      have : needed + 2 ^ 64 - 1 = (needed - 1) + 2 ^ 64 := by omega
      rw [this, Nat.add_mod_right]
      exact Nat.mod_eq_of_lt (by omega)
    rw [hdec]
    by_cases hone : needed = 1
    · subst hone
      simp
    · rw [if_neg (by omega),
        emitLoop_pos rest { ch with buf := ch.buf ++ [t] } (needed - 1) (by omega) (by omega)
          (by simp only [List.length_append, List.length_singleton]; omega)]
      have htake : (t :: rest).take needed = t :: rest.take (needed - 1) := by
        obtain ⟨k, hk⟩ : ∃ k, needed = k + 1 := ⟨needed - 1, by omega⟩
        subst hk
        simp
      rw [htake]
      simp

theorem emitLoop_zero (triples : List Triple) (ch : TripleChan)
    (h64 : triples.length < 2 ^ 64) (hcap : ch.buf.length + triples.length ≤ ch.cap) :
    Run.emitLoop ch 0 triples = some { ch with buf := ch.buf ++ triples } := by
  cases triples with
  | nil => simp [Run.emitLoop]
  | cons t rest =>
    have hlen : (t :: rest).length = rest.length + 1 := rfl
    rw [hlen] at hcap h64
    unfold Run.emitLoop
    rw [if_pos (by omega)]
    have hdec : (0 + 2 ^ 64 - 1) % 2 ^ 64 = 2 ^ 64 - 1 := by decide
    rw [hdec, if_neg (by decide),
      emitLoop_pos rest { ch with buf := ch.buf ++ [t] } (2 ^ 64 - 1) (by decide) (by decide)
        (by simp only [List.length_append, List.length_singleton]; omega),
      List.take_of_length_le (by omega)]
    simp

theorem emit_spec (n nTriple : Nat) (triples : List Triple) (hn : triples.length = n)
    (hn64 : n < 2 ^ 64) (ht64 : nTriple < 2 ^ 64) :
    Run.emit n nTriple triples =
      some { cap := n, buf := triples.take (if nTriple = 0 then n else min nTriple n),
             closed := true } := by
  unfold Run.emit
  by_cases h0 : nTriple = 0
  · subst h0
    rw [emitLoop_zero triples _ (by omega) (by simp only [List.length_nil]; omega), if_pos rfl,
      List.take_of_length_le (by omega)]
    simp
  · rw [emitLoop_pos triples _ nTriple (by omega) ht64 (by simp only [List.length_nil]; omega),
      if_neg h0]
    have htake : triples.take (min nTriple n) = triples.take nTriple := by
      rw [← hn, List.take_eq_take]
      simp
    rw [htake]
    simp

theorem take_triples (f : Nat → Triple) (n k : Nat) (hk : k ≤ n) :
    ((List.range n).map f).take k = (List.range k).map f := by
  rw [← List.map_take, List.take_range, Nat.min_eq_left hk]

/-- C19: once the message loop has ended with share vectors of length `n`, both
`Run` functions put on the output channel, from position 0 on, the triples
`(a[i], b[i], c[i])` (in HE mode `c` is the share after the decoded aggregate
has been added) and close the channel; `min(nTriple, n)` triples are emitted
when `nTriple ≥ 1`, and all `n` when `nTriple = 0`, the `uint64` counter
wrapping around to `2^64 - 1`. -/
theorem triples_emitted {Ct R : Type} (E : Lattice Ct) (n q nTriple : Nat)
    (round : TripleGenRound Ct) (mround : MHETripleGenRound R)
    (hn64 : n < 2 ^ 64) (ht64 : nTriple < 2 ^ 64)
    (ha : round.a.length = n) (hb : round.b.length = n) (hc : round.c.length = n)
    (hd : (E.decrypt round.encAggr).length = n)
    (hma : mround.a.length = n) (hmb : mround.b.length = n) (hmc : mround.c.length = n) :
    ∃ c he mhe, addVec round.c (E.decrypt round.encAggr) q = some c ∧ c.length = n ∧
      Run.finish E n q nTriple round = some he ∧
      MHETripleGenProtocol.finish n nTriple mround = some mhe ∧
      he.closed = true ∧ mhe.closed = true ∧
      he.buf = (List.range he.buf.length).map
        (fun i => ⟨round.a.getD i 0, round.b.getD i 0, c.getD i 0⟩) ∧
      mhe.buf = (List.range mhe.buf.length).map
        (fun i => ⟨mround.a.getD i 0, mround.b.getD i 0, mround.c.getD i 0⟩) ∧
      (1 ≤ nTriple → he.buf.length = min nTriple n ∧ mhe.buf.length = min nTriple n) ∧
      (nTriple = 0 → he.buf.length = n ∧ mhe.buf.length = n) := by
  have hk : (if nTriple = 0 then n else min nTriple n) ≤ n := by
    split
    · exact le_refl _
    · exact Nat.min_le_right _ _
  have hadd : addVec round.c (E.decrypt round.encAggr) q
      = some (List.zipWith (addCoeff q) round.c (E.decrypt round.encAggr)) := by
    unfold addVec
    rw [if_pos (by omega)]
  have hclen : (List.zipWith (addCoeff q) round.c (E.decrypt round.encAggr)).length = n := by
    rw [List.length_zipWith]
    omega
  have hhe : Run.finish E n q nTriple round = some
      { cap := n,
        buf := (List.range (if nTriple = 0 then n else min nTriple n)).map
          (fun i => ⟨round.a.getD i 0, round.b.getD i 0,
            (List.zipWith (addCoeff q) round.c (E.decrypt round.encAggr)).getD i 0⟩),
        closed := true } := by
    unfold Run.finish decryptTriples
    rw [hadd]
    simp only [Option.bind_eq_bind, Option.some_bind]
    rw [if_pos ⟨by omega, by omega, by omega⟩]
    simp only [Option.some_bind]
    rw [emit_spec n nTriple _ (by simp) hn64 ht64, take_triples _ n _ hk]
  have hmhe : MHETripleGenProtocol.finish n nTriple mround = some
      { cap := n,
        buf := (List.range (if nTriple = 0 then n else min nTriple n)).map
          (fun i => ⟨mround.a.getD i 0, mround.b.getD i 0, mround.c.getD i 0⟩),
        closed := true } := by
    unfold MHETripleGenProtocol.finish MHETripleGenProtocol.decryptTriples
    rw [if_pos ⟨by omega, by omega, by omega⟩]
    simp only [Option.some_bind]
    rw [emit_spec n nTriple _ (by simp) hn64 ht64, take_triples _ n _ hk]
  refine ⟨_, _, _, hadd, hclen, hhe, hmhe, rfl, rfl, ?_, ?_, ?_, ?_⟩
  · simp only [List.length_map, List.length_range]
  · simp only [List.length_map, List.length_range]
  · intro h1
    have hne : ¬ nTriple = 0 := by omega
    simp only [List.length_map, List.length_range, if_neg hne]
    exact ⟨trivial, trivial⟩
  · intro h0
    simp only [List.length_map, List.length_range, if_pos h0]
    exact ⟨trivial, trivial⟩

theorem triples_emitted_witness :
    ∃ c he mhe,
      addVec sampleHERound.c ((idealLattice 2 7).decrypt sampleHERound.encAggr) 7 = some c ∧
      c.length = 2 ∧
      Run.finish (idealLattice 2 7) 2 7 0 sampleHERound = some he ∧
      MHETripleGenProtocol.finish 2 0 sampleMHERound = some mhe ∧
      he.closed = true ∧ mhe.closed = true ∧
      he.buf = (List.range he.buf.length).map
        (fun i => ⟨sampleHERound.a.getD i 0, sampleHERound.b.getD i 0, c.getD i 0⟩) ∧
      mhe.buf = (List.range mhe.buf.length).map
        (fun i => ⟨sampleMHERound.a.getD i 0, sampleMHERound.b.getD i 0,
          sampleMHERound.c.getD i 0⟩) ∧
      (1 ≤ 0 → he.buf.length = min 0 2 ∧ mhe.buf.length = min 0 2) ∧
      (0 = 0 → he.buf.length = 2 ∧ mhe.buf.length = 2) :=
  triples_emitted (idealLattice 2 7) 2 7 0 sampleHERound sampleMHERound (by decide) (by decide)
    rfl rfl rfl rfl rfl rfl rfl

end Tpl
